import Mathlib

/-!
# Geodesic distances on triangle meshes: Fast Marching, update rule, normalisation

A shallow embedding of `src/src/geodesics.cpp` and `src/include/geodesics.h`, and of the
methods `transform` and `itransform` of `mdict::patch_t` in `src/include/mdict/d_mesh.h`.

* C++ arrays (`distances`, `sorted_index`, `clusters`, `color`) are lists; a write
  is `List.set`, a read is `List.getD`.
* `distance_t` values are elements of a linear order `D` with a zero and a greatest
  element `⊤`, which stands for `INFINITY`; the update rule and the normalisation
  work over `WithTop K` for an ordered field `K` (exact arithmetic).
* The priority queue `cola` is the ascending list of its entries, the top first.
* The mesh class `che` is not part of the sources at hand: its operations are the
  fields of the record `che`.
* The entries of the Armadillo matrices of `patch_t` are of type `double`: the methods
  take the rounding `fl` of an arithmetic result as an argument, the identity for exact
  arithmetic and `double_round` (IEEE 754 binary64, round to nearest even) for the
  machine; a `double` is the rational number it stands for.
-/

set_option autoImplicit false

/-! ## Definitions -/

/-- Vertex and half-edge indices (`index_t`, an unsigned integer type). -/
abbrev index_t := Nat

/-- Modelled from the spec: `NIL` of `include.h` (not among the sources), the all-ones
32-bit index that `memset(sorted_index, -1, ...)` writes into every `index_t`. -/
def NIL : index_t := 4294967295

/-- Colour of a finalized vertex in `run_fastmarching`. -/
def BLACK : index_t := 0

/-- Colour of an unvisited vertex in `run_fastmarching`. -/
def GREEN : index_t := 1

/-- Colour of an active vertex in `run_fastmarching`. -/
def RED : index_t := 2

/-- A point or vector of three coordinates (`vertex`, and the columns of `a_mat X(3,2)`). -/
structure vertex (K : Type) where
  x : K
  y : K
  z : K

/-- The mesh adapter `che` as far as `geodesics.cpp` uses it: `n_vertices()`, `vt(he)`,
`gt(v)`, the half-edges `link(v)` pushes into `black_link`, the half-edges `for_star`
visits around `v`, and the half-edge navigation `next`, `prev` of `che.h`. -/
structure che (K : Type) where
  n_vertices : Nat
  vt : index_t → index_t
  gt : index_t → vertex K
  link : index_t → List index_t
  star : index_t → List index_t
  next : index_t → index_t
  prev : index_t → index_t

/-- The members of class `geodesics`. `clusters` is `none` for the `NULL` pointer. -/
structure geodesics (D : Type) where
  clusters : Option (List index_t)
  distances : List D
  sorted_index : List index_t
  n_vertices : Nat
  n_sorted : Nat
  deriving DecidableEq

/-- The members `run_fastmarching` writes, with its local array `color` and its
priority queue `cola`. -/
structure fm_state (D : Type) where
  clusters : Option (List index_t)
  distances : List D
  sorted_index : List index_t
  n_sorted : Nat
  color : List index_t
  cola : List (D × index_t)

/-- The enumeration `geodesics::option_t`. -/
inductive option_t where
  | FM
  | PTP_CPU
  | PTP_GPU
  | HEAT_FLOW
  | HEAT_FLOW_GPU
  deriving DecidableEq, Repr

section fast_marching

variable {K D : Type} [LinearOrder D] [OrderTop D] [Zero D]

/-- The order `operator<` of `pair<distance_t, size_t>`: lexicographic. -/
def pair_lt (a b : D × index_t) : Prop :=
  a.1 < b.1 ∨ (¬ b.1 < a.1 ∧ a.2 < b.2)

instance pair_lt_decidable (a b : D × index_t) : Decidable (pair_lt a b) := by
  unfold pair_lt
  exact inferInstance

/-- The call `cola.push(e)` on the ascending list of the queue entries. -/
def cola_push (e : D × index_t) : List (D × index_t) → List (D × index_t)
  | [] => [e]
  | m :: q => if pair_lt e m then e :: m :: q else m :: cola_push e q

/-- The loop `while(!cola.empty() && color[cola.top().second] == BLACK) cola.pop();`. -/
def cola_pop_black (color : List index_t) : List (D × index_t) → List (D × index_t)
  | [] => []
  | m :: q => if color.getD m.2 NIL = BLACK then cola_pop_black color q else m :: q

/-- The body of `for_star(v_he, mesh, v)` in `run_fastmarching`, lines 163-174, over
the half-edges of the star of `v` still to visit. `he` is the half-edge of the
enclosing loop over `black_link`. -/
def fm_star_loop (mesh : che K) (update_step : che K → List D → index_t → D)
    (he v : index_t) : List index_t → fm_state D → fm_state D
  | [], st => st
  | v_he :: rest, st =>
    let p := update_step mesh st.distances v_he
    if p < st.distances.getD v ⊤ then
      let distances := st.distances.set v p
      let clusters := match st.clusters with
        | none => none
        | some cl =>
          some (cl.set v
            (if distances.getD (mesh.vt (mesh.prev v_he)) ⊤
                < distances.getD (mesh.vt (mesh.next he)) ⊤
             then cl.getD (mesh.vt (mesh.prev he)) NIL
             else cl.getD (mesh.vt (mesh.next he)) NIL))
      fm_star_loop mesh update_step he v rest
        { st with distances := distances, clusters := clusters }
    else
      fm_star_loop mesh update_step he v rest st

/-- Lines 158-159: `if(color[v] == GREEN) color[v] = RED;`. -/
def fm_promote (v : index_t) (st : fm_state D) : fm_state D :=
  if st.color.getD v NIL = GREEN then { st with color := st.color.set v RED } else st

/-- The body of `for(index_t he: black_link)`, lines 154-179, for one half-edge. -/
def fm_link_step (mesh : che K) (update_step : che K → List D → index_t → D)
    (he : index_t) (st : fm_state D) : fm_state D :=
  let v := mesh.vt he
  let st1 := fm_promote v st
  if st1.color.getD v NIL = RED then
    let st2 := fm_star_loop mesh update_step he v (mesh.star v) st1
    if st2.distances.getD v ⊤ < ⊤ then
      { st2 with cola := cola_push (st2.distances.getD v ⊤, v) st2.cola }
    else st2
  else st1

/-- The loop `for(index_t he: black_link)` of `run_fastmarching`. -/
def fm_link_loop (mesh : che K) (update_step : che K → List D → index_t → D) :
    List index_t → fm_state D → fm_state D
  | [], st => st
  | he :: hes, st => fm_link_loop mesh update_step hes (fm_link_step mesh update_step he st)

/-- One evaluation of the condition `!cola.empty()` and of the body of the main loop of
`run_fastmarching`, lines 137-180. The flag tells whether the loop goes on: it is
`false` when the condition fails and at a `break`. -/
def fm_iter (mesh : che K) (update_step : che K → List D → index_t → D) (radio : D)
    (st : fm_state D) : Bool × fm_state D :=
  if st.cola.isEmpty then (false, st)
  else
    match cola_pop_black st.color st.cola with
    | [] => (false, { st with cola := [] })
    | top :: q =>
      let black_i := top.2
      let st1 : fm_state D := { st with color := st.color.set black_i BLACK, cola := q }
      if radio < st1.distances.getD black_i ⊤ then (false, st1)
      else
        let st2 : fm_state D :=
          { st1 with sorted_index := st1.sorted_index.set st1.n_sorted black_i,
                     n_sorted := st1.n_sorted + 1 }
        (true, fm_link_loop mesh update_step (mesh.link black_i) st2)

/-- The loop `while(green_count-- && !cola.empty())` of `run_fastmarching`; the first
argument is `green_count`. -/
def fm_loop (mesh : che K) (update_step : che K → List D → index_t → D) (radio : D) :
    Nat → fm_state D → fm_state D
  | 0, st => st
  | green_count + 1, st =>
    match fm_iter mesh update_step radio st with
    | (true, st1) => fm_loop mesh update_step radio green_count st1
    | (false, st1) => st1

/-- The states in which the main loop of `run_fastmarching` starts an iteration that
runs to its end (one that appends a vertex to `sorted_index`), in order. -/
def fm_trace (mesh : che K) (update_step : che K → List D → index_t → D) (radio : D) :
    Nat → fm_state D → List (fm_state D)
  | 0, _ => []
  | green_count + 1, st =>
    match fm_iter mesh update_step radio st with
    | (true, st1) => st :: fm_trace mesh update_step radio green_count st1
    | (false, _) => []

/-- The vertex `black_i` that an iteration started in `st` takes from the queue. -/
def fm_black (st : fm_state D) : index_t :=
  match cola_pop_black st.color st.cola with
  | [] => NIL
  | top :: _ => top.2

/-- The loop `for(index_t s: sources)` of `run_fastmarching`, lines 129-135; the
second argument is the counter `c`. -/
def fm_init_sources : List index_t → index_t → fm_state D → fm_state D
  | [], _, st => st
  | s :: rest, c, st =>
    let distances := st.distances.set s 0
    let c1 := if st.clusters.isSome then c + 1 else c
    let clusters := st.clusters.map (fun cl => cl.set s c1)
    fm_init_sources rest c1
      { st with distances := distances, clusters := clusters,
                color := st.color.set s RED,
                cola := cola_push (distances.getD s ⊤, s) st.cola }

/-- The state of `run_fastmarching` when it reaches its main loop (lines 108-135). -/
def fm_start (g : geodesics D) (sources : List index_t) : fm_state D :=
  fm_init_sources sources 0
    { clusters := g.clusters, distances := g.distances, sorted_index := g.sorted_index,
      n_sorted := 0, color := List.replicate g.n_vertices GREEN, cola := [] }

/-- The initial value of `green_count`: `n_iter ? n_iter : n_vertices`. -/
def fm_green_count (g : geodesics D) (n_iter : Nat) : Nat :=
  if n_iter ≠ 0 then n_iter else g.n_vertices

/-- The method `geodesics::run_fastmarching`. The function `update_step` of
`geodesics_ptp.h` is not among the sources and is an argument. -/
def geodesics.run_fastmarching (g : geodesics D) (mesh : che K)
    (update_step : che K → List D → index_t → D) (sources : List index_t)
    (n_iter : Nat) (radio : D) : geodesics D :=
  let st := fm_loop mesh update_step radio (fm_green_count g n_iter) (fm_start g sources)
  { g with clusters := st.clusters, distances := st.distances,
           sorted_index := st.sorted_index, n_sorted := st.n_sorted }

/-- The method `geodesics::execute`. Only the Fast Marching engine is among the
sources; the engines of the other options are the argument `engine`. -/
def geodesics.execute (g : geodesics D) (mesh : che K)
    (update_step : che K → List D → index_t → D)
    (engine : option_t → geodesics D → geodesics D)
    (sources : List index_t) (n_iter : Nat) (radio : D) (opt : option_t) : geodesics D :=
  match opt with
  | option_t.FM => g.run_fastmarching mesh update_step sources n_iter radio
  | other => engine other g

/-- The members of a `geodesics` object after lines 13-26 of the constructor. The
array `clusters` is allocated without initialisation and holds zeros here. -/
def geodesics.alloc (n_vertices : Nat) (cluster : Bool) : geodesics D :=
  { clusters := if cluster then some (List.replicate n_vertices 0) else none,
    distances := List.replicate n_vertices ⊤,
    sorted_index := List.replicate n_vertices NIL,
    n_vertices := n_vertices,
    n_sorted := 0 }

/-- The constructor `geodesics::geodesics`; `none` is a failed `assert`. -/
def geodesics.create (mesh : che K) (update_step : che K → List D → index_t → D)
    (engine : option_t → geodesics D → geodesics D)
    (sources : List index_t) (opt : option_t) (cluster : Bool) (n_iter : Nat) (radio : D) :
    Option (geodesics D) :=
  if mesh.n_vertices = 0 then none
  else if sources.length = 0 then none
  else
    some ((geodesics.alloc mesh.n_vertices cluster : geodesics D).execute mesh update_step
      engine sources n_iter radio opt)

/-- The method `geodesics::farthest`; `none` is the failed `assert(n_sorted != 0)`. -/
def geodesics.farthest (g : geodesics D) : Option index_t :=
  if g.n_sorted = 0 then none else some (g.sorted_index.getD (g.n_sorted - 1) NIL)

/-- The method `geodesics::radio`; `none` is a failed `assert(n_sorted != 0)`. -/
def geodesics.radio (g : geodesics D) : Option D :=
  if g.n_sorted = 0 then none
  else g.farthest.map (fun v => g.distances.getD v ⊤)

/-- An iteration started in `st` is causal: it leaves no vertex with a distance below
both its distance before and the distance of the vertex `black_i` it finalizes. -/
def fm_causal (mesh : che K) (update_step : che K → List D → index_t → D) (radio : D)
    (st : fm_state D) : Prop :=
  ∀ u, u < mesh.n_vertices →
    min (st.distances.getD u ⊤) (st.distances.getD (fm_black st) ⊤) ≤
      (fm_iter mesh update_step radio st).2.distances.getD u ⊤

instance fm_causal_decidable (mesh : che K) (update_step : che K → List D → index_t → D)
    (radio : D) (st : fm_state D) : Decidable (fm_causal mesh update_step radio st) := by
  unfold fm_causal
  exact inferInstance

/-- The queue entries ascend in the order of the pairs. -/
def cola_sorted (q : List (D × index_t)) : Prop :=
  q.Pairwise (fun a b => ¬ pair_lt b a)

/-- The vertices joined to a source by a path of link-adjacent vertices: a source is,
and so is the end vertex of every half-edge in the link of such a vertex. -/
inductive link_reachable (mesh : che K) (sources : List index_t) : index_t → Prop where
  | source (s : index_t) : s ∈ sources → link_reachable mesh sources s
  | step (u he : index_t) : link_reachable mesh sources u → he ∈ mesh.link u →
      link_reachable mesh sources (mesh.vt he)

end fast_marching

section update_rule

variable {K : Type} [LinearOrderedField K]

/-- Difference of two points. -/
def vertex.sub (a b : vertex K) : vertex K :=
  { x := a.x - b.x, y := a.y - b.y, z := a.z - b.z }

/-- Inner product of two vectors. -/
def vertex.dot (a b : vertex K) : K :=
  a.x * b.x + a.y * b.y + a.z * b.z

/-- The linear combination `c0 * a + c1 * b` of two vectors. -/
def vertex.comb (c0 : K) (a : vertex K) (c1 : K) (b : vertex K) : vertex K :=
  { x := c0 * a.x + c1 * b.x, y := c0 * a.y + c1 * b.y, z := c0 * a.z + c1 * b.z }

/-- The Euclidean length `norm(v)`; `sqrt` is the square root of the arithmetic. -/
def vertex.norm (sqrt : K → K) (a : vertex K) : K :=
  sqrt (a.dot a)

/-- A matrix of two rows and two columns. -/
structure mat22 (K : Type) where
  m00 : K
  m01 : K
  m10 : K
  m11 : K
  deriving DecidableEq

/-- The product `X.t() * X` for the matrix `X` of columns `X.1` and `X.2`. -/
def gram (X : vertex K × vertex K) : mat22 K :=
  { m00 := X.1.dot X.1, m01 := X.1.dot X.2, m10 := X.2.dot X.1, m11 := X.2.dot X.2 }

/-- The library call `inv_sympd(Q, A)` for a matrix of size two: the inverse of a
symmetric positive definite matrix, `none` when `A` is not positive definite. -/
def inv_sympd (A : mat22 K) : Option (mat22 K) :=
  let det := A.m00 * A.m11 - A.m01 * A.m10
  if 0 < A.m00 ∧ 0 < det then
    some { m00 := A.m11 / det, m01 := -A.m01 / det, m10 := -A.m10 / det, m11 := A.m00 / det }
  else none

/-- The scalar `ones.t() * Q * ones`. -/
def mat22.sum (Q : mat22 K) : K :=
  (Q.m00 + Q.m10) + (Q.m01 + Q.m11)

/-- The scalar `ones.t() * Q * t`. -/
def mat22.ones_mul (Q : mat22 K) (t0 t1 : K) : K :=
  (Q.m00 + Q.m10) * t0 + (Q.m01 + Q.m11) * t1

/-- The scalar `t.t() * Q * t`. -/
def mat22.quad (Q : mat22 K) (t0 t1 : K) : K :=
  (t0 * Q.m00 + t1 * Q.m10) * t0 + (t0 * Q.m01 + t1 * Q.m11) * t1

/-- The discriminant `dis` of line 289. -/
def planar_dis (Q : mat22 K) (t0 t1 : K) : K :=
  Q.ones_mul t0 t1 * Q.ones_mul t0 t1 - Q.sum * (Q.quad t0 t1 - 1)

/-- The value `p` of lines 293-294, for `dis >= 0`. -/
def planar_p (sqrt : K → K) (Q : mat22 K) (t0 t1 : K) : K :=
  (Q.ones_mul t0 t1 + sqrt (planar_dis Q t0 t1)) / Q.sum

/-- The vector `n = X * Q * (t - p * ones)` of line 298. -/
def planar_n (X : vertex K × vertex K) (Q : mat22 K) (t0 t1 p : K) : vertex K :=
  vertex.comb (Q.m00 * (t0 - p) + Q.m01 * (t1 - p)) X.1
    (Q.m10 * (t0 - p) + Q.m11 * (t1 - p)) X.2

/-- The vector `cond = Q * X.t() * n` of line 299. -/
def planar_cond (X : vertex K × vertex K) (Q : mat22 K) (n : vertex K) : K × K :=
  ((vertex.comb Q.m00 X.1 Q.m01 X.2).dot n, (vertex.comb Q.m10 X.1 Q.m11 X.2).dot n)

/-- The edge propagation of lines 305-311: the value `dp[d]` and the index `d`. -/
def edge_propagation (sqrt : K → K) (X : vertex K × vertex K) (t0 t1 : WithTop K) :
    WithTop K × index_t :=
  let dp0 : WithTop K := t0 + ((X.1.norm sqrt : K) : WithTop K)
  let dp1 : WithTop K := t1 + ((X.2.norm sqrt : K) : WithTop K)
  if dp1 < dp0 then (dp1, 1) else (dp0, 0)

/-- The method `geodesics::planar_update`: the returned distance and the final value
of the reference argument `d`. `distances` is the member array, `x` the vertex indices
of the triangle. With an infinite `t(0)` or `t(1)` the test of line 303 holds
whatever the values of `p`, `n` and `cond`. The position `vx`, which the method also
advances, is not represented. -/
def planar_update (sqrt : K → K) (distances : List (WithTop K)) (d : index_t)
    (X : vertex K × vertex K) (x : index_t × index_t × index_t) : WithTop K × index_t :=
  match inv_sympd (gram X) with
  | none => (⊤, d)
  | some Q =>
    let t0 := distances.getD x.1 ⊤
    let t1 := distances.getD x.2.1 ⊤
    match t0, t1 with
    | some a, some b =>
      if 0 ≤ planar_dis Q a b then
        let p := planar_p sqrt Q a b
        let cond := planar_cond X Q (planar_n X Q a b p)
        if 0 ≤ cond.1 ∨ 0 ≤ cond.2 then edge_propagation sqrt X t0 t1
        else ((p : K), d)
      else edge_propagation sqrt X t0 t1
    | _, _ => edge_propagation sqrt X t0 t1

/-- The method `geodesics::update`: the distance and the direction `d` that
`planar_update` yields for the triangle of the half-edge `he`. -/
def update (sqrt : K → K) (distances : List (WithTop K)) (mesh : che K) (he : index_t) :
    WithTop K × index_t :=
  let x0 := mesh.vt (mesh.next he)
  let x1 := mesh.vt (mesh.prev he)
  let x2 := mesh.vt he
  let vx := mesh.gt x2
  planar_update sqrt distances NIL ((mesh.gt x0).sub vx, (mesh.gt x1).sub vx) (x0, x1, x2)

/-- Modelled from the spec: the function `update_step` of `geodesics_ptp.h`, which is not
among the sources. It is the Triangle Update Rule of section 4.1 of the spec for the
triangle of the half-edge `he`: the planar unfold when it is valid, and the edge
propagation `min(d(a) + |edge(a,v)|, d(b) + |edge(b,v)|)` when validity fails or the
Gram matrix is singular. For an invertible Gram matrix this is the value
`geodesics::update` returns. -/
def update_step (sqrt : K → K) (mesh : che K) (distances : List (WithTop K))
    (he : index_t) : WithTop K :=
  let x0 := mesh.vt (mesh.next he)
  let x1 := mesh.vt (mesh.prev he)
  let vx := mesh.gt (mesh.vt he)
  let X := ((mesh.gt x0).sub vx, (mesh.gt x1).sub vx)
  match inv_sympd (gram X) with
  | none => (edge_propagation sqrt X (distances.getD x0 ⊤) (distances.getD x1 ⊤)).1
  | some _ => (update sqrt distances mesh he).1

/-- The quotient `a / b` of two distance values: the field quotient of finite values,
`0` for a finite value over `INFINITY`, and `INFINITY` when `a` is. -/
def fdiv (a b : WithTop K) : WithTop K :=
  match a, b with
  | some x, some m => ((x / m : K) : WithTop K)
  | some _, none => 0
  | none, _ => ⊤

/-- The loop of `normalize`, lines 85-86, over the positions `i` still to visit. -/
def normalize_loop (max : WithTop K) (sorted_index : List index_t) :
    List Nat → List (WithTop K) → List (WithTop K)
  | [], distances => distances
  | i :: rest, distances =>
    let v := sorted_index.getD i NIL
    normalize_loop max sorted_index rest (distances.set v (fdiv (distances.getD v ⊤) max))

/-- The method `geodesics::normalize`. The function `normalize_ptp` of
`geodesics_ptp.h` is not among the sources and is an argument. -/
def geodesics.normalize (normalize_ptp : List (WithTop K) → Nat → List (WithTop K))
    (g : geodesics (WithTop K)) : geodesics (WithTop K) :=
  if g.n_sorted = 0 then
    { g with distances := normalize_ptp g.distances g.n_vertices }
  else
    let max := g.distances.getD (g.sorted_index.getD (g.n_sorted - 1) NIL) ⊤
    { g with distances := normalize_loop max g.sorted_index (List.range g.n_sorted) g.distances }

end update_rule

section fixtures

/-- Bisection for the integer square root: the largest `r` in `[lo, hi)` with
`r * r <= n`, given `lo * lo <= n < hi * hi`; the first argument bounds the number of
halvings. -/
def nat_sqrt_search : Nat → Nat → Nat → Nat → Nat
  | 0, _, lo, _ => lo
  | fuel + 1, n, lo, hi =>
    if hi ≤ lo + 1 then lo
    else if ((lo + hi) / 2) * ((lo + hi) / 2) ≤ n then nat_sqrt_search fuel n ((lo + hi) / 2) hi
    else nat_sqrt_search fuel n lo ((lo + hi) / 2)

/-- The integer square root of a number below `2 ^ 128`. -/
def nat_sqrt (n : Nat) : Nat :=
  nat_sqrt_search 130 n 0 (n + 1)

/-- The square root of a rational number that is the square of a rational number (on
other arguments the roots of numerator and denominator, rounded down), for evaluating
the update rule on examples. -/
def qsqrt (q : ℚ) : ℚ :=
  (nat_sqrt q.num.natAbs : ℚ) / (nat_sqrt q.den : ℚ)

/-- The edge matrix at the right angle of a triangle with legs `3` and `4`. -/
def right_X (K : Type) [LinearOrderedField K] : vertex K × vertex K :=
  ({ x := 3, y := 0, z := 0 }, { x := 0, y := 4, z := 0 })

/-- The edge matrix at the apex of a triangle over the base from `(-3, -4)` to
`(3, -4)`, seen from the apex at the origin. -/
def apex_X (K : Type) [LinearOrderedField K] : vertex K × vertex K :=
  ({ x := -3, y := -4, z := 0 }, { x := 3, y := -4, z := 0 })

/-- The inverse of the Gram matrix of `apex_X`. -/
def apex_Q (K : Type) [LinearOrderedField K] : mat22 K :=
  { m00 := 25 / 576, m01 := -7 / 576, m10 := -7 / 576, m11 := 25 / 576 }

/-- A mesh of the two triangles `(0, 2, 3)` and `(0, 3, 1)` over the points
`0 = (0, 0)`, `1 = (0, 132)`, `2 = (30, 40)`, `3 = (39, 80)`; the angle at vertex `2` is
obtuse. Half-edge `3 * t + i` is corner `i` of triangle `t`; `link` and `star` list
the half-edges around each vertex in the order of the rotation about it. -/
def obtuse_mesh (K : Type) [LinearOrderedField K] : che K :=
  { n_vertices := 4
    vt := fun he => [0, 2, 3, 0, 3, 1].getD he 0
    gt := fun v =>
      [({ x := 0, y := 0, z := 0 } : vertex K), { x := 0, y := 132, z := 0 },
        { x := 30, y := 40, z := 0 }, { x := 39, y := 80, z := 0 }].getD v
        { x := 0, y := 0, z := 0 }
    link := fun v => [[1, 4, 5], [3, 4], [2, 0], [5, 0, 1]].getD v []
    star := fun v => [[0, 3], [5], [1], [4, 2]].getD v []
    next := fun he => 3 * (he / 3) + (he + 1) % 3
    prev := fun he => 3 * (he / 3) + (he + 2) % 3 }

/-- A mesh of two triangles without a common vertex: `(0, 1, 2)` with a right angle at
`0` and legs `3` and `4`, and a copy `(3, 4, 5)` of it shifted by `10`. -/
def split_mesh (K : Type) [LinearOrderedField K] : che K :=
  { n_vertices := 6
    vt := fun he => he
    gt := fun v =>
      [({ x := 0, y := 0, z := 0 } : vertex K), { x := 3, y := 0, z := 0 },
        { x := 0, y := 4, z := 0 }, { x := 10, y := 0, z := 0 },
        { x := 13, y := 0, z := 0 }, { x := 10, y := 4, z := 0 }].getD v
        { x := 0, y := 0, z := 0 }
    link := fun v => [[1, 2], [2, 0], [0, 1], [4, 5], [5, 3], [3, 4]].getD v []
    star := fun v => [[0], [1], [2], [3], [4], [5]].getD v []
    next := fun he => 3 * (he / 3) + (he + 1) % 3
    prev := fun he => 3 * (he / 3) + (he + 2) % 3 }

/-- The members after Fast Marching on `obtuse_mesh` from the sources `0` and `1`. -/
def obtuse_result (K : Type) [LinearOrderedField K] : geodesics (WithTop K) :=
  { clusters := none,
    distances := [0, 0, ((30 : K) : WithTop K), ((39 : K) : WithTop K)],
    sorted_index := [0, 1, 3, 2], n_vertices := 4, n_sorted := 4 }

/-- The members after Fast Marching on `obtuse_mesh` from the sources `0` and `1` with
the budget `n_iter = 1`. -/
def obtuse_result_1 (K : Type) [LinearOrderedField K] : geodesics (WithTop K) :=
  { clusters := none,
    distances := [0, 0, ((50 : K) : WithTop K), ((39 : K) : WithTop K)],
    sorted_index := [0, NIL, NIL, NIL], n_vertices := 4, n_sorted := 1 }

/-- The state of the main loop of Fast Marching on `obtuse_mesh` after its first pass. -/
def obtuse_state_1 : fm_state (WithTop ℚ) :=
  fm_loop (obtuse_mesh ℚ) (update_step qsqrt) ⊤ 1
    (fm_start (geodesics.alloc 4 false : geodesics (WithTop ℚ)) [0, 1])

end fixtures

section fixtures_more

/-- The state of the main loop of Fast Marching on `split_mesh` from the source `0`
with `radio = 3` after two passes: the vertices `0` and `1` are sorted and the queue
holds vertex `2` at distance `4`. -/
def radius_state : fm_state (WithTop ℚ) :=
  fm_loop (split_mesh ℚ) (update_step qsqrt) ((3 : ℚ) : WithTop ℚ) 2
    (fm_start (geodesics.alloc 6 false : geodesics (WithTop ℚ)) [0])

/-- The mesh of the single triangle `(0, 1, 2)` over the points `A = (0, 0)`,
`B = (3, 0)`, `C = (0, 4)`, with the right angle at `A`. Half-edge `i` is corner `i`; the
link of a vertex holds the half-edges of its two neighbours, the star its own corner. -/
def right_mesh (K : Type) [LinearOrderedField K] : che K :=
  { n_vertices := 3
    vt := fun he => [0, 1, 2].getD he 0
    gt := fun v =>
      [({ x := 0, y := 0, z := 0 } : vertex K), { x := 3, y := 0, z := 0 },
        { x := 0, y := 4, z := 0 }].getD v { x := 0, y := 0, z := 0 }
    link := fun v => [[1, 2], [2, 0], [0, 1]].getD v []
    star := fun v => [[0], [1], [2]].getD v []
    next := fun he => 3 * (he / 3) + (he + 1) % 3
    prev := fun he => 3 * (he / 3) + (he + 2) % 3 }

/-- The members after Fast Marching on `right_mesh` from the source `0`. -/
def right_result (K : Type) [LinearOrderedField K] : geodesics (WithTop K) :=
  { clusters := none,
    distances := [0, ((3 : K) : WithTop K), ((4 : K) : WithTop K)],
    sorted_index := [0, 1, 2], n_vertices := 3, n_sorted := 3 }

/-- A mesh of the two right triangles `(0, 1, 2)` and `(0, 2, 3)` over the points
`0 = (3, 4)`, `1 = (6, 0)`, `2 = (6, 4)`, `3 = (3, 8)`: the edges `0-2`, `1-2`, `0-1`
have the lengths `3`, `4`, `5` and the edges `0-2`, `0-3`, `2-3` the lengths `3`, `4`,
`5`. Half-edge `3 * t + i` is corner `i` of triangle `t`; `link` and `star` list the
half-edges around each vertex in the order of the rotation about it. -/
def kite_mesh (K : Type) [LinearOrderedField K] : che K :=
  { n_vertices := 4
    vt := fun he => [0, 1, 2, 0, 2, 3].getD he 0
    gt := fun v =>
      [({ x := 3, y := 4, z := 0 } : vertex K), { x := 6, y := 0, z := 0 },
        { x := 6, y := 4, z := 0 }, { x := 3, y := 8, z := 0 }].getD v
        { x := 0, y := 0, z := 0 }
    link := fun v => [[1, 4, 5], [2, 0], [5, 0, 1], [3, 4]].getD v []
    star := fun v => [[0, 3], [1], [4, 2], [5]].getD v []
    next := fun he => 3 * (he / 3) + (he + 1) % 3
    prev := fun he => 3 * (he / 3) + (he + 2) % 3 }

/-- The members after Fast Marching with clustering on `kite_mesh` from the sources `1`
and `3`. -/
def kite_result (K : Type) [LinearOrderedField K] : geodesics (WithTop K) :=
  { clusters := some [1, 1, 1, 2],
    distances := [((4 : K) : WithTop K), 0, ((4 : K) : WithTop K), 0],
    sorted_index := [1, 3, 0, 2], n_vertices := 4, n_sorted := 4 }

end fixtures_more

section invariants

variable {K D : Type} [LinearOrder D] [OrderTop D] [Zero D]

/-- What the relaxation of the neighbours of `black_i` may change: no entry of
`sorted_index`, no array size, distances only downwards and only at vertices that
are not `BLACK`, colours only from `GREEN` to `RED`. -/
structure fm_frame (st st1 : fm_state D) : Prop where
  sorted_eq : st1.sorted_index = st.sorted_index
  n_sorted_eq : st1.n_sorted = st.n_sorted
  dist_len : st1.distances.length = st.distances.length
  color_len : st1.color.length = st.color.length
  dist_le : ∀ u, st1.distances.getD u ⊤ ≤ st.distances.getD u ⊤
  dist_black : ∀ u, st.color.getD u NIL = BLACK →
    st1.distances.getD u ⊤ = st.distances.getD u ⊤
  dist_green : ∀ u, st1.color.getD u NIL = GREEN →
    st1.distances.getD u ⊤ = st.distances.getD u ⊤
  dist_red : ∀ u, st1.color.getD u NIL ≠ RED →
    st1.distances.getD u ⊤ = st.distances.getD u ⊤
  color_step : ∀ u, st1.color.getD u NIL = st.color.getD u NIL ∨
    (st.color.getD u NIL = GREEN ∧ st1.color.getD u NIL = RED)

/-- The arrays keep their size `n`, the queue holds vertices below `n`, and the first
`n_sorted` entries of `sorted_index` are pairwise distinct `BLACK` vertices below `n`. -/
structure fm_wf (n : Nat) (st : fm_state D) : Prop where
  dist_len : st.distances.length = n
  color_len : st.color.length = n
  sorted_len : st.sorted_index.length = n
  cola_lt : ∀ e ∈ st.cola, e.2 < n
  nodup : (st.sorted_index.take st.n_sorted).Nodup
  sorted_black : ∀ x ∈ st.sorted_index.take st.n_sorted,
    x < n ∧ st.color.getD x NIL = BLACK
  n_sorted_le : st.n_sorted ≤ n

/-- Every vertex in the queue, in the sorted order, or at a distance other than
`INFINITY` is joined to a source by a path of link-adjacent vertices. -/
structure fm_reach (mesh : che K) (sources : List index_t) (st : fm_state D) : Prop where
  cola : ∀ e ∈ st.cola, link_reachable mesh sources e.2
  dist : ∀ u, st.distances.getD u ⊤ ≠ ⊤ → link_reachable mesh sources u
  sorted : ∀ x ∈ st.sorted_index.take st.n_sorted, link_reachable mesh sources x

/-- The queue holds, in ascending order, an entry with the current distance for every
`RED` vertex at a finite distance; no key of a vertex that is not `BLACK` is below the
current distance of the vertex; and a vertex that is neither `RED` nor `BLACK` is at
`INFINITY`. -/
structure fm_queue (st : fm_state D) : Prop where
  sorted : cola_sorted st.cola
  red_mem : ∀ u, st.color.getD u NIL = RED → st.distances.getD u ⊤ < ⊤ →
    (st.distances.getD u ⊤, u) ∈ st.cola
  key_ge : ∀ e ∈ st.cola, st.color.getD e.2 NIL ≠ BLACK → st.distances.getD e.2 ⊤ ≤ e.1
  other_top : ∀ u, st.color.getD u NIL ≠ RED → st.color.getD u NIL ≠ BLACK →
    st.distances.getD u ⊤ = ⊤

/-- The distances of the sorted vertices do not exceed the distance of any vertex that
is not `BLACK`, and ascend along the sorted order. -/
structure fm_order (st : fm_state D) : Prop where
  le_open : ∀ x ∈ st.sorted_index.take st.n_sorted, ∀ u,
    st.color.getD u NIL ≠ BLACK → st.distances.getD x ⊤ ≤ st.distances.getD u ⊤
  mono : (st.sorted_index.take st.n_sorted).Pairwise
    (fun x y => st.distances.getD x ⊤ ≤ st.distances.getD y ⊤)

end invariants

section invariants_more

variable {K D : Type} [LinearOrder D] [OrderTop D] [Zero D]

/-- In a run without radius bound every vertex in the queue or in the sorted order is at
a finite distance, and every `BLACK` vertex is in the sorted order. -/
structure fm_finite (st : fm_state D) : Prop where
  cola_fin : ∀ e ∈ st.cola, st.distances.getD e.2 ⊤ < ⊤
  sorted_fin : ∀ x ∈ st.sorted_index.take st.n_sorted, st.distances.getD x ⊤ < ⊤
  black_sorted : ∀ u, st.color.getD u NIL = BLACK → u ∈ st.sorted_index.take st.n_sorted

end invariants_more

section patches

variable {K : Type} [CommRing K]

/-- The members of `mdict::patch_t` (`d_mesh.h`): the number `n` of vertices of the
patch, their `indexes`, the coordinate matrix `xyz` of three rows and `m` columns, the
centre `avg`, the basis `E` of three rows and columns, and the matrix `phi`, kept as the
list of its rows. -/
structure patch_t (K : Type) (m : Nat) where
  n : Nat
  indexes : List index_t
  xyz : Matrix (Fin 3) (Fin m) K
  avg : Fin 3 → K
  E : Matrix (Fin 3) (Fin 3) K
  phi : List (List K)

/-- The inner product of two columns of three `double` entries as a matrix product
accumulates it: every product and every partial sum, taken in the order of the index, is
rounded by `fl`. -/
def dot3 (fl : K → K) (a b : Fin 3 → K) : K :=
  fl (fl (fl (a 0 * b 0) + fl (a 1 * b 1)) + fl (a 2 * b 2))

/-- The method `patch_t::transform`: `xyz.each_col() -= avg; xyz = E.t() * xyz;`. The
entries are of type `double`: `fl` is the rounding of the result of an arithmetic
operation, the identity for exact arithmetic and `double_round` for the machine. -/
def patch_t.transform {m : Nat} (fl : K → K) (p : patch_t K m) : patch_t K m :=
  let xyz1 : Matrix (Fin 3) (Fin m) K := Matrix.of (fun i j => fl (p.xyz i j - p.avg i))
  { p with xyz := Matrix.of (fun i j => dot3 fl (fun k => p.E k i) (fun k => xyz1 k j)) }

/-- The method `patch_t::itransform`: `xyz = E * xyz; xyz.each_col() += avg;`, with the
rounding `fl` of the result of an arithmetic operation. -/
def patch_t.itransform {m : Nat} (fl : K → K) (p : patch_t K m) : patch_t K m :=
  let xyz1 : Matrix (Fin 3) (Fin m) K :=
    Matrix.of (fun i j => dot3 fl (fun k => p.E i k) (fun k => p.xyz k j))
  { p with xyz := Matrix.of (fun i j => fl (xyz1 i j + p.avg i)) }

/-- The unit in the last place for a magnitude `a`: the least `u` among
`2 ^ (-1074), 2 ^ (-1073), ...` with `a < u * 2 ^ 53`; the first argument bounds the
number of doublings. -/
def double_ulp_search : Nat → ℚ → ℚ → ℚ
  | 0, _, u => u
  | fuel + 1, a, u => if a < u * 2 ^ 53 then u else double_ulp_search fuel a (2 * u)

/-- The spacing of the IEEE 754 binary64 numbers (`double`) around `q`: `2 ^ (e - 52)`
for `2 ^ e <= |q| < 2 ^ (e + 1)`, and `2 ^ (-1074)` in the subnormal range. The `2046`
doublings cover every magnitude below `2 ^ 1024`. -/
def double_ulp (q : ℚ) : ℚ :=
  double_ulp_search 2046 (if q < 0 then -q else q) (1 / 2 ^ 1074)

/-- Rounding to the nearest integer, a tie to the even one. -/
def round_half_even (x : ℚ) : ℤ :=
  if x - ⌊x⌋ < 1 / 2 then ⌊x⌋
  else if 1 / 2 < x - ⌊x⌋ then ⌊x⌋ + 1
  else if ⌊x⌋ % 2 = 0 then ⌊x⌋ else ⌊x⌋ + 1

/-- The `double` nearest to the rational number `q`, a tie to the even significand: the
rounding of IEEE 754 binary64 arithmetic in the default mode, which a `double` addition,
subtraction or multiplication applies to its exact result. Results of magnitude
`2 ^ 1024` and more (overflow to infinity) are not represented. -/
def double_round (q : ℚ) : ℚ :=
  (round_half_even (q / double_ulp q) : ℚ) * double_ulp q

/-- A patch of two points whose basis is the quarter turn about the third axis. -/
def turn_patch : patch_t ℚ 2 :=
  { n := 2, indexes := [0, 1],
    xyz := Matrix.of (fun i j => (([[1, 2], [3, 4], [5, 6]] : List (List ℚ)).getD i []).getD j 0),
    avg := fun i => ([1, 1, 1] : List ℚ).getD i 0,
    E := Matrix.of (fun i j =>
      (([[0, 1, 0], [-1, 0, 0], [0, 0, 1]] : List (List ℚ)).getD i []).getD j 0),
    phi := [] }

/-- The `double` nearest to `1e-20`. -/
def tiny : ℚ := 6646139978924579 / 2 ^ 119

/-- A patch of one point with the coordinates `1e-20`, the centre `(1, 1, 1)` and the
identity as basis. -/
def tiny_patch : patch_t ℚ 1 :=
  { n := 1, indexes := [0],
    xyz := Matrix.of (fun _ _ => tiny),
    avg := fun _ => 1,
    E := Matrix.of (fun i j => if i = j then 1 else 0),
    phi := [] }

end patches

/-! ## Theorems -/

set_option linter.unusedSectionVars false

section array_lemmas

variable {α : Type}

theorem getD_set_ne (l : List α) (i j : Nat) (a d : α) (h : i ≠ j) :
    (l.set i a).getD j d = l.getD j d := by
  simp [List.getD_eq_getElem?_getD, List.getElem?_set_ne h]

theorem getD_set_eq (l : List α) (i : Nat) (a d : α) (h : i < l.length) :
    (l.set i a).getD i d = a := by
  simp [List.getD_eq_getElem?_getD, List.getElem?_set_self, h]

theorem getD_set_oob (l : List α) (i j : Nat) (a d : α) (h : l.length ≤ i) :
    (l.set i a).getD j d = l.getD j d := by
  by_cases hij : i = j
  · subst hij
    simp [List.getD_eq_getElem?_getD, List.getElem?_eq_none, h]
  · exact getD_set_ne l i j a d hij

theorem getD_oob (l : List α) (i : Nat) (d : α) (h : l.length ≤ i) : l.getD i d = d := by
  simp [List.getD_eq_getElem?_getD, List.getElem?_eq_none, h]

theorem getD_set_cases (l : List α) (v u : Nat) (p d : α) :
    (l.set v p).getD u d = p ∨ (l.set v p).getD u d = l.getD u d := by
  by_cases hvu : v = u
  · subst hvu
    by_cases hlen : v < l.length
    · left; exact getD_set_eq l v p d hlen
    · right; exact getD_set_oob l v v p d (not_lt.mp hlen)
  · right; exact getD_set_ne l v u p d hvu

end array_lemmas

section fast_marching_frame

variable {K D : Type} [LinearOrder D] [OrderTop D]

/-- A write of a smaller value at `v` lowers no entry of `distances` but that of `v`. -/
theorem getD_set_le (l : List D) (v u : Nat) (p : D) (h : p < l.getD v ⊤) :
    (l.set v p).getD u ⊤ ≤ l.getD u ⊤ := by
  by_cases hvu : v = u
  · subst hvu
    by_cases hlen : v < l.length
    · rw [getD_set_eq l v p ⊤ hlen]; exact le_of_lt h
    · rw [getD_set_oob l v v p ⊤ (not_lt.mp hlen)]
  · rw [getD_set_ne l v u p ⊤ hvu]

theorem fm_star_loop_color (mesh : che K) (upd : che K → List D → index_t → D)
    (he v : index_t) (hes : List index_t) (st : fm_state D) :
    (fm_star_loop mesh upd he v hes st).color = st.color := by
  induction hes generalizing st with
  | nil => rfl
  | cons v_he rest ih =>
    simp only [fm_star_loop]
    split
    · rw [ih]
    · rw [ih]

theorem fm_star_loop_cola (mesh : che K) (upd : che K → List D → index_t → D)
    (he v : index_t) (hes : List index_t) (st : fm_state D) :
    (fm_star_loop mesh upd he v hes st).cola = st.cola := by
  induction hes generalizing st with
  | nil => rfl
  | cons v_he rest ih =>
    simp only [fm_star_loop]
    split
    · rw [ih]
    · rw [ih]

theorem fm_star_loop_sorted (mesh : che K) (upd : che K → List D → index_t → D)
    (he v : index_t) (hes : List index_t) (st : fm_state D) :
    (fm_star_loop mesh upd he v hes st).sorted_index = st.sorted_index ∧
      (fm_star_loop mesh upd he v hes st).n_sorted = st.n_sorted := by
  induction hes generalizing st with
  | nil => exact ⟨rfl, rfl⟩
  | cons v_he rest ih =>
    simp only [fm_star_loop]
    split
    · exact ih _
    · exact ih _

theorem fm_star_loop_distances_ne (mesh : che K) (upd : che K → List D → index_t → D)
    (he v u : index_t) (hvu : v ≠ u) (hes : List index_t) (st : fm_state D) :
    (fm_star_loop mesh upd he v hes st).distances.getD u ⊤ = st.distances.getD u ⊤ := by
  induction hes generalizing st with
  | nil => rfl
  | cons v_he rest ih =>
    simp only [fm_star_loop]
    split
    · rw [ih]; exact getD_set_ne _ _ _ _ _ hvu
    · rw [ih]

theorem fm_star_loop_distances_le (mesh : che K) (upd : che K → List D → index_t → D)
    (he v u : index_t) (hes : List index_t) (st : fm_state D) :
    (fm_star_loop mesh upd he v hes st).distances.getD u ⊤ ≤ st.distances.getD u ⊤ := by
  induction hes generalizing st with
  | nil => exact le_refl _
  | cons v_he rest ih =>
    simp only [fm_star_loop]
    split
    · rename_i hlt
      exact le_trans (ih _) (getD_set_le _ _ _ _ hlt)
    · exact ih _

theorem fm_star_loop_length (mesh : che K) (upd : che K → List D → index_t → D)
    (he v : index_t) (hes : List index_t) (st : fm_state D) :
    (fm_star_loop mesh upd he v hes st).distances.length = st.distances.length := by
  induction hes generalizing st with
  | nil => rfl
  | cons v_he rest ih =>
    simp only [fm_star_loop]
    split
    · rw [ih]; simp
    · rw [ih]

end fast_marching_frame

section fast_marching_link

variable {K D : Type} [LinearOrder D] [OrderTop D]

theorem fm_frame.refl (st : fm_state D) : fm_frame st st :=
  { sorted_eq := rfl, n_sorted_eq := rfl, dist_len := rfl, color_len := rfl,
    dist_le := fun _ => le_refl _, dist_black := fun _ _ => rfl,
    dist_green := fun _ _ => rfl, dist_red := fun _ _ => rfl,
    color_step := fun _ => Or.inl rfl }

theorem fm_frame.black_iff {st st1 : fm_state D} (h : fm_frame st st1) (u : index_t) :
    st1.color.getD u NIL = BLACK ↔ st.color.getD u NIL = BLACK := by
  rcases h.color_step u with h1 | ⟨h1, h2⟩
  · rw [h1]
  · rw [h1, h2]; simp [GREEN, RED, BLACK]

theorem fm_frame.trans {st st1 st2 : fm_state D} (h : fm_frame st st1)
    (h1 : fm_frame st1 st2) : fm_frame st st2 where
  sorted_eq := h1.sorted_eq.trans h.sorted_eq
  n_sorted_eq := h1.n_sorted_eq.trans h.n_sorted_eq
  dist_len := h1.dist_len.trans h.dist_len
  color_len := h1.color_len.trans h.color_len
  dist_le := fun u => le_trans (h1.dist_le u) (h.dist_le u)
  dist_black := fun u hu => by
    rw [h1.dist_black u ((h.black_iff u).mpr hu), h.dist_black u hu]
  dist_green := fun u hu => by
    have hg1 : st1.color.getD u NIL = GREEN := by
      rcases h1.color_step u with e | ⟨e, e2⟩
      · rw [← e]; exact hu
      · exact e
    rw [h1.dist_green u hu, h.dist_green u hg1]
  dist_red := fun u hu => by
    have hr1 : st1.color.getD u NIL ≠ RED := by
      rcases h1.color_step u with e | ⟨_, e2⟩
      · rw [← e]; exact hu
      · exact absurd e2 hu
    rw [h1.dist_red u hu, h.dist_red u hr1]
  color_step := fun u => by
    rcases h.color_step u with e | ⟨e, e2⟩
    · rcases h1.color_step u with f | ⟨f, f2⟩
      · left; rw [f, e]
      · right; exact ⟨by rw [← e]; exact f, f2⟩
    · rcases h1.color_step u with f | ⟨f, f2⟩
      · right; exact ⟨e, by rw [f]; exact e2⟩
      · rw [e2] at f; simp [GREEN, RED] at f

theorem fm_star_loop_clusters_len (mesh : che K) (upd : che K → List D → index_t → D)
    (he v : index_t) (hes : List index_t) (st : fm_state D) :
    (fm_star_loop mesh upd he v hes st).clusters.map List.length =
      st.clusters.map List.length := by
  induction hes generalizing st with
  | nil => rfl
  | cons v_he rest ih =>
    simp only [fm_star_loop]
    split
    · rw [ih]
      cases st.clusters <;> simp
    · rw [ih]

/-- The star loop around a vertex `v` that is not `BLACK` respects the frame. -/
theorem fm_star_loop_frame (mesh : che K) (upd : che K → List D → index_t → D)
    (he v : index_t) (hes : List index_t) (st : fm_state D)
    (hv : st.color.getD v NIL = RED) :
    fm_frame st (fm_star_loop mesh upd he v hes st) where
  sorted_eq := (fm_star_loop_sorted mesh upd he v hes st).1
  n_sorted_eq := (fm_star_loop_sorted mesh upd he v hes st).2
  dist_len := fm_star_loop_length mesh upd he v hes st
  color_len := by rw [fm_star_loop_color]
  dist_le := fun u => fm_star_loop_distances_le mesh upd he v u hes st
  dist_black := fun u hu => by
    apply fm_star_loop_distances_ne
    rintro rfl
    rw [hv] at hu; simp [RED, BLACK] at hu
  dist_green := fun u hu => by
    apply fm_star_loop_distances_ne
    rintro rfl
    rw [fm_star_loop_color, hv] at hu; simp [RED, GREEN] at hu
  dist_red := fun u hu => by
    apply fm_star_loop_distances_ne
    rintro rfl
    rw [fm_star_loop_color] at hu
    exact hu hv
  color_step := fun u => by left; rw [fm_star_loop_color]

theorem fm_promote_frame (v : index_t) (st : fm_state D) : fm_frame st (fm_promote v st) := by
  unfold fm_promote
  split
  · rename_i hg
    have hlen : v < st.color.length := by
      by_contra hcon
      rw [getD_oob _ _ _ (not_lt.mp hcon)] at hg
      simp [NIL, GREEN] at hg
    exact
      { sorted_eq := rfl, n_sorted_eq := rfl, dist_len := rfl,
        color_len := by simp,
        dist_le := fun _ => le_refl _, dist_black := fun _ _ => rfl,
        dist_green := fun _ _ => rfl, dist_red := fun _ _ => rfl,
        color_step := fun u => by
          by_cases hu : v = u
          · subst hu
            right
            exact ⟨hg, getD_set_eq _ _ _ _ hlen⟩
          · left
            exact getD_set_ne _ _ _ _ _ hu }
  · exact fm_frame.refl st

theorem fm_promote_cola (v : index_t) (st : fm_state D) : (fm_promote v st).cola = st.cola := by
  unfold fm_promote
  split <;> rfl

theorem fm_promote_distances (v : index_t) (st : fm_state D) :
    (fm_promote v st).distances = st.distances := by
  unfold fm_promote
  split <;> rfl

theorem fm_link_step_frame (mesh : che K) (upd : che K → List D → index_t → D)
    (he : index_t) (st : fm_state D) :
    fm_frame st (fm_link_step mesh upd he st) := by
  unfold fm_link_step
  simp only
  have hfr := fm_promote_frame (mesh.vt he) st
  split
  · rename_i hred
    have hstar := fm_star_loop_frame mesh upd he (mesh.vt he) (mesh.star (mesh.vt he))
      (fm_promote (mesh.vt he) st) hred
    split
    · refine hfr.trans (hstar.trans ?_)
      exact { sorted_eq := rfl, n_sorted_eq := rfl, dist_len := rfl, color_len := rfl,
              dist_le := fun _ => le_refl _, dist_black := fun _ _ => rfl,
              dist_green := fun _ _ => rfl, dist_red := fun _ _ => rfl,
              color_step := fun _ => Or.inl rfl }
    · exact hfr.trans hstar
  · exact hfr

/-- The relaxation of the end vertex of `he` touches no other vertex. -/
theorem fm_link_step_ne (mesh : che K) (upd : che K → List D → index_t → D)
    (he : index_t) (st : fm_state D) (u : index_t) (hu : mesh.vt he ≠ u) :
    (fm_link_step mesh upd he st).distances.getD u ⊤ = st.distances.getD u ⊤ ∧
    (fm_link_step mesh upd he st).color.getD u NIL = st.color.getD u NIL := by
  have hpc : (fm_promote (mesh.vt he) st).color.getD u NIL = st.color.getD u NIL := by
    unfold fm_promote
    split
    · exact getD_set_ne _ _ _ _ _ hu
    · rfl
  unfold fm_link_step
  simp only
  split
  · split
    · simp only [fm_star_loop_distances_ne mesh upd he _ u hu, fm_promote_distances,
        fm_star_loop_color, hpc, and_self]
    · simp only [fm_star_loop_distances_ne mesh upd he _ u hu, fm_promote_distances,
        fm_star_loop_color, hpc, and_self]
  · exact ⟨by rw [fm_promote_distances], hpc⟩

theorem fm_link_loop_frame (mesh : che K) (upd : che K → List D → index_t → D)
    (hes : List index_t) (st : fm_state D) :
    fm_frame st (fm_link_loop mesh upd hes st) := by
  induction hes generalizing st with
  | nil => exact fm_frame.refl st
  | cons he rest ih =>
    simp only [fm_link_loop]
    exact (fm_link_step_frame mesh upd he st).trans (ih _)

end fast_marching_link

section fast_marching_loop

variable {K D : Type} [LinearOrder D] [OrderTop D]

/-- The state after `black_i` has left the queue, turned `BLACK` and entered
`sorted_index` (lines 144-150), before its neighbours are relaxed. -/
theorem fm_iter_true (mesh : che K) (upd : che K → List D → index_t → D) (radio : D)
    (st st1 : fm_state D) (h : fm_iter mesh upd radio st = (true, st1)) :
    ∃ top q, cola_pop_black st.color st.cola = top :: q ∧
      ¬ radio < st.distances.getD top.2 ⊤ ∧
      st1 = fm_link_loop mesh upd (mesh.link top.2)
        { st with color := st.color.set top.2 BLACK, cola := q,
                  sorted_index := st.sorted_index.set st.n_sorted top.2,
                  n_sorted := st.n_sorted + 1 } := by
  unfold fm_iter at h
  split at h
  · simp at h
  · split at h
    · simp at h
    · rename_i top q hpop
      simp only at h
      split at h
      · simp at h
      · rename_i hr
        refine ⟨top, q, hpop, hr, ?_⟩
        simp only [Prod.mk.injEq, true_and] at h
        exact h.symm

/-- The three ways in which `fm_iter` leaves the loop. -/
theorem fm_iter_false (mesh : che K) (upd : che K → List D → index_t → D) (radio : D)
    (st st1 : fm_state D) (h : fm_iter mesh upd radio st = (false, st1)) :
    (st.cola = [] ∧ st1 = st) ∨
    (cola_pop_black st.color st.cola = [] ∧ st1 = { st with cola := [] }) ∨
    (∃ top q, cola_pop_black st.color st.cola = top :: q ∧
      radio < st.distances.getD top.2 ⊤ ∧
      st1 = { st with color := st.color.set top.2 BLACK, cola := q }) := by
  unfold fm_iter at h
  split at h
  · rename_i he
    left
    simp only [Prod.mk.injEq, true_and] at h
    exact ⟨List.isEmpty_iff.mp he, h.symm⟩
  · split at h
    · rename_i hpop
      right; left
      simp only [Prod.mk.injEq, true_and] at h
      exact ⟨hpop, h.symm⟩
    · rename_i top q hpop
      simp only at h
      split at h
      · rename_i hr
        right; right
        simp only [Prod.mk.injEq, true_and] at h
        exact ⟨top, q, hpop, hr, h.symm⟩
      · simp at h

theorem getD_set_black (color : List index_t) (b u : index_t)
    (h : color.getD u NIL = BLACK) : (color.set b BLACK).getD u NIL = BLACK := by
  by_cases hbu : b = u
  · subst hbu
    have hlen : b < color.length := by
      by_contra hcon
      rw [getD_oob _ _ _ (not_lt.mp hcon)] at h
      simp [NIL, BLACK] at h
    exact getD_set_eq _ _ _ _ hlen
  · rw [getD_set_ne _ _ _ _ _ hbu]; exact h

/-- One pass through the loop lowers distances only, and leaves a `BLACK` vertex
`BLACK` with its distance. -/
theorem fm_iter_monotone (mesh : che K) (upd : che K → List D → index_t → D) (radio : D)
    (st : fm_state D) (u : index_t) :
    (fm_iter mesh upd radio st).2.distances.getD u ⊤ ≤ st.distances.getD u ⊤ ∧
    (st.color.getD u NIL = BLACK →
      (fm_iter mesh upd radio st).2.distances.getD u ⊤ = st.distances.getD u ⊤ ∧
      (fm_iter mesh upd radio st).2.color.getD u NIL = BLACK) := by
  rcases hres : fm_iter mesh upd radio st with ⟨b, st1⟩
  cases b with
  | true =>
    obtain ⟨top, q, _, _, rfl⟩ := fm_iter_true mesh upd radio st st1 hres
    have hfr := fm_link_loop_frame mesh upd (mesh.link top.2)
      { st with color := st.color.set top.2 BLACK, cola := q,
                sorted_index := st.sorted_index.set st.n_sorted top.2,
                n_sorted := st.n_sorted + 1 }
    refine ⟨hfr.dist_le u, fun hu => ?_⟩
    have hb := getD_set_black st.color top.2 u hu
    exact ⟨hfr.dist_black u hb, (hfr.black_iff u).mpr hb⟩
  | false =>
    rcases fm_iter_false mesh upd radio st st1 hres with ⟨_, rfl⟩ | ⟨_, rfl⟩ | ⟨top, q, _, _, rfl⟩
    · exact ⟨le_refl _, fun hu => ⟨rfl, hu⟩⟩
    · exact ⟨le_refl _, fun hu => ⟨rfl, hu⟩⟩
    · exact ⟨le_refl _, fun hu => ⟨rfl, getD_set_black st.color top.2 u hu⟩⟩

theorem fm_loop_succ (mesh : che K) (upd : che K → List D → index_t → D) (radio : D)
    (gc : Nat) (st : fm_state D) :
    fm_loop mesh upd radio (gc + 1) st =
      if (fm_iter mesh upd radio st).1 then fm_loop mesh upd radio gc (fm_iter mesh upd radio st).2
      else (fm_iter mesh upd radio st).2 := by
  rcases hres : fm_iter mesh upd radio st with ⟨b, st1⟩
  cases b <;> simp [fm_loop, hres]

/-- Any number of passes through the loop lowers distances only, and leaves a `BLACK`
vertex `BLACK` with its distance. -/
theorem fm_loop_le_black (mesh : che K) (upd : che K → List D → index_t → D) (radio : D)
    (green_count : Nat) (st : fm_state D) (u : index_t) :
    (fm_loop mesh upd radio green_count st).distances.getD u ⊤ ≤ st.distances.getD u ⊤ ∧
    (st.color.getD u NIL = BLACK →
      (fm_loop mesh upd radio green_count st).distances.getD u ⊤ = st.distances.getD u ⊤ ∧
      (fm_loop mesh upd radio green_count st).color.getD u NIL = BLACK) := by
  induction green_count generalizing st with
  | zero => exact ⟨le_refl _, fun hu => ⟨rfl, hu⟩⟩
  | succ gc ih =>
    rw [fm_loop_succ]
    have hstep := fm_iter_monotone mesh upd radio st u
    split
    · have hrest := ih (fm_iter mesh upd radio st).2
      refine ⟨le_trans hrest.1 hstep.1, fun hu => ?_⟩
      obtain ⟨h1, h2⟩ := hstep.2 hu
      obtain ⟨h3, h4⟩ := hrest.2 h2
      exact ⟨h3.trans h1, h4⟩
    · exact hstep

end fast_marching_loop

section fast_marching_wf

variable {K D : Type} [LinearOrder D] [OrderTop D]

theorem mem_cola_push (e x : D × index_t) (q : List (D × index_t)) :
    x ∈ cola_push e q ↔ x = e ∨ x ∈ q := by
  induction q with
  | nil => simp [cola_push]
  | cons m q ih =>
    simp only [cola_push]
    split
    · simp
    · simp only [List.mem_cons, ih]
      tauto

theorem cola_pop_black_cons (color : List index_t) (cola q : List (D × index_t))
    (top : D × index_t) (h : cola_pop_black color cola = top :: q) :
    color.getD top.2 NIL ≠ BLACK ∧ top ∈ cola ∧ (∀ e ∈ q, e ∈ cola) ∧
      (∀ e ∈ cola, e = top ∨ e ∈ q ∨ color.getD e.2 NIL = BLACK) := by
  induction cola with
  | nil => simp [cola_pop_black] at h
  | cons m rest ih =>
    simp only [cola_pop_black] at h
    split at h
    · rename_i hm
      obtain ⟨h1, h2, h3, h4⟩ := ih h
      refine ⟨h1, List.mem_cons_of_mem _ h2, fun e he => List.mem_cons_of_mem _ (h3 e he), ?_⟩
      intro e he
      rcases List.mem_cons.mp he with rfl | he
      · right; right; exact hm
      · exact h4 e he
    · rename_i hm
      simp only [List.cons.injEq] at h
      obtain ⟨rfl, rfl⟩ := h
      refine ⟨hm, List.mem_cons_self _ _, fun e he => List.mem_cons_of_mem _ he, ?_⟩
      intro e he
      rcases List.mem_cons.mp he with rfl | he
      · left; rfl
      · right; left; exact he

theorem cola_pop_black_nil (color : List index_t) (cola : List (D × index_t))
    (h : cola_pop_black color cola = []) : ∀ e ∈ cola, color.getD e.2 NIL = BLACK := by
  induction cola with
  | nil => simp
  | cons m rest ih =>
    simp only [cola_pop_black] at h
    split at h
    · rename_i hm
      intro e he
      rcases List.mem_cons.mp he with rfl | he
      · exact hm
      · exact ih h e he
    · simp at h

/-- Fewer than `n` pairwise distinct indices below `n` are listed when one is missing. -/
theorem nodup_length_lt (l : List Nat) (n b : Nat) (hl : l.Nodup) (hlt : ∀ x ∈ l, x < n)
    (hb : b < n) (hnot : b ∉ l) : l.length < n := by
  have hnd : (b :: l).Nodup := List.nodup_cons.mpr ⟨hnot, hl⟩
  have hsub : (b :: l) ⊆ List.range n := by
    intro x hx
    rcases List.mem_cons.mp hx with rfl | hx
    · exact List.mem_range.mpr hb
    · exact List.mem_range.mpr (hlt x hx)
  have hlen := (List.subperm_of_subset hnd hsub).length_le
  simp at hlen
  omega

/-- All `n` indices below `n` are listed by `n` pairwise distinct ones. -/
theorem nodup_full_mem (l : List Nat) (n b : Nat) (hl : l.Nodup) (hlt : ∀ x ∈ l, x < n)
    (hlen : l.length = n) (hb : b < n) : b ∈ l := by
  by_contra hnot
  have := nodup_length_lt l n b hl hlt hb hnot
  omega

theorem take_succ_set (l : List index_t) (k : Nat) (b : index_t) (h : k < l.length) :
    (l.set k b).take (k + 1) = l.take k ++ [b] := by
  induction l generalizing k with
  | nil => simp at h
  | cons a l ih =>
    cases k with
    | zero => simp
    | succ k =>
      simp only [List.length_cons, Nat.add_lt_add_iff_right] at h
      simp [ih k h]

theorem take_set_self (l : List index_t) (k : Nat) (b : index_t) :
    (l.set k b).take k = l.take k := by
  induction l generalizing k with
  | nil => simp
  | cons a l ih =>
    cases k with
    | zero => simp
    | succ k => simp [ih k]

/-- An entry of `sorted_index` below `n_sorted` is one of the first `n_sorted` entries. -/
theorem getD_mem_take (l : List index_t) (k i : Nat) (hi : i < k) (hk : k ≤ l.length) :
    l.getD i NIL ∈ l.take k := by
  have hil : i < l.length := lt_of_lt_of_le hi hk
  rw [List.getD_eq_getElem _ _ hil, List.mem_take_iff_getElem]
  exact ⟨i, by rw [min_eq_left hk]; exact hi, rfl⟩

end fast_marching_wf

section fast_marching_wf2

variable {K D : Type} [LinearOrder D] [OrderTop D]

/-- The queue after the relaxation of the end vertex of `he`: the old entries, and an
entry with the current distance of that vertex when it is `RED` and at a finite
distance. -/
theorem fm_link_step_cola (mesh : che K) (upd : che K → List D → index_t → D)
    (he : index_t) (st : fm_state D) (e : D × index_t) :
    e ∈ (fm_link_step mesh upd he st).cola ↔
      e ∈ st.cola ∨
      (e = ((fm_link_step mesh upd he st).distances.getD (mesh.vt he) ⊤, mesh.vt he) ∧
        (fm_link_step mesh upd he st).color.getD (mesh.vt he) NIL = RED ∧
        (fm_link_step mesh upd he st).distances.getD (mesh.vt he) ⊤ < ⊤) := by
  unfold fm_link_step
  simp only
  split
  · rename_i hred
    split
    · rename_i hfin
      simp only [mem_cola_push, fm_star_loop_cola, fm_star_loop_color, fm_promote_cola]
      constructor
      · rintro (h | h)
        · right; exact ⟨h, hred, hfin⟩
        · left; exact h
      · rintro (h | ⟨h, _, _⟩)
        · right; exact h
        · left; exact h
    · rename_i hfin
      simp only [fm_star_loop_cola, fm_promote_cola]
      constructor
      · intro h
        left; exact h
      · rintro (h | ⟨_, _, h⟩)
        · exact h
        · exact absurd h hfin
  · rename_i hred
    simp only [fm_promote_cola]
    constructor
    · intro h
      left; exact h
    · rintro (h | ⟨_, h, _⟩)
      · exact h
      · exact absurd h hred

theorem getD_ne_NIL_lt (color : List index_t) (v c : index_t) (h : color.getD v NIL = c)
    (hc : c ≠ NIL) : v < color.length := by
  by_contra hcon
  rw [getD_oob _ _ _ (not_lt.mp hcon)] at h
  exact hc h.symm

theorem fm_link_loop_cola_lt (mesh : che K) (upd : che K → List D → index_t → D)
    (hes : List index_t) (st : fm_state D) (n : Nat) (hlen : st.color.length = n)
    (h : ∀ e ∈ st.cola, e.2 < n) :
    ∀ e ∈ (fm_link_loop mesh upd hes st).cola, e.2 < n := by
  induction hes generalizing st with
  | nil => exact h
  | cons he rest ih =>
    simp only [fm_link_loop]
    apply ih
    · rw [(fm_link_step_frame mesh upd he st).color_len, hlen]
    · intro e hmem
      rcases (fm_link_step_cola mesh upd he st e).mp hmem with h1 | ⟨h1, h2, _⟩
      · exact h e h1
      · have := getD_ne_NIL_lt _ _ _ h2 (by simp [RED, NIL])
        rw [(fm_link_step_frame mesh upd he st).color_len, hlen] at this
        rw [h1]; exact this

/-- When `black_i` leaves the queue there is room for it in `sorted_index`. -/
theorem fm_wf.n_sorted_lt {n : Nat} {st : fm_state D} (h : fm_wf n st) (b : index_t)
    (hb : b < n) (hcol : st.color.getD b NIL ≠ BLACK) : st.n_sorted < n := by
  have hnot : b ∉ st.sorted_index.take st.n_sorted := fun hmem =>
    hcol (h.sorted_black b hmem).2
  have := nodup_length_lt _ n b h.nodup (fun x hx => (h.sorted_black x hx).1) hb hnot
  rw [List.length_take, h.sorted_len, min_eq_left h.n_sorted_le] at this
  exact this

theorem fm_wf_append {n : Nat} {st : fm_state D} (h : fm_wf n st) (top : D × index_t)
    (q : List (D × index_t)) (hpop : cola_pop_black st.color st.cola = top :: q) :
    fm_wf n { st with color := st.color.set top.2 BLACK, cola := q,
                      sorted_index := st.sorted_index.set st.n_sorted top.2,
                      n_sorted := st.n_sorted + 1 } := by
  obtain ⟨hcol, hmem, hq, _⟩ := cola_pop_black_cons _ _ _ _ hpop
  have hb : top.2 < n := h.cola_lt top hmem
  have hlt := h.n_sorted_lt top.2 hb hcol
  have htake : (st.sorted_index.set st.n_sorted top.2).take (st.n_sorted + 1) =
      st.sorted_index.take st.n_sorted ++ [top.2] :=
    take_succ_set _ _ _ (by rw [h.sorted_len]; exact hlt)
  refine ⟨h.dist_len, by simp [h.color_len], by simp [h.sorted_len],
    fun e he => h.cola_lt e (hq e he), ?_, ?_, hlt⟩
  · simp only [htake]
    rw [List.nodup_append]
    refine ⟨h.nodup, List.nodup_singleton _, ?_⟩
    intro x hx hx2
    rw [List.mem_singleton] at hx2
    subst hx2
    exact hcol (h.sorted_black _ hx).2
  · simp only [htake]
    intro x hx
    rcases List.mem_append.mp hx with hx | hx
    · exact ⟨(h.sorted_black x hx).1, getD_set_black _ _ _ (h.sorted_black x hx).2⟩
    · rw [List.mem_singleton] at hx
      subst hx
      exact ⟨hb, getD_set_eq _ _ _ _ (by rw [h.color_len]; exact hb)⟩

theorem fm_wf_frame {n : Nat} {st st1 : fm_state D} (h : fm_wf n st) (hfr : fm_frame st st1)
    (hcola : ∀ e ∈ st1.cola, e.2 < n) : fm_wf n st1 := by
  refine ⟨hfr.dist_len.trans h.dist_len, hfr.color_len.trans h.color_len,
    by rw [hfr.sorted_eq]; exact h.sorted_len, hcola, ?_, ?_, ?_⟩
  · rw [hfr.sorted_eq, hfr.n_sorted_eq]; exact h.nodup
  · rw [hfr.sorted_eq, hfr.n_sorted_eq]
    intro x hx
    exact ⟨(h.sorted_black x hx).1, (hfr.black_iff x).mpr (h.sorted_black x hx).2⟩
  · rw [hfr.n_sorted_eq]; exact h.n_sorted_le

/-- One pass through the loop keeps the state well formed. -/
theorem fm_iter_wf (mesh : che K) (upd : che K → List D → index_t → D) (radio : D)
    (n : Nat) (st : fm_state D) (h : fm_wf n st) :
    fm_wf n (fm_iter mesh upd radio st).2 := by
  rcases hres : fm_iter mesh upd radio st with ⟨b, st1⟩
  cases b with
  | true =>
    obtain ⟨top, q, hpop, _, rfl⟩ := fm_iter_true mesh upd radio st st1 hres
    have h2 := fm_wf_append h top q hpop
    exact fm_wf_frame h2 (fm_link_loop_frame mesh upd _ _)
      (fm_link_loop_cola_lt mesh upd _ _ n h2.color_len h2.cola_lt)
  | false =>
    rcases fm_iter_false mesh upd radio st st1 hres with ⟨_, rfl⟩ | ⟨_, rfl⟩ | ⟨top, q, hpop, _, rfl⟩
    · exact h
    · exact ⟨h.dist_len, h.color_len, h.sorted_len, by simp, h.nodup, h.sorted_black,
        h.n_sorted_le⟩
    · obtain ⟨_, _, hq, _⟩ := cola_pop_black_cons _ _ _ _ hpop
      exact ⟨h.dist_len, by simp [h.color_len], h.sorted_len,
        fun e he => h.cola_lt e (hq e he), h.nodup,
        fun x hx => ⟨(h.sorted_black x hx).1, getD_set_black _ _ _ (h.sorted_black x hx).2⟩,
        h.n_sorted_le⟩

theorem fm_loop_wf (mesh : che K) (upd : che K → List D → index_t → D) (radio : D)
    (n gc : Nat) (st : fm_state D) (h : fm_wf n st) :
    fm_wf n (fm_loop mesh upd radio gc st) := by
  induction gc generalizing st with
  | zero => exact h
  | succ gc ih =>
    rw [fm_loop_succ]
    split
    · exact ih _ (fm_iter_wf mesh upd radio n st h)
    · exact fm_iter_wf mesh upd radio n st h

end fast_marching_wf2

section fast_marching_values

variable {K D : Type} [LinearOrder D] [OrderTop D]

/-- A property of distance values that holds of every entry of `distances`, and of the
value of the update rule on arrays of which it holds, holds of every entry after the
star loop. -/
theorem fm_star_loop_pred (mesh : che K) (upd : che K → List D → index_t → D)
    (P : D → Prop) (hupd : ∀ l he, (∀ u, P (l.getD u ⊤)) → P (upd mesh l he))
    (he v : index_t) (hes : List index_t) (st : fm_state D)
    (h : ∀ u, P (st.distances.getD u ⊤)) :
    ∀ u, P ((fm_star_loop mesh upd he v hes st).distances.getD u ⊤) := by
  induction hes generalizing st with
  | nil => exact h
  | cons v_he rest ih =>
    simp only [fm_star_loop]
    split
    · apply ih
      intro u
      rcases getD_set_cases st.distances v u (upd mesh st.distances v_he) ⊤ with e | e
      · simp only [e]; exact hupd _ _ h
      · simp only [e]; exact h u
    · exact ih _ h

theorem fm_link_step_pred (mesh : che K) (upd : che K → List D → index_t → D)
    (P : D → Prop) (hupd : ∀ l he, (∀ u, P (l.getD u ⊤)) → P (upd mesh l he))
    (he : index_t) (st : fm_state D) (h : ∀ u, P (st.distances.getD u ⊤)) :
    ∀ u, P ((fm_link_step mesh upd he st).distances.getD u ⊤) := by
  have h1 : ∀ u, P ((fm_promote (mesh.vt he) st).distances.getD u ⊤) := by
    rw [fm_promote_distances]; exact h
  unfold fm_link_step
  simp only
  split
  · split
    · exact fm_star_loop_pred mesh upd P hupd _ _ _ _ h1
    · exact fm_star_loop_pred mesh upd P hupd _ _ _ _ h1
  · exact h1

theorem fm_link_loop_pred (mesh : che K) (upd : che K → List D → index_t → D)
    (P : D → Prop) (hupd : ∀ l he, (∀ u, P (l.getD u ⊤)) → P (upd mesh l he))
    (hes : List index_t) (st : fm_state D) (h : ∀ u, P (st.distances.getD u ⊤)) :
    ∀ u, P ((fm_link_loop mesh upd hes st).distances.getD u ⊤) := by
  induction hes generalizing st with
  | nil => exact h
  | cons he rest ih =>
    simp only [fm_link_loop]
    exact ih _ (fm_link_step_pred mesh upd P hupd he st h)

theorem fm_iter_pred (mesh : che K) (upd : che K → List D → index_t → D) (radio : D)
    (P : D → Prop) (hupd : ∀ l he, (∀ u, P (l.getD u ⊤)) → P (upd mesh l he))
    (st : fm_state D) (h : ∀ u, P (st.distances.getD u ⊤)) :
    ∀ u, P ((fm_iter mesh upd radio st).2.distances.getD u ⊤) := by
  rcases hres : fm_iter mesh upd radio st with ⟨b, st1⟩
  cases b with
  | true =>
    obtain ⟨top, q, _, _, rfl⟩ := fm_iter_true mesh upd radio st st1 hres
    exact fm_link_loop_pred mesh upd P hupd _ _ h
  | false =>
    rcases fm_iter_false mesh upd radio st st1 hres with ⟨_, rfl⟩ | ⟨_, rfl⟩ | ⟨top, q, _, _, rfl⟩
    · exact h
    · exact h
    · exact h

theorem fm_loop_pred (mesh : che K) (upd : che K → List D → index_t → D) (radio : D)
    (P : D → Prop) (hupd : ∀ l he, (∀ u, P (l.getD u ⊤)) → P (upd mesh l he))
    (gc : Nat) (st : fm_state D) (h : ∀ u, P (st.distances.getD u ⊤)) :
    ∀ u, P ((fm_loop mesh upd radio gc st).distances.getD u ⊤) := by
  induction gc generalizing st with
  | zero => exact h
  | succ gc ih =>
    rw [fm_loop_succ]
    split
    · exact ih _ (fm_iter_pred mesh upd radio P hupd st h)
    · exact fm_iter_pred mesh upd radio P hupd st h

end fast_marching_values

section fast_marching_start

variable {K D : Type} [LinearOrder D] [OrderTop D] [Zero D]

/-- The state after the loop over the sources: the arrays keep their sizes, the sources
inside the arrays are `RED` at distance `0`, nothing else changes, and the queue gains
entries of sources only, one of key `0` for every source inside the arrays. -/
theorem fm_init_sources_spec (sources : List index_t) (c : index_t) (st : fm_state D)
    (hlen : st.color.length = st.distances.length) :
    let st1 := fm_init_sources sources c st
    st1.distances.length = st.distances.length ∧
    st1.color.length = st.color.length ∧
    st1.sorted_index = st.sorted_index ∧
    st1.n_sorted = st.n_sorted ∧
    (∀ u, st1.distances.getD u ⊤ =
      if u ∈ sources ∧ u < st.distances.length then 0 else st.distances.getD u ⊤) ∧
    (∀ u, st1.color.getD u NIL =
      if u ∈ sources ∧ u < st.distances.length then RED else st.color.getD u NIL) ∧
    (∀ e ∈ st1.cola, e ∈ st.cola ∨ e.2 ∈ sources) ∧
    (∀ e ∈ st.cola, e ∈ st1.cola) ∧
    (∀ s ∈ sources, s < st.distances.length → ((0 : D), s) ∈ st1.cola) := by
  induction sources generalizing c st with
  | nil => simp [fm_init_sources]
  | cons s rest ih =>
    simp only [fm_init_sources]
    have ih1 := ih (if st.clusters.isSome = true then c + 1 else c)
      { st with distances := st.distances.set s 0,
                clusters := st.clusters.map
                  (fun cl => cl.set s (if st.clusters.isSome = true then c + 1 else c)),
                color := st.color.set s RED,
                cola := cola_push ((st.distances.set s 0).getD s ⊤, s) st.cola }
      (by simp [hlen])
    simp only [List.length_set] at ih1
    obtain ⟨h1, h2, h3, h4, h5, h6, h7, h8, h9⟩ := ih1
    refine ⟨h1, h2, h3, h4, ?_, ?_, ?_, ?_, ?_⟩
    · intro u
      rw [h5 u]
      by_cases hu : u ∈ rest ∧ u < st.distances.length
      · simp [hu.1, hu.2]
      · rw [if_neg hu]
        by_cases hsu : s = u
        · subst hsu
          by_cases hl : s < st.distances.length
          · rw [getD_set_eq _ _ _ _ hl]; simp [hl]
          · rw [getD_set_oob _ _ _ _ _ (not_lt.mp hl)]; simp [hl]
        · rw [getD_set_ne _ _ _ _ _ hsu]
          have : ¬ (u ∈ s :: rest ∧ u < st.distances.length) := by
            rintro ⟨hm, hl⟩
            rcases List.mem_cons.mp hm with e | hm
            · exact hsu e.symm
            · exact hu ⟨hm, hl⟩
          rw [if_neg this]
    · intro u
      rw [h6 u]
      by_cases hu : u ∈ rest ∧ u < st.distances.length
      · simp [hu.1, hu.2]
      · rw [if_neg hu]
        by_cases hsu : s = u
        · subst hsu
          by_cases hl : s < st.distances.length
          · rw [getD_set_eq _ _ _ _ (by rw [hlen]; exact hl)]; simp [hl]
          · rw [getD_set_oob _ _ _ _ _ (by rw [hlen]; exact not_lt.mp hl)]; simp [hl]
        · rw [getD_set_ne _ _ _ _ _ hsu]
          have : ¬ (u ∈ s :: rest ∧ u < st.distances.length) := by
            rintro ⟨hm, hl⟩
            rcases List.mem_cons.mp hm with e | hm
            · exact hsu e.symm
            · exact hu ⟨hm, hl⟩
          rw [if_neg this]
    · intro e he
      rcases h7 e he with h | h
      · rcases (mem_cola_push _ _ _).mp h with h | h
        · right; rw [h]; exact List.mem_cons_self _ _
        · left; exact h
      · right; exact List.mem_cons_of_mem _ h
    · intro e he
      exact h8 e ((mem_cola_push _ _ _).mpr (Or.inr he))
    · intro x hx hl
      by_cases hxr : x ∈ rest
      · exact h9 x hxr hl
      · rcases List.mem_cons.mp hx with e | hx
        · subst e
          apply h8
          rw [getD_set_eq _ _ _ _ hl]
          exact (mem_cola_push _ _ _).mpr (Or.inl rfl)
        · exact absurd hx hxr

end fast_marching_start

section fast_marching_result

variable {K D : Type} [LinearOrder D] [OrderTop D] [Zero D]

/-- With a mesh that has a vertex and a source list that has an entry, the constructor
runs `run_fastmarching` for the option `FM` on the freshly allocated members. -/
theorem create_FM (mesh : che K) (upd : che K → List D → index_t → D)
    (engine : option_t → geodesics D → geodesics D) (sources : List index_t)
    (cluster : Bool) (n_iter : Nat) (radio : D)
    (hn : 0 < mesh.n_vertices) (hs : sources ≠ []) :
    geodesics.create mesh upd engine sources option_t.FM cluster n_iter radio =
      some ((geodesics.alloc mesh.n_vertices cluster : geodesics D).run_fastmarching
        mesh upd sources n_iter radio) := by
  unfold geodesics.create
  rw [if_neg (by omega), if_neg (by simpa [List.length_eq_zero] using hs)]
  rfl

/-- The state in which the main loop of `run_fastmarching` starts after the
constructor: arrays of size `n`, sources `RED` at distance `0` and in the queue, every
other vertex `GREEN` at distance `INFINITY`, nothing sorted. -/
theorem fm_start_spec (n : Nat) (cluster : Bool) (sources : List index_t) :
    let st := fm_start (geodesics.alloc n cluster : geodesics D) sources
    st.distances.length = n ∧ st.color.length = n ∧
    st.sorted_index = List.replicate n NIL ∧ st.n_sorted = 0 ∧
    (∀ u, st.distances.getD u ⊤ = if u ∈ sources ∧ u < n then 0 else ⊤) ∧
    (∀ u, u < n → st.color.getD u NIL = if u ∈ sources then RED else GREEN) ∧
    (∀ e ∈ st.cola, e.2 ∈ sources) ∧
    (∀ s ∈ sources, s < n → ((0 : D), s) ∈ st.cola) := by
  have h := fm_init_sources_spec (D := D) sources 0
    { clusters := (geodesics.alloc n cluster : geodesics D).clusters,
      distances := (geodesics.alloc n cluster : geodesics D).distances,
      sorted_index := (geodesics.alloc n cluster : geodesics D).sorted_index,
      n_sorted := 0, color := List.replicate n GREEN, cola := [] }
    (by simp [geodesics.alloc])
  simp only [geodesics.alloc, List.length_replicate] at h
  obtain ⟨h1, h2, h3, h4, h5, h6, h7, _, h9⟩ := h
  refine ⟨h1, h2, h3, h4, ?_, ?_, ?_, h9⟩
  · intro u
    have := h5 u
    simp only [fm_start, geodesics.alloc]
    rw [this]
    split
    · rfl
    · by_cases hu : u < n
      · simp [List.getD_eq_getElem?_getD, List.getElem?_replicate, hu]
      · simp [List.getD_eq_getElem?_getD, List.getElem?_replicate, hu]
  · intro u hu
    have := h6 u
    simp only [fm_start, geodesics.alloc]
    rw [this]
    simp [hu, List.getD_eq_getElem?_getD, List.getElem?_replicate]
  · intro e he
    rcases h7 e he with h | h
    · simp at h
    · exact h

theorem fm_start_wf (n : Nat) (cluster : Bool) (sources : List index_t)
    (hlt : ∀ s ∈ sources, s < n) :
    fm_wf n (fm_start (geodesics.alloc n cluster : geodesics D) sources) := by
  obtain ⟨h1, h2, h3, h4, _, _, h7, _⟩ := fm_start_spec (D := D) n cluster sources
  refine ⟨h1, h2, by rw [h3]; simp, fun e he => hlt _ (h7 e he), ?_, ?_, ?_⟩
  · rw [h4]; simp
  · rw [h4]; simp
  · rw [h4]; exact Nat.zero_le _

end fast_marching_result

section claim_sources_zero

variable {K D : Type} [LinearOrder D] [OrderTop D] [Zero D]

/-- C1. For every mesh with a vertex and every non-empty source list whose ids are below
`n_vertices`, the Fast-Marching computation (any `n_iter`, any `radio`, clustering or
not) returns, and afterwards every source vertex has distance exactly `0`, provided the
update rule `update_step` never returns a negative value (on distance arrays without
negative entries). -/
theorem fast_marching_sources_zero (mesh : che K) (upd : che K → List D → index_t → D)
    (engine : option_t → geodesics D → geodesics D) (sources : List index_t)
    (cluster : Bool) (n_iter : Nat) (radio : D)
    (hn : 0 < mesh.n_vertices) (hs : sources ≠ [])
    (hlt : ∀ s ∈ sources, s < mesh.n_vertices)
    (hupd : ∀ l he, (∀ u, 0 ≤ l.getD u ⊤) → 0 ≤ upd mesh l he) :
    ∃ g, geodesics.create mesh upd engine sources option_t.FM cluster n_iter radio = some g ∧
      ∀ s ∈ sources, g.distances.getD s ⊤ = 0 := by
  refine ⟨_, create_FM mesh upd engine sources cluster n_iter radio hn hs, ?_⟩
  intro s hsrc
  obtain ⟨_, _, _, _, h5, _, _, _⟩ :=
    fm_start_spec (D := D) mesh.n_vertices cluster sources
  simp only [geodesics.run_fastmarching]
  have hle := (fm_loop_le_black mesh upd radio
    (fm_green_count (geodesics.alloc mesh.n_vertices cluster : geodesics D) n_iter)
    (fm_start (geodesics.alloc mesh.n_vertices cluster : geodesics D) sources) s).1
  have hge := fm_loop_pred mesh upd radio (fun x => 0 ≤ x) hupd
    (fm_green_count (geodesics.alloc mesh.n_vertices cluster : geodesics D) n_iter)
    (fm_start (geodesics.alloc mesh.n_vertices cluster : geodesics D) sources)
    (fun u => by
      rw [h5 u]
      split
      · exact le_refl _
      · exact le_top) s
  rw [h5 s, if_pos ⟨hsrc, hlt s hsrc⟩] at hle
  exact le_antisymm hle hge

end claim_sources_zero

section update_rule_theorems

variable {K : Type} [LinearOrderedField K]

theorem vertex.dot_comm (a b : vertex K) : a.dot b = b.dot a := by
  simp only [vertex.dot]; ring

theorem vertex.dot_self_nonneg (a : vertex K) : 0 ≤ a.dot a := by
  simp only [vertex.dot]
  nlinarith [mul_self_nonneg a.x, mul_self_nonneg a.y, mul_self_nonneg a.z]

/-- What a successful `inv_sympd` tells: the Gram matrix has a positive first entry and
a positive determinant, and `Q` is its inverse. -/
theorem inv_sympd_gram (X : vertex K × vertex K) (Q : mat22 K)
    (h : inv_sympd (gram X) = some Q) :
    0 < X.1.dot X.1 ∧ 0 < X.1.dot X.1 * X.2.dot X.2 - X.1.dot X.2 * X.1.dot X.2 ∧
    Q.m00 = X.2.dot X.2 / (X.1.dot X.1 * X.2.dot X.2 - X.1.dot X.2 * X.1.dot X.2) ∧
    Q.m01 = - X.1.dot X.2 / (X.1.dot X.1 * X.2.dot X.2 - X.1.dot X.2 * X.1.dot X.2) ∧
    Q.m10 = - X.1.dot X.2 / (X.1.dot X.1 * X.2.dot X.2 - X.1.dot X.2 * X.1.dot X.2) ∧
    Q.m11 = X.1.dot X.1 / (X.1.dot X.1 * X.2.dot X.2 - X.1.dot X.2 * X.1.dot X.2) := by
  unfold inv_sympd gram at h
  simp only [vertex.dot_comm X.2 X.1] at h
  split at h
  · rename_i hpos
    simp only [Option.some.injEq] at h
    subst h
    exact ⟨hpos.1, hpos.2, rfl, rfl, rfl, rfl⟩
  · simp at h

/-- With `Q` the inverse of the Gram matrix of `X`, the vector `cond = Q * X.t() * n`
for `n = X * Q * w` is `Q * w`. -/
theorem planar_cond_eq (X : vertex K × vertex K) (Q : mat22 K)
    (h : inv_sympd (gram X) = some Q) (t0 t1 p : K) :
    planar_cond X Q (planar_n X Q t0 t1 p) =
      (Q.m00 * (t0 - p) + Q.m01 * (t1 - p), Q.m10 * (t0 - p) + Q.m11 * (t1 - p)) := by
  obtain ⟨_, hdet, h00, h01, h10, h11⟩ := inv_sympd_gram X Q h
  have hne : X.1.dot X.1 * X.2.dot X.2 - X.1.dot X.2 * X.1.dot X.2 ≠ 0 := ne_of_gt hdet
  have e1 : Q.m00 * X.1.dot X.1 + Q.m01 * X.1.dot X.2 = 1 := by
    rw [h00, h01]; field_simp; ring
  have e2 : Q.m00 * X.1.dot X.2 + Q.m01 * X.2.dot X.2 = 0 := by
    rw [h00, h01]; field_simp; ring
  have e3 : Q.m10 * X.1.dot X.1 + Q.m11 * X.1.dot X.2 = 0 := by
    rw [h10, h11]; field_simp; ring
  have e4 : Q.m10 * X.1.dot X.2 + Q.m11 * X.2.dot X.2 = 1 := by
    rw [h10, h11]; field_simp; ring
  have key : ∀ (q0 q1 α β : K),
      (vertex.comb q0 X.1 q1 X.2).dot (vertex.comb α X.1 β X.2) =
        α * (q0 * X.1.dot X.1 + q1 * X.1.dot X.2) +
        β * (q0 * X.1.dot X.2 + q1 * X.2.dot X.2) := by
    intro q0 q1 α β
    simp only [vertex.comb, vertex.dot]; ring
  simp only [planar_cond, planar_n, key, e1, e2, e3, e4]
  simp

end update_rule_theorems

section update_rule_cases

variable {K : Type} [LinearOrderedField K]

/-- The value of `planar_update` in the planar unfold. -/
theorem planar_update_unfold (sqrt : K → K) (distances : List (WithTop K)) (d : index_t)
    (X : vertex K × vertex K) (x : index_t × index_t × index_t) (Q : mat22 K) (a b : K)
    (hQ : inv_sympd (gram X) = some Q)
    (h0 : distances.getD x.1 ⊤ = (a : WithTop K))
    (h1 : distances.getD x.2.1 ⊤ = (b : WithTop K))
    (hdis : 0 ≤ planar_dis Q a b)
    (hc0 : Q.m00 * (a - planar_p sqrt Q a b) + Q.m01 * (b - planar_p sqrt Q a b) < 0)
    (hc1 : Q.m10 * (a - planar_p sqrt Q a b) + Q.m11 * (b - planar_p sqrt Q a b) < 0) :
    planar_update sqrt distances d X x = (((planar_p sqrt Q a b : K) : WithTop K), d) := by
  unfold planar_update
  simp only [hQ, h0, h1]
  show (if 0 ≤ planar_dis Q a b then _ else _) = _
  rw [if_pos hdis]
  simp only [planar_cond_eq X Q hQ]
  rw [if_neg]
  rintro (h | h)
  · exact absurd hc0 (not_lt.mpr h)
  · exact absurd hc1 (not_lt.mpr h)

/-- The value of `planar_update` outside the planar unfold, for an invertible Gram
matrix. -/
theorem planar_update_fallback (sqrt : K → K) (distances : List (WithTop K)) (d : index_t)
    (X : vertex K × vertex K) (x : index_t × index_t × index_t) (Q : mat22 K)
    (hQ : inv_sympd (gram X) = some Q)
    (h : ∀ a b : K, distances.getD x.1 ⊤ = (a : WithTop K) →
      distances.getD x.2.1 ⊤ = (b : WithTop K) → 0 ≤ planar_dis Q a b →
      0 ≤ Q.m00 * (a - planar_p sqrt Q a b) + Q.m01 * (b - planar_p sqrt Q a b) ∨
      0 ≤ Q.m10 * (a - planar_p sqrt Q a b) + Q.m11 * (b - planar_p sqrt Q a b)) :
    planar_update sqrt distances d X x =
      edge_propagation sqrt X (distances.getD x.1 ⊤) (distances.getD x.2.1 ⊤) := by
  unfold planar_update
  simp only [hQ]
  rcases h0 : distances.getD x.1 ⊤ with _ | a
  · rfl
  · rcases h1 : distances.getD x.2.1 ⊤ with _ | b
    · rfl
    · show (if 0 ≤ planar_dis Q a b then _ else _) = _
      split
      · rename_i hdis
        simp only [planar_cond_eq X Q hQ]
        rw [if_pos (h a b (by rw [h0]; rfl) (by rw [h1]; rfl) hdis)]
      · rfl

/-- The value of `planar_update` for a Gram matrix that is not positive definite. -/
theorem planar_update_singular (sqrt : K → K) (distances : List (WithTop K)) (d : index_t)
    (X : vertex K × vertex K) (x : index_t × index_t × index_t)
    (hQ : inv_sympd (gram X) = none) :
    planar_update sqrt distances d X x = (⊤, d) := by
  unfold planar_update
  simp only [hQ]

theorem edge_propagation_fst (sqrt : K → K) (X : vertex K × vertex K) (t0 t1 : WithTop K) :
    (edge_propagation sqrt X t0 t1).1 =
      min (t0 + ((X.1.norm sqrt : K) : WithTop K)) (t1 + ((X.2.norm sqrt : K) : WithTop K)) := by
  unfold edge_propagation
  simp only
  split
  · rename_i h
    exact (min_eq_right (le_of_lt h)).symm
  · rename_i h
    exact (min_eq_left (not_lt.mp h)).symm

theorem edge_propagation_ge (sqrt : K → K) (hsqrt : ∀ y, 0 ≤ sqrt y)
    (X : vertex K × vertex K) (t0 t1 : WithTop K) :
    min t0 t1 ≤ (edge_propagation sqrt X t0 t1).1 := by
  rw [edge_propagation_fst]
  have h0 : (0 : WithTop K) ≤ ((X.1.norm sqrt : K) : WithTop K) :=
    WithTop.coe_le_coe.mpr (hsqrt _)
  have h1 : (0 : WithTop K) ≤ ((X.2.norm sqrt : K) : WithTop K) :=
    WithTop.coe_le_coe.mpr (hsqrt _)
  exact min_le_min (le_add_of_nonneg_right h0) (le_add_of_nonneg_right h1)

/-- In the planar unfold the returned value is not below both neighbour distances. -/
theorem planar_unfold_ge (X : vertex K × vertex K) (Q : mat22 K)
    (hQ : inv_sympd (gram X) = some Q) (a b p : K)
    (hc0 : Q.m00 * (a - p) + Q.m01 * (b - p) < 0)
    (hc1 : Q.m10 * (a - p) + Q.m11 * (b - p) < 0) : min a b ≤ p := by
  obtain ⟨ha, hdet, h00, h01, h10, h11⟩ := inv_sympd_gram X Q hQ
  have hc := vertex.dot_self_nonneg X.2
  set A := X.1.dot X.1
  set B := X.1.dot X.2
  set C := X.2.dot X.2
  have hne : A * C - B * B ≠ 0 := ne_of_gt hdet
  rw [h00, h01] at hc0
  rw [h10, h11] at hc1
  have k0 : C * (a - p) - B * (b - p) < 0 := by
    have : (C * (a - p) - B * (b - p)) / (A * C - B * B) < 0 := by
      have e : C / (A * C - B * B) * (a - p) + -B / (A * C - B * B) * (b - p) =
          (C * (a - p) - B * (b - p)) / (A * C - B * B) := by field_simp; ring
      rw [← e]; exact hc0
    exact (div_neg_iff.mp this).resolve_left (fun h => absurd hdet (not_lt.mpr (le_of_lt h.2)))
      |>.1
  have k1 : A * (b - p) - B * (a - p) < 0 := by
    have : (A * (b - p) - B * (a - p)) / (A * C - B * B) < 0 := by
      have e : -B / (A * C - B * B) * (a - p) + A / (A * C - B * B) * (b - p) =
          (A * (b - p) - B * (a - p)) / (A * C - B * B) := by field_simp; ring
      rw [← e]; exact hc1
    exact (div_neg_iff.mp this).resolve_left (fun h => absurd hdet (not_lt.mpr (le_of_lt h.2)))
      |>.1
  by_contra hcon
  rw [not_le, lt_min_iff] at hcon
  obtain ⟨hpa, hpb⟩ := hcon
  have w0 : 0 < a - p := sub_pos.mpr hpa
  have w1 : 0 < b - p := sub_pos.mpr hpb
  have hB : 0 < B := by
    by_contra hB
    rw [not_lt] at hB
    nlinarith [mul_nonneg hc (le_of_lt w0), mul_nonneg (neg_nonneg.mpr hB) (le_of_lt w1)]
  have m1 : C * (a - p) * (A * (b - p)) < B * (b - p) * (B * (a - p)) := by
    have hl : 0 ≤ C * (a - p) := mul_nonneg hc (le_of_lt w0)
    have hr : 0 < A * (b - p) := mul_pos ha w1
    have h1 : C * (a - p) < B * (b - p) := by linarith
    have h2 : A * (b - p) < B * (a - p) := by linarith
    calc C * (a - p) * (A * (b - p)) ≤ B * (b - p) * (A * (b - p)) :=
          mul_le_mul_of_nonneg_right (le_of_lt h1) (le_of_lt hr)
      _ < B * (b - p) * (B * (a - p)) :=
          mul_lt_mul_of_pos_left h2 (mul_pos hB w1)
  have hww : 0 < (a - p) * (b - p) := mul_pos w0 w1
  nlinarith [mul_pos hdet hww]

/-- The value of the update rule is not below the smaller of the two neighbour
distances, whatever branch is taken, when `sqrt` has no negative value. -/
theorem planar_update_ge_min (sqrt : K → K) (hsqrt : ∀ y, 0 ≤ sqrt y)
    (distances : List (WithTop K)) (d : index_t)
    (X : vertex K × vertex K) (x : index_t × index_t × index_t) :
    min (distances.getD x.1 ⊤) (distances.getD x.2.1 ⊤) ≤
      (planar_update sqrt distances d X x).1 := by
  rcases hQ : inv_sympd (gram X) with _ | Q
  · rw [planar_update_singular sqrt distances d X x hQ]
    exact le_top
  · by_cases hcase : ∃ a b : K, distances.getD x.1 ⊤ = (a : WithTop K) ∧
        distances.getD x.2.1 ⊤ = (b : WithTop K) ∧ 0 ≤ planar_dis Q a b ∧
        Q.m00 * (a - planar_p sqrt Q a b) + Q.m01 * (b - planar_p sqrt Q a b) < 0 ∧
        Q.m10 * (a - planar_p sqrt Q a b) + Q.m11 * (b - planar_p sqrt Q a b) < 0
    · obtain ⟨a, b, h0, h1, hdis, hc0, hc1⟩ := hcase
      rw [planar_update_unfold sqrt distances d X x Q a b hQ h0 h1 hdis hc0 hc1, h0, h1]
      simp only
      rw [← WithTop.coe_min, WithTop.coe_le_coe]
      exact planar_unfold_ge X Q hQ a b _ hc0 hc1
    · rw [planar_update_fallback sqrt distances d X x Q hQ]
      · exact edge_propagation_ge sqrt hsqrt X _ _
      · intro a b h0 h1 hdis
        by_contra hcon
        push_neg at hcon
        exact hcase ⟨a, b, h0, h1, hdis, hcon.1, hcon.2⟩

end update_rule_cases

section update_step_theorems

variable {K : Type} [LinearOrderedField K]

/-- The update rule returns no negative value on arrays without negative entries. -/
theorem update_step_nonneg (sqrt : K → K) (hsqrt : ∀ y, 0 ≤ sqrt y) (mesh : che K)
    (distances : List (WithTop K)) (he : index_t) (h : ∀ u, 0 ≤ distances.getD u ⊤) :
    0 ≤ update_step sqrt mesh distances he := by
  unfold update_step
  simp only
  split
  · exact le_trans (le_min (h _) (h _)) (edge_propagation_ge sqrt hsqrt _ _ _)
  · exact le_trans (le_min (h _) (h _)) (planar_update_ge_min sqrt hsqrt distances NIL _ _)

theorem qsqrt_nonneg (q : ℚ) : 0 ≤ qsqrt q := by
  unfold qsqrt
  positivity

end update_step_theorems

section claims_update_rule

/-- C5. Over the real numbers, for every triangle (edge matrix `X`) and every pair of
neighbour distances `d(a), d(b) >= 0`, finite or `INFINITY`, the value `planar_update`
returns is `>= 0` and `>= min(d(a), d(b))`, whichever branch produces it (planar unfold,
edge propagation, or the early return for a singular Gram matrix). -/
theorem planar_update_lower_bound (distances : List (WithTop ℝ)) (d : index_t)
    (X : vertex ℝ × vertex ℝ) (x : index_t × index_t × index_t)
    (h0 : 0 ≤ distances.getD x.1 ⊤) (h1 : 0 ≤ distances.getD x.2.1 ⊤) :
    0 ≤ (planar_update Real.sqrt distances d X x).1 ∧
    min (distances.getD x.1 ⊤) (distances.getD x.2.1 ⊤) ≤
      (planar_update Real.sqrt distances d X x).1 := by
  have h := planar_update_ge_min Real.sqrt Real.sqrt_nonneg distances d X x
  exact ⟨le_trans (le_min h0 h1) h, h⟩

theorem planar_update_lower_bound_witness :
    (0 : WithTop ℝ) ≤ ([0, 5] : List (WithTop ℝ)).getD 0 ⊤ ∧
    (0 : WithTop ℝ) ≤ ([0, 5] : List (WithTop ℝ)).getD 1 ⊤ ∧
    0 ≤ (planar_update Real.sqrt [0, 5] NIL (right_X ℝ) (0, 1, 2)).1 ∧
    min (([0, 5] : List (WithTop ℝ)).getD 0 ⊤) (([0, 5] : List (WithTop ℝ)).getD 1 ⊤) ≤
      (planar_update Real.sqrt [0, 5] NIL (right_X ℝ) (0, 1, 2)).1 :=
  ⟨by simp, by simp,
    planar_update_lower_bound [0, 5] NIL (right_X ℝ) (0, 1, 2) (by simp) (by simp)⟩

/-- C7. For a triangle with an invertible Gram matrix (`inv_sympd` yields `Q`),
`planar_update` returns the unfolded value `p = (delta + sqrt(dis)) / k`, with `d`
untouched, when both neighbour distances are finite, `dis >= 0` and both components of
`cond = Q * X.t() * n` are negative; in every other case it returns
`min(d(a) + |X.col(0)|, d(b) + |X.col(1)|)` and sets `d` to `1` if the second term is
strictly smaller and to `0` otherwise. `update` calls it with `d = NIL`. -/
theorem planar_update_branches {K : Type} [LinearOrderedField K] (sqrt : K → K)
    (distances : List (WithTop K)) (d : index_t)
    (X : vertex K × vertex K) (x : index_t × index_t × index_t) (Q : mat22 K)
    (hQ : inv_sympd (gram X) = some Q) :
    (∀ a b : K, distances.getD x.1 ⊤ = (a : WithTop K) →
      distances.getD x.2.1 ⊤ = (b : WithTop K) →
      0 ≤ Q.ones_mul a b * Q.ones_mul a b - Q.sum * (Q.quad a b - 1) →
      (planar_cond X Q (planar_n X Q a b (planar_p sqrt Q a b))).1 < 0 →
      (planar_cond X Q (planar_n X Q a b (planar_p sqrt Q a b))).2 < 0 →
      planar_update sqrt distances d X x =
        ((((Q.ones_mul a b +
            sqrt (Q.ones_mul a b * Q.ones_mul a b - Q.sum * (Q.quad a b - 1))) / Q.sum : K) :
          WithTop K), d)) ∧
    ((¬ ∃ a b : K, distances.getD x.1 ⊤ = (a : WithTop K) ∧
        distances.getD x.2.1 ⊤ = (b : WithTop K) ∧
        0 ≤ Q.ones_mul a b * Q.ones_mul a b - Q.sum * (Q.quad a b - 1) ∧
        (planar_cond X Q (planar_n X Q a b (planar_p sqrt Q a b))).1 < 0 ∧
        (planar_cond X Q (planar_n X Q a b (planar_p sqrt Q a b))).2 < 0) →
      planar_update sqrt distances d X x =
        (min (distances.getD x.1 ⊤ + ((sqrt (X.1.dot X.1) : K) : WithTop K))
             (distances.getD x.2.1 ⊤ + ((sqrt (X.2.dot X.2) : K) : WithTop K)),
         if distances.getD x.2.1 ⊤ + ((sqrt (X.2.dot X.2) : K) : WithTop K) <
            distances.getD x.1 ⊤ + ((sqrt (X.1.dot X.1) : K) : WithTop K) then 1 else 0)) ∧
    (∀ (mesh : che K) (he : index_t),
      update sqrt distances mesh he =
        planar_update sqrt distances NIL
          ((mesh.gt (mesh.vt (mesh.next he))).sub (mesh.gt (mesh.vt he)),
           (mesh.gt (mesh.vt (mesh.prev he))).sub (mesh.gt (mesh.vt he)))
          (mesh.vt (mesh.next he), mesh.vt (mesh.prev he), mesh.vt he)) := by
  refine ⟨?_, ?_, fun _ _ => rfl⟩
  · intro a b h0 h1 hdis hc0 hc1
    rw [planar_cond_eq X Q hQ] at hc0 hc1
    exact planar_update_unfold sqrt distances d X x Q a b hQ h0 h1 hdis hc0 hc1
  · intro hno
    rw [planar_update_fallback sqrt distances d X x Q hQ]
    · apply Prod.ext
      · exact edge_propagation_fst sqrt X _ _
      · simp only [edge_propagation, vertex.norm]
        split <;> rfl
    · intro a b h0 h1 hdis
      by_contra hcon
      push_neg at hcon
      apply hno
      refine ⟨a, b, h0, h1, hdis, ?_, ?_⟩
      · rw [planar_cond_eq X Q hQ]; exact hcon.1
      · rw [planar_cond_eq X Q hQ]; exact hcon.2

end claims_update_rule

section claim_unreachable

variable {K D : Type} [LinearOrder D] [OrderTop D] [Zero D]

theorem fm_link_step_reach (mesh : che K) (upd : che K → List D → index_t → D)
    (sources : List index_t) (he : index_t) (st : fm_state D)
    (hhe : link_reachable mesh sources (mesh.vt he)) (h : fm_reach mesh sources st) :
    fm_reach mesh sources (fm_link_step mesh upd he st) := by
  have hfr := fm_link_step_frame mesh upd he st
  refine ⟨?_, ?_, ?_⟩
  · intro e hmem
    rcases (fm_link_step_cola mesh upd he st e).mp hmem with h1 | ⟨h1, _, _⟩
    · exact h.cola e h1
    · rw [h1]; exact hhe
  · intro u hu
    by_cases hvu : mesh.vt he = u
    · rw [← hvu]; exact hhe
    · apply h.dist u
      have hsame := (fm_link_step_ne mesh upd he st u hvu).1
      rw [← hsame]; exact hu
  · rw [hfr.sorted_eq, hfr.n_sorted_eq]; exact h.sorted

theorem fm_link_loop_reach (mesh : che K) (upd : che K → List D → index_t → D)
    (sources : List index_t) (hes : List index_t) (st : fm_state D)
    (hhes : ∀ he ∈ hes, link_reachable mesh sources (mesh.vt he))
    (h : fm_reach mesh sources st) :
    fm_reach mesh sources (fm_link_loop mesh upd hes st) := by
  induction hes generalizing st with
  | nil => exact h
  | cons he rest ih =>
    simp only [fm_link_loop]
    apply ih
    · intro he1 h1; exact hhes he1 (List.mem_cons_of_mem _ h1)
    · exact fm_link_step_reach mesh upd sources he st (hhes he (List.mem_cons_self _ _)) h

theorem fm_iter_reach (mesh : che K) (upd : che K → List D → index_t → D) (radio : D)
    (sources : List index_t) (n : Nat) (st : fm_state D) (hwf : fm_wf n st)
    (h : fm_reach mesh sources st) :
    fm_reach mesh sources (fm_iter mesh upd radio st).2 := by
  rcases hres : fm_iter mesh upd radio st with ⟨b, st1⟩
  cases b with
  | true =>
    obtain ⟨top, q, hpop, _, rfl⟩ := fm_iter_true mesh upd radio st st1 hres
    obtain ⟨hcol, hmem, hq, _⟩ := cola_pop_black_cons _ _ _ _ hpop
    have htop : link_reachable mesh sources top.2 := h.cola top hmem
    apply fm_link_loop_reach
    · intro he hhe
      exact link_reachable.step top.2 he htop hhe
    · have hlt := hwf.n_sorted_lt top.2 (hwf.cola_lt top hmem) hcol
      refine ⟨fun e he => h.cola e (hq e he), h.dist, ?_⟩
      simp only
      rw [take_succ_set _ _ _ (by rw [hwf.sorted_len]; exact hlt)]
      intro x hx
      rcases List.mem_append.mp hx with hx | hx
      · exact h.sorted x hx
      · rw [List.mem_singleton] at hx
        rw [hx]; exact htop
  | false =>
    rcases fm_iter_false mesh upd radio st st1 hres with ⟨_, rfl⟩ | ⟨_, rfl⟩ | ⟨top, q, hpop, _, rfl⟩
    · exact h
    · exact ⟨by simp, h.dist, h.sorted⟩
    · obtain ⟨_, _, hq, _⟩ := cola_pop_black_cons _ _ _ _ hpop
      exact ⟨fun e he => h.cola e (hq e he), h.dist, h.sorted⟩

theorem fm_loop_reach (mesh : che K) (upd : che K → List D → index_t → D) (radio : D)
    (sources : List index_t) (n gc : Nat) (st : fm_state D) (hwf : fm_wf n st)
    (h : fm_reach mesh sources st) :
    fm_reach mesh sources (fm_loop mesh upd radio gc st) := by
  induction gc generalizing st with
  | zero => exact h
  | succ gc ih =>
    rw [fm_loop_succ]
    split
    · exact ih _ (fm_iter_wf mesh upd radio n st hwf)
        (fm_iter_reach mesh upd radio sources n st hwf h)
    · exact fm_iter_reach mesh upd radio sources n st hwf h

theorem fm_start_reach (mesh : che K) (n : Nat) (cluster : Bool) (sources : List index_t) :
    fm_reach mesh sources (fm_start (geodesics.alloc n cluster : geodesics D) sources) := by
  obtain ⟨_, _, _, h4, h5, _, h7, _⟩ := fm_start_spec (D := D) n cluster sources
  refine ⟨fun e he => link_reachable.source _ (h7 e he), ?_, ?_⟩
  · intro u hu
    rw [h5 u] at hu
    split at hu
    · rename_i hsrc
      exact link_reachable.source _ hsrc.1
    · exact absurd rfl hu
  · rw [h4]; simp

/-- C4. For every mesh and in-range, non-empty source list, a vertex `v` that is not
joined to any source by a path of link-adjacent vertices (every vertex of a second,
disjoint component, for one) still has distance `INFINITY` after Fast Marching and
does not occur in `sorted_index[0..n_sorted)`. -/
theorem fast_marching_unreachable (mesh : che K) (upd : che K → List D → index_t → D)
    (engine : option_t → geodesics D → geodesics D) (sources : List index_t)
    (cluster : Bool) (n_iter : Nat) (radio : D) (v : index_t)
    (hn : 0 < mesh.n_vertices) (hs : sources ≠ [])
    (hlt : ∀ s ∈ sources, s < mesh.n_vertices)
    (hunreach : ¬ link_reachable mesh sources v) :
    ∃ g, geodesics.create mesh upd engine sources option_t.FM cluster n_iter radio = some g ∧
      g.distances.getD v ⊤ = ⊤ ∧
      ∀ i, i < g.n_sorted → g.sorted_index.getD i NIL ≠ v := by
  refine ⟨_, create_FM mesh upd engine sources cluster n_iter radio hn hs, ?_, ?_⟩
  · simp only [geodesics.run_fastmarching]
    by_contra hcon
    exact hunreach ((fm_loop_reach mesh upd radio sources mesh.n_vertices _ _
      (fm_start_wf mesh.n_vertices cluster sources hlt)
      (fm_start_reach mesh mesh.n_vertices cluster sources)).dist v hcon)
  · intro i hi heq
    simp only [geodesics.run_fastmarching] at hi heq
    have hwf := fm_loop_wf mesh upd radio mesh.n_vertices
      (fm_green_count (geodesics.alloc mesh.n_vertices cluster : geodesics D) n_iter) _
      (fm_start_wf (D := D) mesh.n_vertices cluster sources hlt)
    have hr := fm_loop_reach mesh upd radio sources mesh.n_vertices
      (fm_green_count (geodesics.alloc mesh.n_vertices cluster : geodesics D) n_iter) _
      (fm_start_wf (D := D) mesh.n_vertices cluster sources hlt)
      (fm_start_reach mesh mesh.n_vertices cluster sources)
    apply hunreach
    rw [← heq]
    exact hr.sorted _ (getD_mem_take _ _ _ hi (by rw [hwf.sorted_len]; exact hwf.n_sorted_le))

theorem split_mesh_reachable (u : index_t)
    (h : link_reachable (split_mesh ℚ) [0] u) : u < 3 := by
  induction h with
  | source s hs =>
    rw [List.mem_singleton] at hs
    rw [hs]; decide
  | step u he _ hhe ih =>
    have ih1 : @LT.lt Nat _ u 3 := ih
    have hcases : @Eq Nat u 0 ∨ @Eq Nat u 1 ∨ @Eq Nat u 2 := by omega
    rcases hcases with rfl | rfl | rfl <;>
      simp [split_mesh] at hhe <;> rcases hhe with rfl | rfl <;> simp [split_mesh]

theorem fast_marching_unreachable_witness :
    0 < (split_mesh ℚ).n_vertices ∧ ([0] : List index_t) ≠ [] ∧
    (∀ s ∈ ([0] : List index_t), s < (split_mesh ℚ).n_vertices) ∧
    4 < (split_mesh ℚ).n_vertices ∧ ¬ link_reachable (split_mesh ℚ) [0] 4 ∧
    ∃ g, geodesics.create (split_mesh ℚ) (update_step qsqrt) (fun _ g => g) [0]
        option_t.FM false 0 ⊤ = some g ∧
      g.distances.getD 4 ⊤ = ⊤ ∧
      ∀ i, i < g.n_sorted → g.sorted_index.getD i NIL ≠ 4 :=
  ⟨by decide, by decide, by decide, by decide,
    fun h => absurd (split_mesh_reachable 4 h) (by decide),
    fast_marching_unreachable (split_mesh ℚ) (update_step qsqrt) (fun _ g => g) [0]
      false 0 ⊤ 4 (by decide) (by decide) (by decide)
      (fun h => absurd (split_mesh_reachable 4 h) (by decide))⟩

end claim_unreachable

section fast_marching_budget

variable {K D : Type} [LinearOrder D] [OrderTop D] [Zero D]

theorem fm_iter_nil (mesh : che K) (upd : che K → List D → index_t → D) (radio : D)
    (st : fm_state D) (h : st.cola = []) : fm_iter mesh upd radio st = (false, st) := by
  unfold fm_iter
  rw [if_pos (by rw [h]; rfl)]

theorem fm_loop_nil (mesh : che K) (upd : che K → List D → index_t → D) (radio : D)
    (gc : Nat) (st : fm_state D) (h : st.cola = []) : fm_loop mesh upd radio gc st = st := by
  cases gc with
  | zero => rfl
  | succ gc => rw [fm_loop_succ, fm_iter_nil mesh upd radio st h]; rfl

/-- Without a radius bound the loop is left with an empty queue only. -/
theorem fm_iter_false_top (mesh : che K) (upd : che K → List D → index_t → D)
    (st st1 : fm_state D) (h : fm_iter mesh upd ⊤ st = (false, st1)) :
    st1.cola = [] ∧ st1.n_sorted = st.n_sorted ∧ st1.sorted_index = st.sorted_index ∧
      st1.distances = st.distances := by
  rcases fm_iter_false mesh upd ⊤ st st1 h with ⟨h1, rfl⟩ | ⟨_, rfl⟩ | ⟨top, q, _, hr, _⟩
  · exact ⟨h1, rfl, rfl, rfl⟩
  · exact ⟨rfl, rfl, rfl, rfl⟩
  · exact absurd hr not_top_lt

/-- Without a radius bound, `a + b` passes through the loop are `a` passes followed by
`b` passes. -/
theorem fm_loop_add (mesh : che K) (upd : che K → List D → index_t → D)
    (a b : Nat) (st : fm_state D) :
    fm_loop mesh upd ⊤ (a + b) st = fm_loop mesh upd ⊤ b (fm_loop mesh upd ⊤ a st) := by
  induction a generalizing st with
  | zero => simp [fm_loop]
  | succ a ih =>
    rw [show a + 1 + b = (a + b) + 1 by omega, fm_loop_succ, fm_loop_succ]
    rcases hres : fm_iter mesh upd ⊤ st with ⟨flag, st1⟩
    cases flag with
    | true => simp only [if_true]; exact ih st1
    | false =>
      simp only [Bool.false_eq_true, if_false]
      rw [fm_loop_nil mesh upd ⊤ b st1 (fm_iter_false_top mesh upd st st1 hres).1]

/-- A pass that runs to its end appends one vertex and keeps the earlier entries. -/
theorem fm_iter_true_sorted (mesh : che K) (upd : che K → List D → index_t → D) (radio : D)
    (st st1 : fm_state D) (h : fm_iter mesh upd radio st = (true, st1)) :
    st1.n_sorted = st.n_sorted + 1 ∧
      ∀ i, i < st.n_sorted → st1.sorted_index.getD i NIL = st.sorted_index.getD i NIL := by
  obtain ⟨top, q, _, _, rfl⟩ := fm_iter_true mesh upd radio st st1 h
  have hfr := fm_link_loop_frame mesh upd (mesh.link top.2)
    { st with color := st.color.set top.2 BLACK, cola := q,
              sorted_index := st.sorted_index.set st.n_sorted top.2,
              n_sorted := st.n_sorted + 1 }
  refine ⟨hfr.n_sorted_eq, fun i hi => ?_⟩
  rw [hfr.sorted_eq]
  exact getD_set_ne _ _ _ _ _ (by omega)

/-- After `gc` passes without a radius bound either `gc` vertices were appended or the
queue is empty; never more than `gc` were, and the earlier entries are kept. -/
theorem fm_loop_count (mesh : che K) (upd : che K → List D → index_t → D)
    (gc : Nat) (st : fm_state D) :
    ((fm_loop mesh upd ⊤ gc st).n_sorted = st.n_sorted + gc ∨
      (fm_loop mesh upd ⊤ gc st).cola = []) ∧
    (fm_loop mesh upd ⊤ gc st).n_sorted ≤ st.n_sorted + gc ∧
    st.n_sorted ≤ (fm_loop mesh upd ⊤ gc st).n_sorted ∧
    ∀ i, i < st.n_sorted →
      (fm_loop mesh upd ⊤ gc st).sorted_index.getD i NIL = st.sorted_index.getD i NIL := by
  induction gc generalizing st with
  | zero => exact ⟨Or.inl rfl, le_refl _, le_refl _, fun _ _ => rfl⟩
  | succ gc ih =>
    rw [fm_loop_succ]
    rcases hres : fm_iter mesh upd ⊤ st with ⟨flag, st1⟩
    cases flag with
    | true =>
      simp only [if_true]
      obtain ⟨h1, h2⟩ := fm_iter_true_sorted mesh upd ⊤ st st1 hres
      obtain ⟨i1, i2, i3, i4⟩ := ih st1
      refine ⟨?_, by omega, by omega, fun i hi => ?_⟩
      · rcases i1 with e | e
        · left; omega
        · right; exact e
      · rw [i4 i (by omega), h2 i hi]
    | false =>
      simp only [Bool.false_eq_true, if_false]
      obtain ⟨h1, h2, h3, _⟩ := fm_iter_false_top mesh upd st st1 hres
      exact ⟨Or.inr h1, by omega, by omega, fun i _ => by rw [h3]⟩

theorem cola_pop_black_all (color : List index_t) (cola : List (D × index_t))
    (h : ∀ e ∈ cola, color.getD e.2 NIL = BLACK) : cola_pop_black color cola = [] := by
  induction cola with
  | nil => rfl
  | cons m rest ih =>
    simp only [cola_pop_black]
    rw [if_pos (h m (List.mem_cons_self _ _))]
    exact ih (fun e he => h e (List.mem_cons_of_mem _ he))

/-- Once all `n` vertices are sorted, further passes change neither the sorted order
nor the distances. -/
theorem fm_loop_full (mesh : che K) (upd : che K → List D → index_t → D) (radio : D)
    (n gc : Nat) (st : fm_state D) (hwf : fm_wf n st) (hfull : st.n_sorted = n) :
    (fm_loop mesh upd radio gc st).n_sorted = st.n_sorted ∧
    (fm_loop mesh upd radio gc st).sorted_index = st.sorted_index ∧
    (fm_loop mesh upd radio gc st).distances = st.distances := by
  cases gc with
  | zero => exact ⟨rfl, rfl, rfl⟩
  | succ gc =>
    have hblack : ∀ e ∈ st.cola, st.color.getD e.2 NIL = BLACK := by
      intro e he
      have hmem : e.2 ∈ st.sorted_index.take st.n_sorted :=
        nodup_full_mem _ n e.2 hwf.nodup (fun x hx => (hwf.sorted_black x hx).1)
          (by rw [List.length_take, hwf.sorted_len, hfull, min_self]) (hwf.cola_lt e he)
      exact (hwf.sorted_black _ hmem).2
    have hiter : fm_iter mesh upd radio st = (false, st) ∨
        fm_iter mesh upd radio st = (false, { st with cola := [] }) := by
      unfold fm_iter
      split
      · left; rfl
      · right
        rw [cola_pop_black_all st.color st.cola hblack]
    rw [fm_loop_succ]
    rcases hiter with e | e <;> rw [e] <;> exact ⟨rfl, rfl, rfl⟩

end fast_marching_budget

section claim_budget

variable {K D : Type} [LinearOrder D] [OrderTop D] [Zero D]

/-- The comparison of `k` passes with `n` passes from a well-formed state of `n`
vertices with nothing sorted yet, without a radius bound. -/
theorem fm_loop_truncate (mesh : che K) (upd : che K → List D → index_t → D)
    (n k : Nat) (st : fm_state D) (hwf : fm_wf n st) (h0 : st.n_sorted = 0) :
    (fm_loop mesh upd ⊤ k st).n_sorted ≤ k ∧
    (fm_loop mesh upd ⊤ k st).n_sorted = min k (fm_loop mesh upd ⊤ n st).n_sorted ∧
    ∀ i, i < (fm_loop mesh upd ⊤ k st).n_sorted →
      (fm_loop mesh upd ⊤ k st).sorted_index.getD i NIL =
        (fm_loop mesh upd ⊤ n st).sorted_index.getD i NIL ∧
      (fm_loop mesh upd ⊤ k st).distances.getD
          ((fm_loop mesh upd ⊤ k st).sorted_index.getD i NIL) ⊤ =
        (fm_loop mesh upd ⊤ n st).distances.getD
          ((fm_loop mesh upd ⊤ k st).sorted_index.getD i NIL) ⊤ := by
  obtain ⟨a1, a2, _, _⟩ := fm_loop_count mesh upd k st
  obtain ⟨b1, b2, _, _⟩ := fm_loop_count mesh upd n st
  rw [h0] at a1 a2 b1 b2
  simp only [Nat.zero_add] at a1 a2 b1 b2
  refine ⟨a2, ?_⟩
  rcases Nat.le_total k n with hkn | hnk
  · have hB : fm_loop mesh upd ⊤ n st =
        fm_loop mesh upd ⊤ (n - k) (fm_loop mesh upd ⊤ k st) := by
      rw [← fm_loop_add]; congr 1; omega
    rcases a1 with e | e
    · obtain ⟨_, _, c3, c4⟩ := fm_loop_count mesh upd (n - k) (fm_loop mesh upd ⊤ k st)
      rw [← hB] at c3 c4
      refine ⟨by rw [e]; exact (min_eq_left (by omega)).symm, fun i hi => ⟨(c4 i hi).symm, ?_⟩⟩
      have hwfA := fm_loop_wf mesh upd ⊤ n k st hwf
      have hblack := (hwfA.sorted_black _
        (getD_mem_take _ _ i hi (by rw [hwfA.sorted_len]; exact hwfA.n_sorted_le))).2
      rw [hB]
      exact ((fm_loop_le_black mesh upd ⊤ (n - k) (fm_loop mesh upd ⊤ k st) _).2 hblack).1.symm
    · rw [fm_loop_nil mesh upd ⊤ (n - k) _ e] at hB
      rw [hB]
      exact ⟨(min_eq_right a2).symm, fun i _ => ⟨rfl, rfl⟩⟩
  · have hA : fm_loop mesh upd ⊤ k st =
        fm_loop mesh upd ⊤ (k - n) (fm_loop mesh upd ⊤ n st) := by
      rw [← fm_loop_add]; congr 1; omega
    rcases b1 with e | e
    · obtain ⟨f1, f2, f3⟩ := fm_loop_full mesh upd ⊤ n (k - n) (fm_loop mesh upd ⊤ n st)
        (fm_loop_wf mesh upd ⊤ n n st hwf) e
      rw [← hA] at f1 f2 f3
      refine ⟨by rw [f1]; exact (min_eq_right (by omega)).symm, fun i _ => ?_⟩
      rw [f2, f3]
      exact ⟨rfl, rfl⟩
    · rw [fm_loop_nil mesh upd ⊤ (k - n) _ e] at hA
      rw [hA]
      exact ⟨(min_eq_right (by omega)).symm, fun i _ => ⟨rfl, rfl⟩⟩

/-- C10. The iteration budget truncates and never reorders: for every mesh, in-range
non-empty source list and `k > 0`, Fast Marching with `n_iter = k` and
`radio = INFINITY` finalizes at most `k` vertices, namely `min(k, N)` where `N` is the
number the run without budget (`n_iter = 0`) finalizes, its sorted order consists of
the first entries of the sorted order of that run, and the distances of these vertices
are the same in both runs. -/
theorem fast_marching_budget_truncates (mesh : che K)
    (upd : che K → List D → index_t → D)
    (engine : option_t → geodesics D → geodesics D) (sources : List index_t)
    (cluster : Bool) (k : Nat)
    (hk : 0 < k) (hn : 0 < mesh.n_vertices) (hs : sources ≠ [])
    (hlt : ∀ s ∈ sources, s < mesh.n_vertices) :
    ∃ g_k g_all,
      geodesics.create mesh upd engine sources option_t.FM cluster k ⊤ = some g_k ∧
      geodesics.create mesh upd engine sources option_t.FM cluster 0 ⊤ = some g_all ∧
      g_k.n_sorted ≤ k ∧ g_k.n_sorted = min k g_all.n_sorted ∧
      ∀ i, i < g_k.n_sorted →
        g_k.sorted_index.getD i NIL = g_all.sorted_index.getD i NIL ∧
        g_k.distances.getD (g_k.sorted_index.getD i NIL) ⊤ =
          g_all.distances.getD (g_k.sorted_index.getD i NIL) ⊤ := by
  refine ⟨_, _, create_FM mesh upd engine sources cluster k ⊤ hn hs,
    create_FM mesh upd engine sources cluster 0 ⊤ hn hs, ?_⟩
  have hgk : fm_green_count (geodesics.alloc mesh.n_vertices cluster : geodesics D) k = k := by
    unfold fm_green_count
    rw [if_pos (by omega)]
  have hg0 : fm_green_count (geodesics.alloc mesh.n_vertices cluster : geodesics D) 0 =
      mesh.n_vertices := by
    unfold fm_green_count
    rw [if_neg (by simp)]
    rfl
  simp only [geodesics.run_fastmarching, hgk, hg0]
  exact fm_loop_truncate mesh upd mesh.n_vertices k _
    (fm_start_wf mesh.n_vertices cluster sources hlt)
    (fm_start_spec (D := D) mesh.n_vertices cluster sources).2.2.2.1

theorem fast_marching_budget_truncates_witness :
    0 < 2 ∧ 0 < (obtuse_mesh ℚ).n_vertices ∧ ([0, 1] : List index_t) ≠ [] ∧
    (∀ s ∈ ([0, 1] : List index_t), s < (obtuse_mesh ℚ).n_vertices) ∧
    ∃ g_k g_all,
      geodesics.create (obtuse_mesh ℚ) (update_step qsqrt) (fun _ g => g) [0, 1]
        option_t.FM false 2 ⊤ = some g_k ∧
      geodesics.create (obtuse_mesh ℚ) (update_step qsqrt) (fun _ g => g) [0, 1]
        option_t.FM false 0 ⊤ = some g_all ∧
      g_k.n_sorted ≤ 2 ∧ g_k.n_sorted = min 2 g_all.n_sorted ∧
      ∀ i, i < g_k.n_sorted →
        g_k.sorted_index.getD i NIL = g_all.sorted_index.getD i NIL ∧
        g_k.distances.getD (g_k.sorted_index.getD i NIL) ⊤ =
          g_all.distances.getD (g_k.sorted_index.getD i NIL) ⊤ :=
  ⟨by decide, by decide, by decide, by decide,
    fast_marching_budget_truncates (obtuse_mesh ℚ) (update_step qsqrt) (fun _ g => g) [0, 1]
      false 2 (by decide) (by decide) (by decide) (by decide)⟩

end claim_budget

section fast_marching_queue

variable {K D : Type} [LinearOrder D] [OrderTop D]

theorem pair_lt_iff (a b : D × index_t) :
    pair_lt a b ↔ a.1 < b.1 ∨ (a.1 = b.1 ∧ a.2 < b.2) := by
  unfold pair_lt
  constructor
  · rintro (h | ⟨h1, h2⟩)
    · left; exact h
    · rcases lt_or_eq_of_le (not_lt.mp h1) with h | h
      · left; exact h
      · right; exact ⟨h, h2⟩
  · rintro (h | ⟨h1, h2⟩)
    · left; exact h
    · right; exact ⟨by rw [h1]; exact lt_irrefl _, h2⟩

theorem pair_lt_trans (a b c : D × index_t) (h1 : pair_lt a b) (h2 : pair_lt b c) :
    pair_lt a c := by
  rw [pair_lt_iff] at h1 h2 ⊢
  rcases h1 with h1 | ⟨h1, h1b⟩
  · rcases h2 with h2 | ⟨h2, _⟩
    · left; exact lt_trans h1 h2
    · left; rw [← h2]; exact h1
  · rcases h2 with h2 | ⟨h2, h2b⟩
    · left; rw [h1]; exact h2
    · right; exact ⟨h1.trans h2, lt_trans h1b h2b⟩

/-- An entry not below the top in the order of the pairs has a key not below the key
of the top. -/
theorem pair_not_lt_key (a b : D × index_t) (h : ¬ pair_lt b a) : a.1 ≤ b.1 := by
  by_contra hcon
  exact h (Or.inl (not_le.mp hcon))

theorem cola_push_sorted (e : D × index_t) (q : List (D × index_t)) (h : cola_sorted q) :
    cola_sorted (cola_push e q) := by
  induction q with
  | nil => simp [cola_push, cola_sorted]
  | cons m q ih =>
    unfold cola_sorted at h ih ⊢
    rw [List.pairwise_cons] at h
    simp only [cola_push]
    split
    · rename_i hlt
      rw [List.pairwise_cons]
      refine ⟨?_, List.pairwise_cons.mpr h⟩
      intro x hx
      rcases List.mem_cons.mp hx with rfl | hx
      · intro hxe
        have := pair_lt_trans _ _ _ hxe hlt
        rw [pair_lt_iff] at this
        rcases this with h1 | ⟨_, h1⟩
        · exact lt_irrefl _ h1
        · exact lt_irrefl _ h1
      · intro hxe
        exact h.1 x hx (pair_lt_trans _ _ _ hxe hlt)
    · rename_i hlt
      rw [List.pairwise_cons]
      refine ⟨?_, ih h.2⟩
      intro x hx
      rcases (mem_cola_push e x q).mp hx with rfl | hx
      · exact hlt
      · exact h.1 x hx

theorem cola_pop_black_sorted (color : List index_t) (cola q : List (D × index_t))
    (top : D × index_t) (hs : cola_sorted cola)
    (h : cola_pop_black color cola = top :: q) : cola_sorted (top :: q) := by
  induction cola with
  | nil => simp [cola_pop_black] at h
  | cons m rest ih =>
    unfold cola_sorted at hs
    simp only [cola_pop_black] at h
    split at h
    · exact ih (List.pairwise_cons.mp hs).2 h
    · rw [← h]; exact hs

/-- The vertex that leaves the queue has the least distance among the vertices that are
not `BLACK`. -/
theorem fm_queue.top_le {st : fm_state D} (h : fm_queue st) (top : D × index_t)
    (q : List (D × index_t)) (hpop : cola_pop_black st.color st.cola = top :: q)
    (u : index_t) (hu : st.color.getD u NIL ≠ BLACK) :
    st.distances.getD top.2 ⊤ ≤ st.distances.getD u ⊤ := by
  obtain ⟨hcol, hmem, _, hall⟩ := cola_pop_black_cons _ _ _ _ hpop
  have hsorted := cola_pop_black_sorted _ _ _ _ h.sorted hpop
  by_cases hred : st.color.getD u NIL = RED
  · by_cases hfin : st.distances.getD u ⊤ < ⊤
    · have hin := h.red_mem u hred hfin
      have hkey : top.1 ≤ st.distances.getD u ⊤ := by
        rcases hall _ hin with e | e | e
        · rw [← e]
        · exact pair_not_lt_key top _ ((List.pairwise_cons.mp hsorted).1 _ e)
        · exact absurd e hu
      exact le_trans (h.key_ge top hmem hcol) hkey
    · rw [not_lt, top_le_iff] at hfin
      rw [hfin]; exact le_top
  · rw [h.other_top u hred hu]; exact le_top

/-- The queue invariant after `black_i` left the queue and turned `BLACK`. -/
theorem fm_queue_pop {st : fm_state D} (h : fm_queue st) (top : D × index_t)
    (q : List (D × index_t)) (hpop : cola_pop_black st.color st.cola = top :: q)
    (srt : List index_t) (ns : Nat) (hlen : top.2 < st.color.length) :
    fm_queue { st with color := st.color.set top.2 BLACK, cola := q,
                       sorted_index := srt, n_sorted := ns } := by
  obtain ⟨hcol, hmem, hq, hall⟩ := cola_pop_black_cons _ _ _ _ hpop
  have hsorted := cola_pop_black_sorted _ _ _ _ h.sorted hpop
  have hne : ∀ u, (st.color.set top.2 BLACK).getD u NIL ≠ BLACK →
      u ≠ top.2 ∧ (st.color.set top.2 BLACK).getD u NIL = st.color.getD u NIL := by
    intro u hu
    have hut : u ≠ top.2 := by
      rintro rfl
      exact hu (getD_set_eq _ _ _ _ hlen)
    exact ⟨hut, getD_set_ne _ _ _ _ _ (Ne.symm hut)⟩
  refine ⟨(List.pairwise_cons.mp hsorted).2, ?_, ?_, ?_⟩
  · intro u hred hfin
    simp only at hred hfin ⊢
    obtain ⟨hut, hc⟩ := hne u (by rw [hred]; simp [RED, BLACK])
    rw [hc] at hred
    rcases hall _ (h.red_mem u hred hfin) with e | e | e
    · exact absurd (congrArg Prod.snd e) hut
    · exact e
    · rw [hred] at e; simp [RED, BLACK] at e
  · intro e he hb
    simp only at hb ⊢
    obtain ⟨_, hc⟩ := hne e.2 hb
    exact h.key_ge e (hq e he) (by rw [← hc]; exact hb)
  · intro u h1 h2
    simp only at h1 h2 ⊢
    obtain ⟨_, hc⟩ := hne u h2
    rw [hc] at h1 h2
    exact h.other_top u h1 h2

theorem fm_link_step_queue (mesh : che K) (upd : che K → List D → index_t → D)
    (he : index_t) (st : fm_state D) (h : fm_queue st) :
    fm_queue (fm_link_step mesh upd he st) := by
  have hfr := fm_link_step_frame mesh upd he st
  have hcola := fm_link_step_cola mesh upd he st
  refine ⟨?_, ?_, ?_, ?_⟩
  · unfold fm_link_step
    simp only
    split
    · split
      · simp only [fm_star_loop_cola, fm_promote_cola]
        exact cola_push_sorted _ _ h.sorted
      · simp only [fm_star_loop_cola, fm_promote_cola]
        exact h.sorted
    · rw [fm_promote_cola]; exact h.sorted
  · intro u hred hfin
    by_cases hvu : mesh.vt he = u
    · subst hvu
      exact (hcola _).mpr (Or.inr ⟨rfl, hred, hfin⟩)
    · obtain ⟨e1, e2⟩ := fm_link_step_ne mesh upd he st u hvu
      rw [e1] at hfin ⊢
      rw [e2] at hred
      exact (hcola _).mpr (Or.inl (h.red_mem u hred hfin))
  · intro e he1 hb
    rcases (hcola e).mp he1 with h1 | ⟨h1, _, _⟩
    · exact le_trans (hfr.dist_le e.2)
        (h.key_ge e h1 (fun hbl => hb ((hfr.black_iff e.2).mpr hbl)))
    · rw [h1]
  · intro u h1 h2
    rw [hfr.dist_red u h1]
    rcases hfr.color_step u with e | ⟨_, e2⟩
    · rw [e] at h1 h2
      exact h.other_top u h1 h2
    · exact absurd e2 h1

theorem fm_link_loop_queue (mesh : che K) (upd : che K → List D → index_t → D)
    (hes : List index_t) (st : fm_state D) (h : fm_queue st) :
    fm_queue (fm_link_loop mesh upd hes st) := by
  induction hes generalizing st with
  | nil => exact h
  | cons he rest ih =>
    simp only [fm_link_loop]
    exact ih _ (fm_link_step_queue mesh upd he st h)

/-- One pass through the loop keeps the queue invariant. -/
theorem fm_iter_queue (mesh : che K) (upd : che K → List D → index_t → D) (radio : D)
    (n : Nat) (st : fm_state D) (hwf : fm_wf n st) (h : fm_queue st) :
    fm_queue (fm_iter mesh upd radio st).2 := by
  rcases hres : fm_iter mesh upd radio st with ⟨b, st1⟩
  cases b with
  | true =>
    obtain ⟨top, q, hpop, _, rfl⟩ := fm_iter_true mesh upd radio st st1 hres
    obtain ⟨_, hmem, _, _⟩ := cola_pop_black_cons _ _ _ _ hpop
    exact fm_link_loop_queue mesh upd _ _
      (fm_queue_pop h top q hpop _ _ (by rw [hwf.color_len]; exact hwf.cola_lt top hmem))
  | false =>
    rcases fm_iter_false mesh upd radio st st1 hres with ⟨_, rfl⟩ | ⟨hnil, rfl⟩ | ⟨top, q, hpop, _, rfl⟩
    · exact h
    · refine ⟨by simp [cola_sorted], ?_, by simp, h.other_top⟩
      intro u hred hfin
      have := cola_pop_black_nil _ _ hnil _ (h.red_mem u hred hfin)
      simp only at this
      rw [hred] at this
      simp [RED, BLACK] at this
    · obtain ⟨_, hmem, _, _⟩ := cola_pop_black_cons _ _ _ _ hpop
      exact fm_queue_pop h top q hpop _ _ (by rw [hwf.color_len]; exact hwf.cola_lt top hmem)

end fast_marching_queue

section fast_marching_order

variable {K D : Type} [LinearOrder D] [OrderTop D] [Zero D]

theorem fm_init_sources_queue (sources : List index_t) (c : index_t) (st : fm_state D)
    (hs : cola_sorted st.cola) :
    cola_sorted (fm_init_sources sources c st).cola ∧
    ∀ e ∈ (fm_init_sources sources c st).cola,
      e ∈ st.cola ∨ (e.2 < st.distances.length → e.1 = 0) := by
  induction sources generalizing c st with
  | nil => exact ⟨hs, fun e he => Or.inl he⟩
  | cons s rest ih =>
    simp only [fm_init_sources]
    obtain ⟨h1, h2⟩ := ih (if st.clusters.isSome = true then c + 1 else c)
      { st with distances := st.distances.set s 0,
                clusters := st.clusters.map
                  (fun cl => cl.set s (if st.clusters.isSome = true then c + 1 else c)),
                color := st.color.set s RED,
                cola := cola_push ((st.distances.set s 0).getD s ⊤, s) st.cola }
      (cola_push_sorted _ _ hs)
    refine ⟨h1, fun e he => ?_⟩
    rcases h2 e he with h | h
    · rcases (mem_cola_push _ _ _).mp h with h | h
      · right
        intro hlen
        rw [h] at hlen ⊢
        exact getD_set_eq _ _ _ _ hlen
      · left; exact h
    · right
      intro hlen
      exact h (by simpa using hlen)

theorem fm_start_queue (n : Nat) (cluster : Bool) (sources : List index_t)
    (hlt : ∀ s ∈ sources, s < n) :
    fm_queue (fm_start (geodesics.alloc n cluster : geodesics D) sources) := by
  obtain ⟨h1, h2, _, _, h5, h6, h7, h8⟩ := fm_start_spec (D := D) n cluster sources
  obtain ⟨q1, q2⟩ := fm_init_sources_queue (D := D) sources 0
    { clusters := (geodesics.alloc n cluster : geodesics D).clusters,
      distances := (geodesics.alloc n cluster : geodesics D).distances,
      sorted_index := (geodesics.alloc n cluster : geodesics D).sorted_index,
      n_sorted := 0, color := List.replicate n GREEN, cola := [] }
    (by simp [cola_sorted])
  refine ⟨q1, ?_, ?_, ?_⟩
  · intro u hred _
    have hun : u < n := by
      have := getD_ne_NIL_lt _ _ _ hred (by simp [RED, NIL])
      rw [h2] at this; exact this
    have hsrc : u ∈ sources := by
      by_contra hcon
      rw [h6 u hun, if_neg hcon] at hred
      simp [GREEN, RED] at hred
    rw [h5 u, if_pos ⟨hsrc, hun⟩]
    exact h8 u hsrc hun
  · intro e he _
    have hsrc := h7 e he
    have hen := hlt _ hsrc
    rw [h5 e.2, if_pos ⟨hsrc, hen⟩]
    rcases q2 e he with h | h
    · simp at h
    · rw [h (by simp [geodesics.alloc]; exact hen)]
  · intro u hr hb
    rw [h5 u]
    split
    · rename_i hsrc
      rw [h6 u hsrc.2, if_pos hsrc.1] at hr
      exact absurd rfl hr
    · rfl

theorem fm_black_eq (st : fm_state D) (top : D × index_t) (q : List (D × index_t))
    (hpop : cola_pop_black st.color st.cola = top :: q) : fm_black st = top.2 := by
  unfold fm_black
  rw [hpop]

/-- A causal pass through the loop keeps the sorted order ascending. -/
theorem fm_iter_order (mesh : che K) (upd : che K → List D → index_t → D) (radio : D)
    (st : fm_state D) (hwf : fm_wf mesh.n_vertices st) (hq : fm_queue st)
    (h : fm_order st)
    (hc : (fm_iter mesh upd radio st).1 = true → fm_causal mesh upd radio st) :
    fm_order (fm_iter mesh upd radio st).2 := by
  rcases hres : fm_iter mesh upd radio st with ⟨b, st1⟩
  cases b with
  | true =>
    have hcausal := hc (by rw [hres])
    unfold fm_causal at hcausal
    rw [hres] at hcausal
    simp only at hcausal
    obtain ⟨top, q, hpop, _, hst1⟩ := fm_iter_true mesh upd radio st st1 hres
    rw [fm_black_eq st top q hpop] at hcausal
    obtain ⟨hcol, hmem, _, _⟩ := cola_pop_black_cons _ _ _ _ hpop
    have hb : top.2 < mesh.n_vertices := hwf.cola_lt top hmem
    have hlt := hwf.n_sorted_lt top.2 hb hcol
    have hwf2 := fm_wf_append hwf top q hpop
    have hfr := fm_link_loop_frame mesh upd (mesh.link top.2)
      { st with color := st.color.set top.2 BLACK, cola := q,
                sorted_index := st.sorted_index.set st.n_sorted top.2,
                n_sorted := st.n_sorted + 1 }
    rw [← hst1] at hfr
    have htake : st1.sorted_index.take st1.n_sorted =
        st.sorted_index.take st.n_sorted ++ [top.2] := by
      rw [hfr.sorted_eq, hfr.n_sorted_eq]
      exact take_succ_set _ _ _ (by rw [hwf.sorted_len]; exact hlt)
    have hfrozen : ∀ x ∈ st.sorted_index.take st.n_sorted ++ [top.2],
        st1.distances.getD x ⊤ = st.distances.getD x ⊤ := by
      intro x hx
      apply hfr.dist_black
      simp only
      rcases List.mem_append.mp hx with hx | hx
      · exact getD_set_black _ _ _ (hwf.sorted_black x hx).2
      · rw [List.mem_singleton] at hx
        rw [hx]
        exact getD_set_eq _ _ _ _ (by rw [hwf.color_len]; exact hb)
    have hopen : ∀ u, st1.color.getD u NIL ≠ BLACK →
        st.color.getD u NIL ≠ BLACK ∧
          min (st.distances.getD u ⊤) (st.distances.getD top.2 ⊤) ≤
            st1.distances.getD u ⊤ := by
      intro u hu
      have hu2 : (st.color.set top.2 BLACK).getD u NIL ≠ BLACK :=
        fun hbl => hu ((hfr.black_iff u).mpr hbl)
      refine ⟨fun hbl => hu2 (getD_set_black _ _ _ hbl), ?_⟩
      by_cases hun : u < mesh.n_vertices
      · exact hcausal u hun
      · rw [getD_oob st1.distances u ⊤ (by
          rw [hfr.dist_len]; simp only; rw [hwf.dist_len]; exact not_lt.mp hun)]
        exact le_top
    refine ⟨?_, ?_⟩
    · rw [htake]
      intro x hx u hu
      obtain ⟨hu0, hmin⟩ := hopen u hu
      rw [hfrozen x hx]
      refine le_trans (le_min ?_ ?_) hmin
      · rcases List.mem_append.mp hx with hx | hx
        · exact h.le_open x hx u hu0
        · rw [List.mem_singleton] at hx
          rw [hx]
          exact hq.top_le top q hpop u hu0
      · rcases List.mem_append.mp hx with hx | hx
        · exact h.le_open x hx top.2 hcol
        · rw [List.mem_singleton] at hx
          rw [hx]
    · rw [htake]
      have hmono0 : (st.sorted_index.take st.n_sorted ++ [top.2]).Pairwise
          (fun x y => st.distances.getD x ⊤ ≤ st.distances.getD y ⊤) := by
        rw [List.pairwise_append]
        refine ⟨h.mono, List.pairwise_singleton _ _, ?_⟩
        intro x hx y hy
        rw [List.mem_singleton] at hy
        rw [hy]
        exact h.le_open x hx top.2 hcol
      refine List.Pairwise.imp_of_mem ?_ hmono0
      intro x y hx hy hxy
      rw [hfrozen x hx, hfrozen y hy]
      exact hxy
  | false =>
    rcases fm_iter_false mesh upd radio st st1 hres with ⟨_, rfl⟩ | ⟨_, rfl⟩ | ⟨top, q, hpop, _, rfl⟩
    · exact h
    · exact ⟨h.le_open, h.mono⟩
    · refine ⟨?_, h.mono⟩
      intro x hx u hu
      simp only at hu ⊢
      exact h.le_open x hx u (fun hbl => hu (getD_set_black _ _ _ hbl))

theorem fm_trace_succ (mesh : che K) (upd : che K → List D → index_t → D) (radio : D)
    (gc : Nat) (st : fm_state D) :
    fm_trace mesh upd radio (gc + 1) st =
      if (fm_iter mesh upd radio st).1 then
        st :: fm_trace mesh upd radio gc (fm_iter mesh upd radio st).2
      else [] := by
  rcases hres : fm_iter mesh upd radio st with ⟨b, st1⟩
  cases b <;> simp [fm_trace, hres]

/-- A run of causal passes keeps the sorted order ascending. -/
theorem fm_loop_order (mesh : che K) (upd : che K → List D → index_t → D) (radio : D)
    (gc : Nat) (st : fm_state D) (hwf : fm_wf mesh.n_vertices st) (hq : fm_queue st)
    (h : fm_order st)
    (hc : ∀ s ∈ fm_trace mesh upd radio gc st, fm_causal mesh upd radio s) :
    fm_order (fm_loop mesh upd radio gc st) := by
  induction gc generalizing st with
  | zero => exact h
  | succ gc ih =>
    rw [fm_trace_succ] at hc
    rw [fm_loop_succ]
    have hstep : fm_order (fm_iter mesh upd radio st).2 :=
      fm_iter_order mesh upd radio st hwf hq h (fun ht => by
        rw [if_pos ht] at hc
        exact hc st (List.mem_cons_self _ _))
    split
    · rename_i ht
      rw [if_pos ht] at hc
      exact ih _ (fm_iter_wf mesh upd radio _ st hwf)
        (fm_iter_queue mesh upd radio _ st hwf hq) hstep
        (fun s hs => hc s (List.mem_cons_of_mem _ hs))
    · exact hstep

end fast_marching_order

section obtuse_run

variable {K D : Type} [LinearOrderedField K] [LinearOrder D] [OrderTop D] [Zero D]

theorem obtuse_vt (he : index_t) :
    (obtuse_mesh K).vt he = [0, 2, 3, 0, 3, 1].getD he 0 := rfl

theorem obtuse_link (v : index_t) :
    (obtuse_mesh K).link v = [[1, 4, 5], [3, 4], [2, 0], [5, 0, 1]].getD v [] := rfl

theorem obtuse_star (v : index_t) :
    (obtuse_mesh K).star v = [[0, 3], [5], [1], [4, 2]].getD v [] := rfl

theorem obtuse_start :
    fm_start (geodesics.alloc 4 false : geodesics D) [0, 1] =
      { clusters := none, distances := [0, 0, ⊤, ⊤], sorted_index := [NIL, NIL, NIL, NIL],
        n_sorted := 0, color := [RED, RED, GREEN, GREEN], cola := [(0, 0), (0, 1)] } := by
  simp [fm_start, geodesics.alloc, fm_init_sources, cola_push, pair_lt, List.replicate]

/-- First pass on `obtuse_mesh`: vertex `0` is finalized, vertex `2` gets its distance
over the edge from `0`, vertex `3` over the triangle `(0, 3, 1)`. -/
theorem obtuse_iter_1 (upd : che K → List D → index_t → D) (d39 d50 : D)
    (h0 : 0 < d39) (h2 : d39 < d50) (h3 : d50 < ⊤)
    (eA : upd (obtuse_mesh K) [0, 0, ⊤, ⊤] 1 = d50)
    (eB : upd (obtuse_mesh K) [0, 0, d50, ⊤] 4 = d39)
    (eC : ¬ upd (obtuse_mesh K) [0, 0, d50, d39] 2 < d39)
    (eD : ¬ upd (obtuse_mesh K) [0, 0, d50, d39] 5 < 0) :
    fm_iter (obtuse_mesh K) upd ⊤
      { clusters := none, distances := [0, 0, ⊤, ⊤], sorted_index := [NIL, NIL, NIL, NIL],
        n_sorted := 0, color := [RED, RED, GREEN, GREEN], cola := [(0, 0), (0, 1)] } =
      (true,
        { clusters := none, distances := [0, 0, d50, d39],
          sorted_index := [0, NIL, NIL, NIL], n_sorted := 1,
          color := [BLACK, RED, RED, RED],
          cola := [(0, 1), (0, 1), (d39, 3), (d50, 2)] }) := by
  have g1 : (0 : D) < d50 := lt_trans h0 h2
  have g3 : d39 < (⊤ : D) := lt_trans h2 h3
  have g5 : (0 : D) < ⊤ := lt_trans g1 h3
  have n1 : ¬ d50 < (0 : D) := not_lt.mpr (le_of_lt g1)
  have n2 : ¬ d39 < (0 : D) := not_lt.mpr (le_of_lt h0)
  have n3 : ¬ d50 < d39 := not_lt.mpr (le_of_lt h2)
  simp [fm_iter, cola_pop_black, fm_link_loop, fm_link_step, fm_promote, fm_star_loop,
    obtuse_vt, obtuse_star, obtuse_link, cola_push, pair_lt,
    GREEN, RED, BLACK, NIL, eA, eB, eC, eD, h0, h2, h3, g1, g3, g5, n1, n2, n3]

/-- Second pass: vertex `1` is finalized; no distance changes. -/
theorem obtuse_iter_2 (upd : che K → List D → index_t → D) (d39 d50 : D)
    (h0 : 0 < d39) (h2 : d39 < d50) (h3 : d50 < ⊤)
    (eC : ¬ upd (obtuse_mesh K) [0, 0, d50, d39] 2 < d39)
    (eE : upd (obtuse_mesh K) [0, 0, d50, d39] 4 = d39) :
    fm_iter (obtuse_mesh K) upd ⊤
      { clusters := none, distances := [0, 0, d50, d39],
        sorted_index := [0, NIL, NIL, NIL], n_sorted := 1,
        color := [BLACK, RED, RED, RED],
        cola := [(0, 1), (0, 1), (d39, 3), (d50, 2)] } =
      (true,
        { clusters := none, distances := [0, 0, d50, d39],
          sorted_index := [0, 1, NIL, NIL], n_sorted := 2,
          color := [BLACK, BLACK, RED, RED],
          cola := [(0, 1), (d39, 3), (d39, 3), (d50, 2)] }) := by
  have g1 : (0 : D) < d50 := lt_trans h0 h2
  have g3 : d39 < (⊤ : D) := lt_trans h2 h3
  have g5 : (0 : D) < ⊤ := lt_trans g1 h3
  have n2 : ¬ d39 < (0 : D) := not_lt.mpr (le_of_lt h0)
  simp [fm_iter, cola_pop_black, fm_link_loop, fm_link_step, fm_promote, fm_star_loop,
    obtuse_vt, obtuse_star, obtuse_link, cola_push, pair_lt,
    GREEN, RED, BLACK, NIL, eC, eE, h0, h2, h3, g1, g3, g5, n2]

/-- Third pass: vertex `3` is finalized at `d39`, and the planar unfold of the obtuse
triangle `(0, 2, 3)` lowers vertex `2` from `d50` to `d30`. -/
theorem obtuse_iter_3 (upd : che K → List D → index_t → D) (d30 d39 d50 : D)
    (h1 : d30 < d39) (h2 : d39 < d50) (h3 : d50 < ⊤)
    (eF : upd (obtuse_mesh K) [0, 0, d50, d39] 1 = d30) :
    fm_iter (obtuse_mesh K) upd ⊤
      { clusters := none, distances := [0, 0, d50, d39],
        sorted_index := [0, 1, NIL, NIL], n_sorted := 2,
        color := [BLACK, BLACK, RED, RED],
        cola := [(0, 1), (d39, 3), (d39, 3), (d50, 2)] } =
      (true,
        { clusters := none, distances := [0, 0, d30, d39],
          sorted_index := [0, 1, 3, NIL], n_sorted := 3,
          color := [BLACK, BLACK, RED, BLACK],
          cola := [(d30, 2), (d39, 3), (d50, 2)] }) := by
  have g2 : d30 < d50 := lt_trans h1 h2
  have g3 : d39 < (⊤ : D) := lt_trans h2 h3
  have g4 : d30 < (⊤ : D) := lt_trans g2 h3
  simp [fm_iter, cola_pop_black, fm_link_loop, fm_link_step, fm_promote, fm_star_loop,
    obtuse_vt, obtuse_star, obtuse_link, cola_push, pair_lt,
    GREEN, RED, BLACK, NIL, eF, h1, h2, h3, g2, g3, g4]

/-- Fourth pass: vertex `2` is finalized at `d30`, after vertex `3`. -/
theorem obtuse_iter_4 (upd : che K → List D → index_t → D) (d30 d39 d50 : D) :
    fm_iter (obtuse_mesh K) upd ⊤
      { clusters := none, distances := [0, 0, d30, d39],
        sorted_index := [0, 1, 3, NIL], n_sorted := 3,
        color := [BLACK, BLACK, RED, BLACK],
        cola := [(d30, 2), (d39, 3), (d50, 2)] } =
      (true,
        { clusters := none, distances := [0, 0, d30, d39],
          sorted_index := [0, 1, 3, 2], n_sorted := 4,
          color := [BLACK, BLACK, BLACK, BLACK],
          cola := [(d39, 3), (d50, 2)] }) := by
  simp [fm_iter, cola_pop_black, fm_link_loop, fm_link_step, fm_promote, fm_star_loop,
    obtuse_vt, obtuse_star, obtuse_link, cola_push, pair_lt,
    GREEN, RED, BLACK, NIL]

theorem obtuse_n_vertices : (obtuse_mesh K).n_vertices = 4 := rfl

/-- The Fast-Marching computation on `obtuse_mesh` from the sources `0` and `1`, without
budget, for an update rule with the six values listed: vertex `3` is finalized at `d39`
before vertex `2` is at `d30`. -/
theorem obtuse_create (upd : che K → List D → index_t → D)
    (engine : option_t → geodesics D → geodesics D) (d30 d39 d50 : D)
    (h0 : 0 < d30) (h1 : d30 < d39) (h2 : d39 < d50) (h3 : d50 < ⊤)
    (eA : upd (obtuse_mesh K) [0, 0, ⊤, ⊤] 1 = d50)
    (eB : upd (obtuse_mesh K) [0, 0, d50, ⊤] 4 = d39)
    (eC : ¬ upd (obtuse_mesh K) [0, 0, d50, d39] 2 < d39)
    (eD : ¬ upd (obtuse_mesh K) [0, 0, d50, d39] 5 < 0)
    (eE : upd (obtuse_mesh K) [0, 0, d50, d39] 4 = d39)
    (eF : upd (obtuse_mesh K) [0, 0, d50, d39] 1 = d30) :
    geodesics.create (obtuse_mesh K) upd engine [0, 1] option_t.FM false 0 ⊤ =
      some { clusters := none, distances := [0, 0, d30, d39], sorted_index := [0, 1, 3, 2],
             n_vertices := 4, n_sorted := 4 } := by
  have g0 : (0 : D) < d39 := lt_trans h0 h1
  rw [create_FM (obtuse_mesh K) upd engine [0, 1] false 0 ⊤
    (by rw [obtuse_n_vertices]; decide) (by decide)]
  simp only [geodesics.run_fastmarching, fm_green_count, obtuse_n_vertices, obtuse_start]
  simp only [geodesics.alloc, ne_eq, not_true_eq_false, if_false, fm_loop,
    obtuse_iter_1 upd d39 d50 g0 h2 h3 eA eB eC eD,
    obtuse_iter_2 upd d39 d50 g0 h2 h3 eC eE,
    obtuse_iter_3 upd d30 d39 d50 h1 h2 h3 eF,
    obtuse_iter_4 upd d30 d39 d50]

end obtuse_run

section obtuse_calls

variable {K : Type} [LinearOrderedField K]

/-- The value of `update_step` for a half-edge with the neighbours `x0`, `x1`, the
edge matrix `X` and an invertible Gram matrix. -/
theorem update_step_some (sqrt : K → K) (mesh : che K) (distances : List (WithTop K))
    (he x0 x1 : index_t) (X : vertex K × vertex K) (Q : mat22 K)
    (hx0 : mesh.vt (mesh.next he) = x0) (hx1 : mesh.vt (mesh.prev he) = x1)
    (hX0 : (mesh.gt x0).sub (mesh.gt (mesh.vt he)) = X.1)
    (hX1 : (mesh.gt x1).sub (mesh.gt (mesh.vt he)) = X.2)
    (hQ : inv_sympd (gram X) = some Q) :
    update_step sqrt mesh distances he =
      (planar_update sqrt distances NIL X (x0, x1, mesh.vt he)).1 := by
  unfold update_step update
  simp only [hx0, hx1, hX0, hX1, Prod.mk.eta, hQ]

theorem vertex.sub_mk (a b c d e f : K) :
    (vertex.mk a b c).sub (vertex.mk d e f) = vertex.mk (a - d) (b - e) (c - f) := rfl

/-- The update of vertex `3` over the triangle `(0, 3, 1)` with both neighbours at
distance `0`: the planar unfold gives the distance `39` to the line through them. -/
theorem obtuse_call_B (sqrt : K → K) (hs : sqrt (1 / 1521) = 1 / 39) (d2 d3 : WithTop K) :
    update_step sqrt (obtuse_mesh K) [0, 0, d2, d3] 4 = ((39 : K) : WithTop K) := by
  have hQ : inv_sympd (gram ((⟨-39, 52, 0⟩, ⟨-39, -80, 0⟩) : vertex K × vertex K)) =
      some (⟨7921 / 26501904, 203 / 2038608, 203 / 2038608, 25 / 156816⟩ : mat22 K) := by
    norm_num [inv_sympd, gram, vertex.dot]
  rw [update_step_some sqrt (obtuse_mesh K) _ 4 1 0 (⟨-39, 52, 0⟩, ⟨-39, -80, 0⟩) _ rfl rfl
    (by show vertex.sub ⟨0, 132, 0⟩ ⟨39, 80, 0⟩ = _; rw [vertex.sub_mk]; norm_num)
    (by show vertex.sub ⟨0, 0, 0⟩ ⟨39, 80, 0⟩ = _; rw [vertex.sub_mk]; norm_num) hQ]
  have hdis : planar_dis
      (⟨7921 / 26501904, 203 / 2038608, 203 / 2038608, 25 / 156816⟩ : mat22 K) 0 0 =
      1 / 1521 := by
    norm_num [planar_dis, mat22.ones_mul, mat22.sum, mat22.quad]
  have hp : planar_p sqrt
      (⟨7921 / 26501904, 203 / 2038608, 203 / 2038608, 25 / 156816⟩ : mat22 K) 0 0 = 39 := by
    unfold planar_p
    rw [hdis, hs]
    norm_num [mat22.ones_mul, mat22.sum]
  rw [planar_update_unfold sqrt [0, 0, d2, d3] NIL _ (1, 0, (obtuse_mesh K).vt 4) _ 0 0 hQ
    (by simp) (by simp) (by rw [hdis]; norm_num)
    (by rw [hp]; norm_num) (by rw [hp]; norm_num), hp]

/-- The update of vertex `2` over the triangle `(0, 2, 3)` while vertex `3` is at
`INFINITY`: the edge propagation from vertex `0` gives the edge length `50`. -/
theorem obtuse_call_A (sqrt : K → K) (hs : sqrt 2500 = 50) :
    update_step sqrt (obtuse_mesh K) [0, 0, ⊤, ⊤] 1 = ((50 : K) : WithTop K) := by
  have hQ : inv_sympd (gram ((⟨9, 40, 0⟩, ⟨-30, -40, 0⟩) : vertex K × vertex K)) =
      some (⟨25 / 7056, 187 / 70560, 187 / 70560, 1681 / 705600⟩ : mat22 K) := by
    norm_num [inv_sympd, gram, vertex.dot]
  rw [update_step_some sqrt (obtuse_mesh K) _ 1 3 0 (⟨9, 40, 0⟩, ⟨-30, -40, 0⟩) _ rfl rfl
    (by show vertex.sub ⟨39, 80, 0⟩ ⟨30, 40, 0⟩ = _; rw [vertex.sub_mk]; norm_num)
    (by show vertex.sub ⟨0, 0, 0⟩ ⟨30, 40, 0⟩ = _; rw [vertex.sub_mk]; norm_num) hQ]
  rw [planar_update_fallback sqrt [0, 0, ⊤, ⊤] NIL _ (3, 0, (obtuse_mesh K).vt 1) _ hQ
    (by intro a b ha; simp at ha)]
  rw [edge_propagation_fst]
  have h2 : ((⟨-30, -40, 0⟩ : vertex K).norm sqrt) = 50 := by
    unfold vertex.norm
    rw [show (⟨-30, -40, 0⟩ : vertex K).dot ⟨-30, -40, 0⟩ = 2500 by norm_num [vertex.dot], hs]
  simp only [List.getD_cons_zero, List.getD_cons_succ, h2]
  simp

/-- The update of vertex `3` over the triangle `(0, 2, 3)` with vertex `0` at `0` and
vertex `2` at `50`: the planar unfold is not valid, and the edge propagation gives
`min(0 + 89, 50 + 41) = 89`. -/
theorem obtuse_call_C (sqrt : K → K) (hs0 : sqrt 0 = 0) (hs1 : sqrt 7921 = 89)
    (hs2 : sqrt 1681 = 41) (d3 : WithTop K) :
    update_step sqrt (obtuse_mesh K) [0, 0, ((50 : K) : WithTop K), d3] 2 =
      ((89 : K) : WithTop K) := by
  have hQ : inv_sympd (gram ((⟨-39, -80, 0⟩, ⟨-9, -40, 0⟩) : vertex K × vertex K)) =
      some (⟨1681 / 705600, -3551 / 705600, -3551 / 705600, 7921 / 705600⟩ : mat22 K) := by
    norm_num [inv_sympd, gram, vertex.dot]
  rw [update_step_some sqrt (obtuse_mesh K) _ 2 0 2 (⟨-39, -80, 0⟩, ⟨-9, -40, 0⟩) _ rfl rfl
    (by show vertex.sub ⟨0, 0, 0⟩ ⟨39, 80, 0⟩ = _; rw [vertex.sub_mk]; norm_num)
    (by show vertex.sub ⟨30, 40, 0⟩ ⟨39, 80, 0⟩ = _; rw [vertex.sub_mk]; norm_num) hQ]
  have hdis : planar_dis
      (⟨1681 / 705600, -3551 / 705600, -3551 / 705600, 7921 / 705600⟩ : mat22 K) 0 50 = 0 := by
    norm_num [planar_dis, mat22.ones_mul, mat22.sum, mat22.quad]
  have hp : planar_p sqrt
      (⟨1681 / 705600, -3551 / 705600, -3551 / 705600, 7921 / 705600⟩ : mat22 K) 0 50 =
      437 / 5 := by
    unfold planar_p
    rw [hdis, hs0]
    norm_num [mat22.ones_mul, mat22.sum]
  rw [planar_update_fallback sqrt [0, 0, ((50 : K) : WithTop K), d3] NIL _
    (0, 2, (obtuse_mesh K).vt 2) _ hQ
    (by
      intro a b ha hb _
      have ea : a = 0 := by
        have : ((0 : K) : WithTop K) = (a : WithTop K) := ha
        exact (WithTop.coe_eq_coe.mp this).symm
      have eb : b = 50 := by
        have : ((50 : K) : WithTop K) = (b : WithTop K) := hb
        exact (WithTop.coe_eq_coe.mp this).symm
      subst ea; subst eb
      right
      rw [hp]; norm_num)]
  rw [edge_propagation_fst]
  have h1 : ((⟨-39, -80, 0⟩ : vertex K).norm sqrt) = 89 := by
    unfold vertex.norm
    rw [show (⟨-39, -80, 0⟩ : vertex K).dot ⟨-39, -80, 0⟩ = 7921 by norm_num [vertex.dot], hs1]
  have h2 : ((⟨-9, -40, 0⟩ : vertex K).norm sqrt) = 41 := by
    unfold vertex.norm
    rw [show (⟨-9, -40, 0⟩ : vertex K).dot ⟨-9, -40, 0⟩ = 1681 by norm_num [vertex.dot], hs2]
  simp only [List.getD_cons_zero, List.getD_cons_succ, h1, h2]
  rw [zero_add, ← WithTop.coe_add, ← WithTop.coe_min]
  norm_num

/-- The update of vertex `2` over the triangle `(0, 2, 3)` with vertex `3` at `39` and
vertex `0` at `0`: the planar unfold is valid and gives `30`, less than the distance `39`
of vertex `3`. -/
theorem obtuse_call_F (sqrt : K → K) (hs : sqrt (4 / 441) = 2 / 21) (d2 : WithTop K) :
    update_step sqrt (obtuse_mesh K) [0, 0, d2, ((39 : K) : WithTop K)] 1 =
      ((30 : K) : WithTop K) := by
  have hQ : inv_sympd (gram ((⟨9, 40, 0⟩, ⟨-30, -40, 0⟩) : vertex K × vertex K)) =
      some (⟨25 / 7056, 187 / 70560, 187 / 70560, 1681 / 705600⟩ : mat22 K) := by
    norm_num [inv_sympd, gram, vertex.dot]
  rw [update_step_some sqrt (obtuse_mesh K) _ 1 3 0 (⟨9, 40, 0⟩, ⟨-30, -40, 0⟩) _ rfl rfl
    (by show vertex.sub ⟨39, 80, 0⟩ ⟨30, 40, 0⟩ = _; rw [vertex.sub_mk]; norm_num)
    (by show vertex.sub ⟨0, 0, 0⟩ ⟨30, 40, 0⟩ = _; rw [vertex.sub_mk]; norm_num) hQ]
  have hdis : planar_dis
      (⟨25 / 7056, 187 / 70560, 187 / 70560, 1681 / 705600⟩ : mat22 K) 39 0 = 4 / 441 := by
    norm_num [planar_dis, mat22.ones_mul, mat22.sum, mat22.quad]
  have hp : planar_p sqrt
      (⟨25 / 7056, 187 / 70560, 187 / 70560, 1681 / 705600⟩ : mat22 K) 39 0 = 30 := by
    unfold planar_p
    rw [hdis, hs]
    norm_num [mat22.ones_mul, mat22.sum]
  rw [planar_update_unfold sqrt [0, 0, d2, ((39 : K) : WithTop K)] NIL _
    (3, 0, (obtuse_mesh K).vt 1) _ 39 0 hQ
    (by simp) (by simp) (by rw [hdis]; norm_num)
    (by rw [hp]; norm_num) (by rw [hp]; norm_num), hp]

end obtuse_calls

section obtuse_real

theorem real_sqrt_of_sq (x y : ℝ) (hy : 0 ≤ y) (h : y * y = x) : Real.sqrt x = y := by
  rw [← h]; exact Real.sqrt_mul_self hy

/-- The update of the source `1` over the triangle `(0, 3, 1)` does not lower its
distance `0`. -/
theorem obtuse_call_D_real :
    ¬ update_step Real.sqrt (obtuse_mesh ℝ)
        [0, 0, ((50 : ℝ) : WithTop ℝ), ((39 : ℝ) : WithTop ℝ)] 5 < 0 := by
  rw [not_lt]
  apply update_step_nonneg Real.sqrt Real.sqrt_nonneg
  intro u
  rcases u with _ | _ | _ | _ | u
  · simp
  · simp
  · simp only [List.getD_cons_succ, List.getD_cons_zero]
    rw [← WithTop.coe_zero, WithTop.coe_le_coe]; norm_num
  · simp only [List.getD_cons_succ, List.getD_cons_zero]
    rw [← WithTop.coe_zero, WithTop.coe_le_coe]; norm_num
  · simp

/-- Over the real numbers, Fast Marching with the update rule of the spec on
`obtuse_mesh` from the sources `0` and `1`: the sorted order is `0, 1, 3, 2` and the
distances are `0, 0, 30, 39`. -/
theorem obtuse_create_real (engine : option_t → geodesics (WithTop ℝ) → geodesics (WithTop ℝ)) :
    geodesics.create (obtuse_mesh ℝ) (update_step Real.sqrt) engine [0, 1] option_t.FM
        false 0 ⊤ = some (obtuse_result ℝ) := by
  have s2500 : Real.sqrt 2500 = 50 := real_sqrt_of_sq _ _ (by norm_num) (by norm_num)
  have s1521 : Real.sqrt (1 / 1521) = 1 / 39 := real_sqrt_of_sq _ _ (by norm_num) (by norm_num)
  have s7921 : Real.sqrt 7921 = 89 := real_sqrt_of_sq _ _ (by norm_num) (by norm_num)
  have s1681 : Real.sqrt 1681 = 41 := real_sqrt_of_sq _ _ (by norm_num) (by norm_num)
  have s441 : Real.sqrt (4 / 441) = 2 / 21 := real_sqrt_of_sq _ _ (by norm_num) (by norm_num)
  apply obtuse_create (update_step Real.sqrt) engine ((30 : ℝ) : WithTop ℝ)
    ((39 : ℝ) : WithTop ℝ) ((50 : ℝ) : WithTop ℝ)
  · rw [← WithTop.coe_zero, WithTop.coe_lt_coe]; norm_num
  · rw [WithTop.coe_lt_coe]; norm_num
  · rw [WithTop.coe_lt_coe]; norm_num
  · exact WithTop.coe_lt_top _
  · exact obtuse_call_A Real.sqrt s2500
  · exact obtuse_call_B Real.sqrt s1521 _ _
  · rw [obtuse_call_C Real.sqrt Real.sqrt_zero s7921 s1681, WithTop.coe_lt_coe]; norm_num
  · exact obtuse_call_D_real
  · exact obtuse_call_B Real.sqrt s1521 _ _
  · exact obtuse_call_F Real.sqrt s441 _

end obtuse_real

section claim_sorted_monotone

variable {K D : Type} [LinearOrder D] [OrderTop D] [Zero D]

theorem pairwise_take_getD (l : List index_t) (k : Nat) (R : index_t → index_t → Prop)
    (hk : k ≤ l.length) (h : (l.take k).Pairwise R) (i j : Nat) (hij : i < j) (hj : j < k) :
    R (l.getD i NIL) (l.getD j NIL) := by
  rw [List.pairwise_iff_getElem] at h
  have hi : i < (l.take k).length := by rw [List.length_take, min_eq_left hk]; omega
  have hj2 : j < (l.take k).length := by rw [List.length_take, min_eq_left hk]; omega
  have := h i j hi hj2 hij
  rw [List.getElem_take, List.getElem_take] at this
  rw [List.getD_eq_getElem _ _ (by omega), List.getD_eq_getElem _ _ (by omega)]
  exact this

/-- C2, as the code has it. For every mesh and in-range, non-empty source list, the
distances of the vertices in the sorted order of Fast Marching are monotone
non-decreasing, `distances[sorted_index[i]] <= distances[sorted_index[j]]` for
`i < j < n_sorted`, provided every iteration of the run is causal: the relaxation after
finalizing `black_i` leaves no vertex with a distance below both its previous distance
and the distance of `black_i`. -/
theorem fast_marching_sorted_monotone (mesh : che K) (upd : che K → List D → index_t → D)
    (engine : option_t → geodesics D → geodesics D) (sources : List index_t)
    (cluster : Bool) (n_iter : Nat) (radio : D)
    (hn : 0 < mesh.n_vertices) (hs : sources ≠ [])
    (hlt : ∀ s ∈ sources, s < mesh.n_vertices)
    (hcausal : ∀ st ∈ fm_trace mesh upd radio
        (fm_green_count (geodesics.alloc mesh.n_vertices cluster : geodesics D) n_iter)
        (fm_start (geodesics.alloc mesh.n_vertices cluster : geodesics D) sources),
      fm_causal mesh upd radio st) :
    ∃ g, geodesics.create mesh upd engine sources option_t.FM cluster n_iter radio = some g ∧
      ∀ i j, i < j → j < g.n_sorted →
        g.distances.getD (g.sorted_index.getD i NIL) ⊤ ≤
          g.distances.getD (g.sorted_index.getD j NIL) ⊤ := by
  refine ⟨_, create_FM mesh upd engine sources cluster n_iter radio hn hs, ?_⟩
  intro i j hij hj
  simp only [geodesics.run_fastmarching] at hj ⊢
  have hwf0 := fm_start_wf (D := D) mesh.n_vertices cluster sources hlt
  have hwf := fm_loop_wf mesh upd radio mesh.n_vertices
    (fm_green_count (geodesics.alloc mesh.n_vertices cluster : geodesics D) n_iter) _ hwf0
  have hord := fm_loop_order mesh upd radio
    (fm_green_count (geodesics.alloc mesh.n_vertices cluster : geodesics D) n_iter) _ hwf0
    (fm_start_queue mesh.n_vertices cluster sources hlt)
    (by
      have h4 := (fm_start_spec (D := D) mesh.n_vertices cluster sources).2.2.2.1
      refine ⟨?_, ?_⟩
      · rw [h4]; simp
      · rw [h4]; simp)
    hcausal
  exact pairwise_take_getD _ _ _ (by rw [hwf.sorted_len]; exact hwf.n_sorted_le) hord.mono
    i j hij hj

theorem fast_marching_sorted_monotone_witness :
    0 < (split_mesh ℚ).n_vertices ∧ ([0] : List index_t) ≠ [] ∧
    (∀ s ∈ ([0] : List index_t), s < (split_mesh ℚ).n_vertices) ∧
    (∀ st ∈ fm_trace (split_mesh ℚ) (update_step qsqrt) ⊤
        (fm_green_count (geodesics.alloc (split_mesh ℚ).n_vertices false :
          geodesics (WithTop ℚ)) 0)
        (fm_start (geodesics.alloc (split_mesh ℚ).n_vertices false :
          geodesics (WithTop ℚ)) [0]),
      fm_causal (split_mesh ℚ) (update_step qsqrt) ⊤ st) ∧
    ∃ g, geodesics.create (split_mesh ℚ) (update_step qsqrt) (fun _ g => g) [0]
        option_t.FM false 0 ⊤ = some g ∧
      ∀ i j, i < j → j < g.n_sorted →
        g.distances.getD (g.sorted_index.getD i NIL) ⊤ ≤
          g.distances.getD (g.sorted_index.getD j NIL) ⊤ :=
  ⟨by decide, by decide, by decide, by decide!,
    fast_marching_sorted_monotone (split_mesh ℚ) (update_step qsqrt) (fun _ g => g) [0]
      false 0 ⊤ (by decide) (by decide) (by decide) (by decide!)⟩

/-- C2 fails as stated. Over the real numbers, with the update rule of the spec, on the
mesh of the two triangles `(0, 2, 3)` and `(0, 3, 1)` over the points `0 = (0, 0)`,
`1 = (0, 132)`, `2 = (30, 40)`, `3 = (39, 80)` with the sources `0` and `1`, Fast
Marching produces the sorted order `0, 1, 3, 2` with the distances `0, 0, 39, 30`:
vertex `3` comes before its neighbour `2`, whose final distance `30` is smaller. -/
theorem fast_marching_sorted_counterexample :
    geodesics.create (obtuse_mesh ℝ) (update_step Real.sqrt) (fun _ g => g) [0, 1]
        option_t.FM false 0 ⊤ = some (obtuse_result ℝ) ∧
    (obtuse_result ℝ).sorted_index = [0, 1, 3, 2] ∧ (obtuse_result ℝ).n_sorted = 4 ∧
    (obtuse_result ℝ).distances.getD ((obtuse_result ℝ).sorted_index.getD 2 NIL) ⊤ =
      ((39 : ℝ) : WithTop ℝ) ∧
    (obtuse_result ℝ).distances.getD ((obtuse_result ℝ).sorted_index.getD 3 NIL) ⊤ =
      ((30 : ℝ) : WithTop ℝ) ∧
    ¬ ((obtuse_result ℝ).distances.getD ((obtuse_result ℝ).sorted_index.getD 2 NIL) ⊤ ≤
        (obtuse_result ℝ).distances.getD ((obtuse_result ℝ).sorted_index.getD 3 NIL) ⊤) := by
  refine ⟨obtuse_create_real _, rfl, rfl, rfl, rfl, ?_⟩
  simp only [obtuse_result, List.getD_cons_zero, List.getD_cons_succ]
  rw [WithTop.coe_le_coe]
  norm_num

end claim_sorted_monotone

section normalize_theorems

variable {K : Type} [LinearOrderedField K]

theorem fdiv_top (m : WithTop K) : fdiv ⊤ m = ⊤ := rfl

theorem fdiv_coe (x m : K) : fdiv (x : WithTop K) (m : WithTop K) = ((x / m : K) : WithTop K) :=
  rfl

/-- Dividing a quotient `x / m` by `m / m` gives `x / m` again. -/
theorem fdiv_idem (x m : WithTop K) : fdiv (fdiv x m) (fdiv m m) = fdiv x m := by
  rcases x with _ | x
  · rfl
  · rcases m with _ | m
    · rfl
    · show fdiv (fdiv (x : WithTop K) (m : WithTop K)) (fdiv (m : WithTop K) (m : WithTop K)) =
        fdiv (x : WithTop K) (m : WithTop K)
      simp only [fdiv_coe]
      by_cases hm : m = 0
      · subst hm; simp
      · rw [div_self hm, div_one]

theorem normalize_loop_length (max : WithTop K) (sorted_index : List index_t)
    (is : List Nat) (distances : List (WithTop K)) :
    (normalize_loop max sorted_index is distances).length = distances.length := by
  induction is generalizing distances with
  | nil => rfl
  | cons i rest ih => simp only [normalize_loop]; rw [ih]; simp

/-- The loop of `normalize` over positions with pairwise distinct entries of
`sorted_index` divides the distance of each of these entries by `max`, once, and keeps
every other distance. -/
theorem normalize_loop_getD (max : WithTop K) (sorted_index : List index_t)
    (is : List Nat) (distances : List (WithTop K))
    (hnd : (is.map (fun i => sorted_index.getD i NIL)).Nodup) (u : index_t) :
    (normalize_loop max sorted_index is distances).getD u ⊤ =
      if u ∈ is.map (fun i => sorted_index.getD i NIL) then fdiv (distances.getD u ⊤) max
      else distances.getD u ⊤ := by
  induction is generalizing distances with
  | nil => simp [normalize_loop]
  | cons i rest ih =>
    simp only [normalize_loop, List.map_cons, List.mem_cons]
    rw [List.map_cons, List.nodup_cons] at hnd
    rw [ih _ hnd.2]
    by_cases hu : u = sorted_index.getD i NIL
    · subst hu
      rw [if_neg hnd.1, if_pos (Or.inl rfl)]
      by_cases hlen : sorted_index.getD i NIL < distances.length
      · rw [getD_set_eq _ _ _ _ hlen]
      · rw [getD_set_oob _ _ _ _ _ (not_lt.mp hlen), getD_oob _ _ _ (not_lt.mp hlen)]
        rfl
    · rw [getD_set_ne _ _ _ _ _ (Ne.symm hu)]
      by_cases hmem : u ∈ rest.map (fun i => sorted_index.getD i NIL)
      · rw [if_pos hmem, if_pos (Or.inr hmem)]
      · rw [if_neg hmem, if_neg (by rintro (h | h); exact hu h; exact hmem h)]

theorem map_getD_range (l : List index_t) (k : Nat) (hk : k ≤ l.length) :
    (List.range k).map (fun i => l.getD i NIL) = l.take k := by
  apply List.ext_getElem
  · simp [hk]
  · intro i h1 h2
    simp only [List.length_map, List.length_range] at h1
    have hil : i < l.length := lt_of_lt_of_le h1 hk
    simp [List.getD_eq_getElem?_getD, List.getElem?_eq_getElem hil]

theorem list_ext_getD (l1 l2 : List (WithTop K)) (hlen : l1.length = l2.length)
    (h : ∀ u, l1.getD u ⊤ = l2.getD u ⊤) : l1 = l2 := by
  apply List.ext_getElem hlen
  intro i h1 h2
  have := h i
  rw [List.getD_eq_getElem _ _ h1, List.getD_eq_getElem _ _ h2] at this
  exact this

/-- The distances after `normalize` on an object whose sorted order lists pairwise
distinct vertices. -/
theorem normalize_getD (np : List (WithTop K) → Nat → List (WithTop K))
    (g : geodesics (WithTop K)) (hpos : 0 < g.n_sorted)
    (hle : g.n_sorted ≤ g.sorted_index.length)
    (hnd : (g.sorted_index.take g.n_sorted).Nodup) (u : index_t) :
    (g.normalize np).distances.getD u ⊤ =
      if u ∈ g.sorted_index.take g.n_sorted then
        fdiv (g.distances.getD u ⊤)
          (g.distances.getD (g.sorted_index.getD (g.n_sorted - 1) NIL) ⊤)
      else g.distances.getD u ⊤ := by
  unfold geodesics.normalize
  rw [if_neg (by omega)]
  simp only
  rw [normalize_loop_getD _ _ _ _ (by rw [map_getD_range _ _ hle]; exact hnd),
    map_getD_range _ _ hle]

theorem normalize_fields (np : List (WithTop K) → Nat → List (WithTop K))
    (g : geodesics (WithTop K)) (hpos : 0 < g.n_sorted) :
    (g.normalize np).sorted_index = g.sorted_index ∧
    (g.normalize np).n_sorted = g.n_sorted ∧
    (g.normalize np).clusters = g.clusters ∧
    (g.normalize np).n_vertices = g.n_vertices ∧
    (g.normalize np).distances.length = g.distances.length := by
  unfold geodesics.normalize
  rw [if_neg (by omega)]
  exact ⟨rfl, rfl, rfl, rfl, normalize_loop_length _ _ _ _⟩

/-- Idempotence of `normalize` on an object whose sorted order lists pairwise distinct
vertices. -/
theorem geodesics_normalize_idem (np : List (WithTop K) → Nat → List (WithTop K))
    (g : geodesics (WithTop K)) (hpos : 0 < g.n_sorted)
    (hle : g.n_sorted ≤ g.sorted_index.length)
    (hnd : (g.sorted_index.take g.n_sorted).Nodup) :
    (g.normalize np).normalize np = g.normalize np := by
  obtain ⟨f1, f2, f3, f4, f5⟩ := normalize_fields np g hpos
  obtain ⟨e1, e2, e3, e4, e5⟩ := normalize_fields np (g.normalize np) (by rw [f2]; exact hpos)
  have hd : ((g.normalize np).normalize np).distances = (g.normalize np).distances := by
    apply list_ext_getD _ _ e5
    intro u
    rw [normalize_getD np (g.normalize np) (by rw [f2]; exact hpos)
      (by rw [f1, f2]; exact hle) (by rw [f1, f2]; exact hnd) u]
    rw [f1, f2]
    have hfar : g.sorted_index.getD (g.n_sorted - 1) NIL ∈ g.sorted_index.take g.n_sorted :=
      getD_mem_take _ _ _ (by omega) hle
    rw [normalize_getD np g hpos hle hnd u,
      normalize_getD np g hpos hle hnd (g.sorted_index.getD (g.n_sorted - 1) NIL),
      if_pos hfar]
    split
    · exact fdiv_idem _ _
    · rfl
  cases hg2 : (g.normalize np).normalize np
  cases hg1 : g.normalize np
  rw [hg2] at e1 e2 e3 e4 hd
  rw [hg1] at e1 e2 e3 e4 hd
  simp only at e1 e2 e3 e4 hd
  rw [e1, e2, e3, e4, hd]

end normalize_theorems

section claim_normalize_idempotent

variable {K : Type} [LinearOrderedField K]

/-- C8. `normalize()` is idempotent on every result of Fast Marching with
`n_sorted > 0`: applying it twice yields the same object (distance field, sorted order,
`n_sorted`, clusters) as applying it once. -/
theorem geodesics_normalize_idempotent (mesh : che K)
    (upd : che K → List (WithTop K) → index_t → WithTop K)
    (engine : option_t → geodesics (WithTop K) → geodesics (WithTop K))
    (np : List (WithTop K) → Nat → List (WithTop K))
    (sources : List index_t) (cluster : Bool) (n_iter : Nat) (radio : WithTop K)
    (hn : 0 < mesh.n_vertices) (hs : sources ≠ [])
    (hlt : ∀ s ∈ sources, s < mesh.n_vertices) :
    ∃ g, geodesics.create mesh upd engine sources option_t.FM cluster n_iter radio = some g ∧
      (0 < g.n_sorted → (g.normalize np).normalize np = g.normalize np) := by
  refine ⟨_, create_FM mesh upd engine sources cluster n_iter radio hn hs, ?_⟩
  intro hpos
  have hwf := fm_loop_wf mesh upd radio mesh.n_vertices
    (fm_green_count (geodesics.alloc mesh.n_vertices cluster : geodesics (WithTop K)) n_iter) _
    (fm_start_wf (D := WithTop K) mesh.n_vertices cluster sources hlt)
  exact geodesics_normalize_idem np _ hpos (by
    simp only [geodesics.run_fastmarching]
    rw [hwf.sorted_len]; exact hwf.n_sorted_le) hwf.nodup

end claim_normalize_idempotent

section claim_normalize_range

variable {K : Type} [LinearOrderedField K]

end claim_normalize_range

section normalize_examples

end normalize_examples

section claim_step_monotone

variable {K D : Type} [LinearOrder D] [OrderTop D]

/-- C3. In every step of the Fast-Marching loop, and hence over any number
`green_count` of steps from any state `st`, the distance of every vertex `u` after the
steps is at most its distance before, and a vertex that is `BLACK` (finalized) stays
`BLACK` and keeps exactly its distance. -/
theorem fast_marching_step_monotone (mesh : che K) (upd : che K → List D → index_t → D)
    (radio : D) (green_count : Nat) (st : fm_state D) (u : index_t) :
    (fm_loop mesh upd radio green_count st).distances.getD u ⊤ ≤ st.distances.getD u ⊤ ∧
    (st.color.getD u NIL = BLACK →
      (fm_loop mesh upd radio green_count st).distances.getD u ⊤ = st.distances.getD u ⊤ ∧
      (fm_loop mesh upd radio green_count st).color.getD u NIL = BLACK) :=
  fm_loop_le_black mesh upd radio green_count st u

theorem fast_marching_step_monotone_witness :
    obtuse_state_1.color.getD 0 NIL = BLACK ∧
    (fm_loop (obtuse_mesh ℚ) (update_step qsqrt) ⊤ 1 obtuse_state_1).distances.getD 0 ⊤ =
      obtuse_state_1.distances.getD 0 ⊤ ∧
    (fm_loop (obtuse_mesh ℚ) (update_step qsqrt) ⊤ 1 obtuse_state_1).color.getD 0 NIL =
      BLACK :=
  ⟨by decide!,
    (fast_marching_step_monotone (obtuse_mesh ℚ) (update_step qsqrt) ⊤ 1 obtuse_state_1 0).2
      (by decide!)⟩

end claim_step_monotone

section more_witnesses

theorem fast_marching_sources_zero_witness :
    0 < (obtuse_mesh ℚ).n_vertices ∧ ([0, 1] : List index_t) ≠ [] ∧
    (∀ s ∈ ([0, 1] : List index_t), s < (obtuse_mesh ℚ).n_vertices) ∧
    ∃ g, geodesics.create (obtuse_mesh ℚ) (update_step qsqrt) (fun _ g => g) [0, 1]
        option_t.FM false 0 ⊤ = some g ∧
      ∀ s ∈ ([0, 1] : List index_t), g.distances.getD s ⊤ = 0 :=
  ⟨by decide, by decide, by decide,
    fast_marching_sources_zero (obtuse_mesh ℚ) (update_step qsqrt) (fun _ g => g) [0, 1]
      false 0 ⊤ (by decide) (by decide) (by decide)
      (fun l he h => update_step_nonneg qsqrt qsqrt_nonneg (obtuse_mesh ℚ) l he h)⟩


theorem planar_update_branches_witness :
    inv_sympd (gram (apex_X ℚ)) = some (apex_Q ℚ) ∧
    planar_update qsqrt [0, 0] NIL (apex_X ℚ) (0, 1, 2) =
      (((((apex_Q ℚ).ones_mul 0 0 +
          qsqrt ((apex_Q ℚ).ones_mul 0 0 * (apex_Q ℚ).ones_mul 0 0 -
            (apex_Q ℚ).sum * ((apex_Q ℚ).quad 0 0 - 1))) / (apex_Q ℚ).sum : ℚ) :
        WithTop ℚ), NIL) :=
  ⟨by decide!,
    (planar_update_branches qsqrt [0, 0] NIL (apex_X ℚ) (0, 1, 2) (apex_Q ℚ)
      (by decide!)).1 0 0 (by decide!) (by decide!) (by decide!) (by decide!) (by decide!)⟩

theorem geodesics_normalize_idempotent_witness :
    0 < (split_mesh ℚ).n_vertices ∧ ([0] : List index_t) ≠ [] ∧
    (∀ s ∈ ([0] : List index_t), s < (split_mesh ℚ).n_vertices) ∧
    ∃ g, geodesics.create (split_mesh ℚ) (update_step qsqrt) (fun _ g => g) [0]
        option_t.FM false 0 ⊤ = some g ∧ 0 < g.n_sorted ∧
      (g.normalize (fun d _ => d)).normalize (fun d _ => d) = g.normalize (fun d _ => d) := by
  obtain ⟨g, hg, h⟩ := geodesics_normalize_idempotent (split_mesh ℚ) (update_step qsqrt)
    (fun _ g => g) (fun d _ => d) [0] false 0 ⊤ (by decide) (by decide) (by decide)
  have e : (geodesics.create (split_mesh ℚ) (update_step qsqrt) (fun _ g => g) [0]
      option_t.FM false 0 ⊤).map (fun g => decide (0 < g.n_sorted)) = some true := by decide!
  rw [hg] at e
  have hpos : 0 < g.n_sorted := by simpa using e
  exact ⟨by decide, by decide, by decide, g, hg, hpos, h hpos⟩

end more_witnesses

section claim_radius

variable {K D : Type} [LinearOrder D] [OrderTop D] [Zero D]

theorem fm_iter_radio (mesh : che K) (upd : che K → List D → index_t → D) (radio : D)
    (n : Nat) (st : fm_state D) (hwf : fm_wf n st)
    (h : ∀ x ∈ st.sorted_index.take st.n_sorted, st.distances.getD x ⊤ ≤ radio) :
    ∀ x ∈ (fm_iter mesh upd radio st).2.sorted_index.take
        (fm_iter mesh upd radio st).2.n_sorted,
      (fm_iter mesh upd radio st).2.distances.getD x ⊤ ≤ radio := by
  rcases hit : fm_iter mesh upd radio st with ⟨b, st1⟩
  cases b
  · rcases fm_iter_false mesh upd radio st st1 hit with
      ⟨_, rfl⟩ | ⟨_, rfl⟩ | ⟨top, q, _, _, rfl⟩
    · exact h
    · exact h
    · exact h
  · obtain ⟨top, q, hpop, hrad, rfl⟩ := fm_iter_true mesh upd radio st st1 hit
    have hpc := cola_pop_black_cons st.color st.cola q top hpop
    have hlt : st.n_sorted < n := hwf.n_sorted_lt top.2 (hwf.cola_lt top hpc.2.1) hpc.1
    have hfr := fm_link_loop_frame mesh upd (mesh.link top.2)
      { st with color := st.color.set top.2 BLACK, cola := q,
                sorted_index := st.sorted_index.set st.n_sorted top.2,
                n_sorted := st.n_sorted + 1 }
    intro x hx
    simp only [hfr.sorted_eq, hfr.n_sorted_eq] at hx
    rw [take_succ_set st.sorted_index st.n_sorted top.2 (by rw [hwf.sorted_len]; exact hlt)]
      at hx
    refine le_trans (hfr.dist_le x) ?_
    rcases List.mem_append.mp hx with hx | hx
    · exact h x hx
    · rw [List.mem_singleton.mp hx]
      exact not_lt.mp hrad

theorem fm_loop_radio (mesh : che K) (upd : che K → List D → index_t → D) (radio : D)
    (n gc : Nat) (st : fm_state D) (hwf : fm_wf n st)
    (h : ∀ x ∈ st.sorted_index.take st.n_sorted, st.distances.getD x ⊤ ≤ radio) :
    ∀ x ∈ (fm_loop mesh upd radio gc st).sorted_index.take
        (fm_loop mesh upd radio gc st).n_sorted,
      (fm_loop mesh upd radio gc st).distances.getD x ⊤ ≤ radio := by
  induction gc generalizing st with
  | zero => exact h
  | succ gc ih =>
    rw [fm_loop_succ]
    have h1 := fm_iter_radio mesh upd radio n st hwf h
    have hwf1 := fm_iter_wf mesh upd radio n st hwf
    split
    · exact ih _ hwf1 h1
    · exact h1

/-- The iteration that pops a vertex whose distance exceeds `radio` stops the loop and
appends nothing. -/
theorem fm_iter_radio_break (mesh : che K) (upd : che K → List D → index_t → D) (radio : D)
    (st : fm_state D) (top : D × index_t) (q : List (D × index_t))
    (hpop : cola_pop_black st.color st.cola = top :: q)
    (hrad : radio < st.distances.getD top.2 ⊤) :
    (fm_iter mesh upd radio st).1 = false ∧
    (fm_iter mesh upd radio st).2.n_sorted = st.n_sorted ∧
    (fm_iter mesh upd radio st).2.sorted_index = st.sorted_index ∧
    (fm_iter mesh upd radio st).2.distances = st.distances := by
  have hne : st.cola ≠ [] := by
    intro h
    rw [h] at hpop
    simp [cola_pop_black] at hpop
  have hemp : st.cola.isEmpty = false := by
    cases hc : st.cola with
    | nil => exact absurd hc hne
    | cons a l => rfl
  unfold fm_iter
  simp only [hemp, hpop, hrad]
  simp

theorem fm_loop_radio_break (mesh : che K) (upd : che K → List D → index_t → D) (radio : D)
    (gc : Nat) (st : fm_state D) (top : D × index_t) (q : List (D × index_t))
    (hpop : cola_pop_black st.color st.cola = top :: q)
    (hrad : radio < st.distances.getD top.2 ⊤) :
    fm_loop mesh upd radio (gc + 1) st =
      { st with color := st.color.set top.2 BLACK, cola := q } := by
  have hne : st.cola ≠ [] := by
    intro h
    rw [h] at hpop
    simp [cola_pop_black] at hpop
  have hemp : st.cola.isEmpty = false := by
    cases hc : st.cola with
    | nil => exact absurd hc hne
    | cons a l => rfl
  have hit : fm_iter mesh upd radio st =
      (false, { st with color := st.color.set top.2 BLACK, cola := q }) := by
    unfold fm_iter
    simp only [hemp, hpop, hrad]
    simp
  rw [fm_loop_succ, hit]
  simp

/-- C11. For every mesh, in-range non-empty source list, budget `n_iter` and `radio`,
every vertex in `sorted_index[0..n_sorted)` has after Fast Marching a distance
`<= radio`; and in whatever state the main loop pops a vertex `black_i` (the first entry
of the queue that is not `BLACK`) with `distances[black_i] > radio`, the loop ends there,
whatever budget is left: the vertex is coloured `BLACK` and removed from the queue, and
`sorted_index`, `n_sorted` and the distances stay as they are. -/
theorem fast_marching_radius (mesh : che K) (upd : che K → List D → index_t → D)
    (engine : option_t → geodesics D → geodesics D) (sources : List index_t)
    (cluster : Bool) (n_iter : Nat) (radio : D)
    (hn : 0 < mesh.n_vertices) (hs : sources ≠ [])
    (hlt : ∀ s ∈ sources, s < mesh.n_vertices) :
    (∃ g, geodesics.create mesh upd engine sources option_t.FM cluster n_iter radio = some g ∧
      ∀ i, i < g.n_sorted → g.distances.getD (g.sorted_index.getD i NIL) ⊤ ≤ radio) ∧
    ∀ (green_count : Nat) (st : fm_state D) (top : D × index_t) (q : List (D × index_t)),
      cola_pop_black st.color st.cola = top :: q → radio < st.distances.getD top.2 ⊤ →
      fm_loop mesh upd radio (green_count + 1) st =
        { st with color := st.color.set top.2 BLACK, cola := q } := by
  refine ⟨⟨_, create_FM mesh upd engine sources cluster n_iter radio hn hs, ?_⟩, ?_⟩
  · intro i hi
    simp only [geodesics.run_fastmarching] at hi ⊢
    have hwf0 := fm_start_wf (D := D) mesh.n_vertices cluster sources hlt
    have hwf := fm_loop_wf mesh upd radio mesh.n_vertices
      (fm_green_count (geodesics.alloc mesh.n_vertices cluster : geodesics D) n_iter) _ hwf0
    refine fm_loop_radio mesh upd radio mesh.n_vertices _ _ hwf0 ?_ _
      (getD_mem_take _ _ i hi (by rw [hwf.sorted_len]; exact hwf.n_sorted_le))
    intro x hx
    rw [(fm_start_spec (D := D) mesh.n_vertices cluster sources).2.2.2.1] at hx
    simp at hx
  · intro gc st top q hpop hrad
    exact fm_loop_radio_break mesh upd radio gc st top q hpop hrad

theorem fast_marching_radius_witness :
    0 < (split_mesh ℚ).n_vertices ∧ ([0] : List index_t) ≠ [] ∧
    (∀ s ∈ ([0] : List index_t), s < (split_mesh ℚ).n_vertices) ∧
    (∃ g, geodesics.create (split_mesh ℚ) (update_step qsqrt) (fun _ g => g) [0]
        option_t.FM false 0 ((3 : ℚ) : WithTop ℚ) = some g ∧
      ∀ i, i < g.n_sorted →
        g.distances.getD (g.sorted_index.getD i NIL) ⊤ ≤ ((3 : ℚ) : WithTop ℚ)) ∧
    fm_loop (split_mesh ℚ) (update_step qsqrt) ((3 : ℚ) : WithTop ℚ) (3 + 1) radius_state =
      { radius_state with color := radius_state.color.set 2 BLACK,
                          cola := [(((4 : ℚ) : WithTop ℚ), 2)] } :=
  ⟨by decide, by decide, by decide,
    (fast_marching_radius (split_mesh ℚ) (update_step qsqrt) (fun _ g => g) [0] false 0
      ((3 : ℚ) : WithTop ℚ) (by decide) (by decide) (by decide)).1,
    (fast_marching_radius (split_mesh ℚ) (update_step qsqrt) (fun _ g => g) [0] false 0
      ((3 : ℚ) : WithTop ℚ) (by decide) (by decide) (by decide)).2 3 radius_state
      (((4 : ℚ) : WithTop ℚ), 2) [(((4 : ℚ) : WithTop ℚ), 2)] (by decide!) (by decide!)⟩

end claim_radius

section claim_precondition

variable {K D : Type} [LinearOrder D] [OrderTop D] [Zero D]

/-- C12. Constructing a `geodesics` object fails at an `assert`, before `execute` is
called, if and only if the mesh has no vertex or the source list is empty; in every
other case the result is what `execute` computes with the selected engine on the
freshly allocated members. -/
theorem geodesics_create_precondition (mesh : che K)
    (upd : che K → List D → index_t → D)
    (engine : option_t → geodesics D → geodesics D) (sources : List index_t)
    (opt : option_t) (cluster : Bool) (n_iter : Nat) (radio : D) :
    (geodesics.create mesh upd engine sources opt cluster n_iter radio = none ↔
      mesh.n_vertices = 0 ∨ sources = []) ∧
    (¬ (mesh.n_vertices = 0 ∨ sources = []) →
      geodesics.create mesh upd engine sources opt cluster n_iter radio =
        some ((geodesics.alloc mesh.n_vertices cluster : geodesics D).execute mesh upd
          engine sources n_iter radio opt)) := by
  unfold geodesics.create
  by_cases hn : mesh.n_vertices = 0
  · simp [hn]
  · by_cases hs : sources = []
    · simp [hn, hs]
    · have hl : sources.length ≠ 0 := by
        intro h
        exact hs (List.length_eq_zero.mp h)
      simp [hn, hs, hl]

theorem geodesics_create_precondition_witness :
    ¬ ((obtuse_mesh ℚ).n_vertices = 0 ∨ ([0, 1] : List index_t) = []) ∧
    geodesics.create (obtuse_mesh ℚ) (update_step qsqrt) (fun _ g => g) [0, 1]
        option_t.PTP_CPU true 0 ⊤ =
      some ((geodesics.alloc (obtuse_mesh ℚ).n_vertices true :
        geodesics (WithTop ℚ)).execute (obtuse_mesh ℚ) (update_step qsqrt) (fun _ g => g)
          [0, 1] 0 ⊤ option_t.PTP_CPU) :=
  ⟨by decide,
    (geodesics_create_precondition (obtuse_mesh ℚ) (update_step qsqrt) (fun _ g => g) [0, 1]
      option_t.PTP_CPU true 0 ⊤).2 (by decide)⟩

end claim_precondition

section right_run

variable {K D : Type} [LinearOrderedField K] [LinearOrder D] [OrderTop D] [Zero D]

theorem right_vt (he : index_t) : (right_mesh K).vt he = [0, 1, 2].getD he 0 := rfl

theorem right_link (v : index_t) :
    (right_mesh K).link v = [[1, 2], [2, 0], [0, 1]].getD v [] := rfl

theorem right_star (v : index_t) : (right_mesh K).star v = [[0], [1], [2]].getD v [] := rfl

theorem right_n_vertices : (right_mesh K).n_vertices = 3 := rfl

theorem right_start :
    fm_start (geodesics.alloc 3 false : geodesics D) [0] =
      { clusters := none, distances := [0, ⊤, ⊤], sorted_index := [NIL, NIL, NIL],
        n_sorted := 0, color := [RED, GREEN, GREEN], cola := [(0, 0)] } := by
  simp [fm_start, geodesics.alloc, fm_init_sources, cola_push, List.replicate]

/-- First pass on `right_mesh`: `A` is finalized, `B` and `C` get the distances `d3`
and `d4`. -/
theorem right_iter_1 (upd : che K → List D → index_t → D) (d3 d4 : D)
    (h1 : d3 < d4) (h2 : d4 < ⊤)
    (eA : upd (right_mesh K) [0, ⊤, ⊤] 1 = d3)
    (eB : upd (right_mesh K) [0, d3, ⊤] 2 = d4) :
    fm_iter (right_mesh K) upd ⊤
      { clusters := none, distances := [0, ⊤, ⊤], sorted_index := [NIL, NIL, NIL],
        n_sorted := 0, color := [RED, GREEN, GREEN], cola := [(0, 0)] } =
      (true,
        { clusters := none, distances := [0, d3, d4],
          sorted_index := [0, NIL, NIL], n_sorted := 1,
          color := [BLACK, RED, RED], cola := [(d3, 1), (d4, 2)] }) := by
  have g1 : d3 < (⊤ : D) := lt_trans h1 h2
  have n1 : ¬ d4 < d3 := not_lt.mpr (le_of_lt h1)
  simp [fm_iter, cola_pop_black, fm_link_loop, fm_link_step, fm_promote, fm_star_loop,
    right_vt, right_star, right_link, cola_push, pair_lt,
    GREEN, RED, BLACK, NIL, eA, eB, h1, h2, g1, n1]

/-- Second pass: `B` is finalized; the distance of `C` stays. -/
theorem right_iter_2 (upd : che K → List D → index_t → D) (d3 d4 : D)
    (h1 : d3 < d4) (h2 : d4 < ⊤)
    (eC : ¬ upd (right_mesh K) [0, d3, d4] 2 < d4) :
    fm_iter (right_mesh K) upd ⊤
      { clusters := none, distances := [0, d3, d4],
        sorted_index := [0, NIL, NIL], n_sorted := 1,
        color := [BLACK, RED, RED], cola := [(d3, 1), (d4, 2)] } =
      (true,
        { clusters := none, distances := [0, d3, d4],
          sorted_index := [0, 1, NIL], n_sorted := 2,
          color := [BLACK, BLACK, RED], cola := [(d4, 2), (d4, 2)] }) := by
  have g1 : d3 < (⊤ : D) := lt_trans h1 h2
  simp [fm_iter, cola_pop_black, fm_link_loop, fm_link_step, fm_promote, fm_star_loop,
    right_vt, right_star, right_link, cola_push, pair_lt,
    GREEN, RED, BLACK, NIL, eC, h1, h2, g1]

/-- Third pass: `C` is finalized. -/
theorem right_iter_3 (upd : che K → List D → index_t → D) (d3 d4 : D) :
    fm_iter (right_mesh K) upd ⊤
      { clusters := none, distances := [0, d3, d4],
        sorted_index := [0, 1, NIL], n_sorted := 2,
        color := [BLACK, BLACK, RED], cola := [(d4, 2), (d4, 2)] } =
      (true,
        { clusters := none, distances := [0, d3, d4],
          sorted_index := [0, 1, 2], n_sorted := 3,
          color := [BLACK, BLACK, BLACK], cola := [(d4, 2)] }) := by
  simp [fm_iter, cola_pop_black, fm_link_loop, fm_link_step, fm_promote, fm_star_loop,
    right_vt, right_star, right_link, cola_push, pair_lt,
    GREEN, RED, BLACK, NIL]

/-- The Fast-Marching computation on `right_mesh` from the source `A`, for an update
rule with the three values listed. -/
theorem right_create (upd : che K → List D → index_t → D)
    (engine : option_t → geodesics D → geodesics D) (d3 d4 : D)
    (h1 : d3 < d4) (h2 : d4 < ⊤)
    (eA : upd (right_mesh K) [0, ⊤, ⊤] 1 = d3)
    (eB : upd (right_mesh K) [0, d3, ⊤] 2 = d4)
    (eC : ¬ upd (right_mesh K) [0, d3, d4] 2 < d4) :
    geodesics.create (right_mesh K) upd engine [0] option_t.FM false 0 ⊤ =
      some { clusters := none, distances := [0, d3, d4], sorted_index := [0, 1, 2],
             n_vertices := 3, n_sorted := 3 } := by
  rw [create_FM (right_mesh K) upd engine [0] false 0 ⊤
    (by rw [right_n_vertices]; decide) (by decide)]
  simp only [geodesics.run_fastmarching, fm_green_count, right_n_vertices, right_start]
  simp only [geodesics.alloc, ne_eq, not_true_eq_false, if_false, fm_loop,
    right_iter_1 upd d3 d4 h1 h2 eA eB, right_iter_2 upd d3 d4 h1 h2 eC,
    right_iter_3 upd d3 d4]

end right_run

section right_calls

variable {K : Type} [LinearOrderedField K]

/-- The call `update(d, mesh, he, vx)` for a half-edge with the neighbours `x0`, `x1` and
the edge matrix `X`. -/
theorem update_eq (sqrt : K → K) (mesh : che K) (distances : List (WithTop K))
    (he x0 x1 : index_t) (X : vertex K × vertex K)
    (hx0 : mesh.vt (mesh.next he) = x0) (hx1 : mesh.vt (mesh.prev he) = x1)
    (hX0 : (mesh.gt x0).sub (mesh.gt (mesh.vt he)) = X.1)
    (hX1 : (mesh.gt x1).sub (mesh.gt (mesh.vt he)) = X.2) :
    update sqrt distances mesh he = planar_update sqrt distances NIL X (x0, x1, mesh.vt he) := by
  unfold update
  simp only [hx0, hx1, hX0, hX1, Prod.mk.eta]

/-- The update of `B` while `C` is at `INFINITY`: the edge propagation from `A` gives
the edge length `3`, with `d = 1`. -/
theorem right_call_A (sqrt : K → K) (hs : sqrt 9 = 3) (d1 : WithTop K) :
    update sqrt [0, d1, ⊤] (right_mesh K) 1 = (((3 : K) : WithTop K), 1) := by
  have hQ : inv_sympd (gram ((⟨-3, 4, 0⟩, ⟨-3, 0, 0⟩) : vertex K × vertex K)) =
      some (⟨9 / 144, -9 / 144, -9 / 144, 25 / 144⟩ : mat22 K) := by
    norm_num [inv_sympd, gram, vertex.dot]
  rw [update_eq sqrt (right_mesh K) _ 1 2 0 (⟨-3, 4, 0⟩, ⟨-3, 0, 0⟩) rfl rfl
    (by show vertex.sub ⟨0, 4, 0⟩ ⟨3, 0, 0⟩ = _; rw [vertex.sub_mk]; norm_num)
    (by show vertex.sub ⟨0, 0, 0⟩ ⟨3, 0, 0⟩ = _; rw [vertex.sub_mk]; norm_num)]
  rw [planar_update_fallback sqrt [0, d1, ⊤] NIL _ (2, 0, (right_mesh K).vt 1) _ hQ
    (by intro a b ha; simp at ha)]
  have h2 : ((⟨-3, 0, 0⟩ : vertex K).norm sqrt) = 3 := by
    unfold vertex.norm
    rw [show (⟨-3, 0, 0⟩ : vertex K).dot ⟨-3, 0, 0⟩ = 9 by norm_num [vertex.dot], hs]
  unfold edge_propagation
  simp only [List.getD_cons_zero, List.getD_cons_succ, h2]
  simp

/-- The update of `C` with `A` at `0` and `B` at `3`: the planar unfold is not valid
(`cond(1) = 1/3`), and the edge propagation gives `min(0 + 4, 3 + 5) = 4`, with `d = 0`. -/
theorem right_call_B (sqrt : K → K) (hs0 : sqrt 0 = 0) (hs1 : sqrt 16 = 4)
    (hs2 : sqrt 25 = 5) (d2 : WithTop K) :
    update sqrt [0, ((3 : K) : WithTop K), d2] (right_mesh K) 2 =
      (((4 : K) : WithTop K), 0) := by
  have hQ : inv_sympd (gram ((⟨0, -4, 0⟩, ⟨3, -4, 0⟩) : vertex K × vertex K)) =
      some (⟨25 / 144, -16 / 144, -16 / 144, 16 / 144⟩ : mat22 K) := by
    norm_num [inv_sympd, gram, vertex.dot]
  rw [update_eq sqrt (right_mesh K) _ 2 0 1 (⟨0, -4, 0⟩, ⟨3, -4, 0⟩) rfl rfl
    (by show vertex.sub ⟨0, 0, 0⟩ ⟨0, 4, 0⟩ = _; rw [vertex.sub_mk]; norm_num)
    (by show vertex.sub ⟨3, 0, 0⟩ ⟨0, 4, 0⟩ = _; rw [vertex.sub_mk]; norm_num)]
  have hdis : planar_dis (⟨25 / 144, -16 / 144, -16 / 144, 16 / 144⟩ : mat22 K) 0 3 = 0 := by
    norm_num [planar_dis, mat22.ones_mul, mat22.sum, mat22.quad]
  have hp : planar_p sqrt (⟨25 / 144, -16 / 144, -16 / 144, 16 / 144⟩ : mat22 K) 0 3 = 0 := by
    unfold planar_p
    rw [hdis, hs0]
    norm_num [mat22.ones_mul, mat22.sum]
  rw [planar_update_fallback sqrt [0, ((3 : K) : WithTop K), d2] NIL _
    (0, 1, (right_mesh K).vt 2) _ hQ
    (by
      intro a b ha hb _
      have ea : a = 0 := by
        have : ((0 : K) : WithTop K) = (a : WithTop K) := ha
        exact (WithTop.coe_eq_coe.mp this).symm
      have eb : b = 3 := by
        have : ((3 : K) : WithTop K) = (b : WithTop K) := hb
        exact (WithTop.coe_eq_coe.mp this).symm
      subst ea; subst eb
      right
      rw [hp]; norm_num)]
  have h1 : ((⟨0, -4, 0⟩ : vertex K).norm sqrt) = 4 := by
    unfold vertex.norm
    rw [show (⟨0, -4, 0⟩ : vertex K).dot ⟨0, -4, 0⟩ = 16 by norm_num [vertex.dot], hs1]
  have h2 : ((⟨3, -4, 0⟩ : vertex K).norm sqrt) = 5 := by
    unfold vertex.norm
    rw [show (⟨3, -4, 0⟩ : vertex K).dot ⟨3, -4, 0⟩ = 25 by norm_num [vertex.dot], hs2]
  unfold edge_propagation
  simp only [List.getD_cons_zero, List.getD_cons_succ, h1, h2]
  rw [zero_add, ← WithTop.coe_add, if_neg]
  rw [WithTop.coe_lt_coe]
  norm_num

end right_calls

section claim_right_triangle

/-- C13. On the single-triangle mesh `A = (0, 0)`, `B = (3, 0)`, `C = (0, 4)` (edge
lengths `AB = 3`, `AC = 4`, `BC = 5`, right angle at `A`) with the source `A`, Fast
Marching over the real numbers with the update rule `update` / `planar_update` produces
the sorted order `A, B, C` and the distances `0, 3, 4`. Both values come from the edge
propagation: at the call that sets it, `update` returns `3` for `B` with `d = 1` and `4`
for `C` with `d = 0`, the index of the neighbour `A` in either case. -/
theorem fast_marching_right_triangle
    (engine : option_t → geodesics (WithTop ℝ) → geodesics (WithTop ℝ)) :
    geodesics.create (right_mesh ℝ) (fun mesh distances he =>
        (update Real.sqrt distances mesh he).1) engine [0] option_t.FM false 0 ⊤ =
      some (right_result ℝ) ∧
    (right_result ℝ).sorted_index = [0, 1, 2] ∧ (right_result ℝ).n_sorted = 3 ∧
    (right_result ℝ).distances = [0, ((3 : ℝ) : WithTop ℝ), ((4 : ℝ) : WithTop ℝ)] ∧
    update Real.sqrt [0, ⊤, ⊤] (right_mesh ℝ) 1 = (((3 : ℝ) : WithTop ℝ), 1) ∧
    update Real.sqrt [0, ((3 : ℝ) : WithTop ℝ), ⊤] (right_mesh ℝ) 2 =
      (((4 : ℝ) : WithTop ℝ), 0) := by
  have s9 : Real.sqrt 9 = 3 := real_sqrt_of_sq _ _ (by norm_num) (by norm_num)
  have s16 : Real.sqrt 16 = 4 := real_sqrt_of_sq _ _ (by norm_num) (by norm_num)
  have s25 : Real.sqrt 25 = 5 := real_sqrt_of_sq _ _ (by norm_num) (by norm_num)
  refine ⟨?_, rfl, rfl, rfl, right_call_A Real.sqrt s9 _,
    right_call_B Real.sqrt Real.sqrt_zero s16 s25 _⟩
  apply right_create _ engine ((3 : ℝ) : WithTop ℝ) ((4 : ℝ) : WithTop ℝ)
  · rw [WithTop.coe_lt_coe]; norm_num
  · exact WithTop.coe_lt_top _
  · show (update Real.sqrt [0, ⊤, ⊤] (right_mesh ℝ) 1).1 = _
    rw [right_call_A Real.sqrt s9]
  · show (update Real.sqrt [0, ((3 : ℝ) : WithTop ℝ), ⊤] (right_mesh ℝ) 2).1 = _
    rw [right_call_B Real.sqrt Real.sqrt_zero s16 s25]
  · show ¬ (update Real.sqrt [0, ((3 : ℝ) : WithTop ℝ), ((4 : ℝ) : WithTop ℝ)]
      (right_mesh ℝ) 2).1 < _
    rw [right_call_B Real.sqrt Real.sqrt_zero s16 s25]
    exact lt_irrefl _

end claim_right_triangle

section kite_run

variable {K D : Type} [LinearOrderedField K] [LinearOrder D] [OrderTop D] [Zero D]

theorem kite_vt (he : index_t) : (kite_mesh K).vt he = [0, 1, 2, 0, 2, 3].getD he 0 := rfl

theorem kite_link (v : index_t) :
    (kite_mesh K).link v = [[1, 4, 5], [2, 0], [5, 0, 1], [3, 4]].getD v [] := rfl

theorem kite_star (v : index_t) :
    (kite_mesh K).star v = [[0, 3], [1], [4, 2], [5]].getD v [] := rfl

theorem kite_next (he : index_t) : (kite_mesh K).next he = 3 * (he / 3) + (he + 1) % 3 := rfl

theorem kite_prev (he : index_t) : (kite_mesh K).prev he = 3 * (he / 3) + (he + 2) % 3 := rfl

theorem kite_n_vertices : (kite_mesh K).n_vertices = 4 := rfl

theorem kite_start :
    fm_start (geodesics.alloc 4 true : geodesics D) [1, 3] =
      { clusters := some [0, 1, 0, 2], distances := [⊤, 0, ⊤, 0],
        sorted_index := [NIL, NIL, NIL, NIL], n_sorted := 0,
        color := [GREEN, RED, GREEN, RED], cola := [(0, 1), (0, 3)] } := by
  simp [fm_start, geodesics.alloc, fm_init_sources, cola_push, pair_lt, List.replicate]

/-- First pass on `kite_mesh`: the source `1` is finalized; vertex `2` gets the distance
`d4` over the triangle `(0, 1, 2)` with the cluster of vertex `1`; vertex `0` gets the
distance `d5` over the triangle `(0, 1, 2)` and then `d4` over the triangle `(0, 2, 3)`,
and with either the cluster of vertex `1`, the end of the half-edge after the link
half-edge `he = 0` of the triangle `(0, 1, 2)`. -/
theorem kite_iter_1 (upd : che K → List D → index_t → D) (d4 d5 : D)
    (h0 : 0 < d4) (h1 : d4 < d5) (h2 : d5 < ⊤)
    (eA : upd (kite_mesh K) [⊤, 0, ⊤, 0] 4 = d5)
    (eB : upd (kite_mesh K) [⊤, 0, d5, 0] 2 = d4)
    (eC : upd (kite_mesh K) [⊤, 0, d4, 0] 0 = d5)
    (eD : upd (kite_mesh K) [d5, 0, d4, 0] 3 = d4) :
    fm_iter (kite_mesh K) upd ⊤
      { clusters := some [0, 1, 0, 2], distances := [⊤, 0, ⊤, 0],
        sorted_index := [NIL, NIL, NIL, NIL], n_sorted := 0,
        color := [GREEN, RED, GREEN, RED], cola := [(0, 1), (0, 3)] } =
      (true,
        { clusters := some [1, 1, 1, 2], distances := [d4, 0, d4, 0],
          sorted_index := [1, NIL, NIL, NIL], n_sorted := 1,
          color := [RED, BLACK, RED, RED],
          cola := [(0, 3), (d4, 0), (d4, 2)] }) := by
  have g1 : d4 < (⊤ : D) := lt_trans h1 h2
  have g2 : (0 : D) < d5 := lt_trans h0 h1
  have g3 : (0 : D) < ⊤ := lt_trans h0 g1
  have n1 : ¬ d4 < (0 : D) := not_lt.mpr (le_of_lt h0)
  have n2 : ¬ d5 < d4 := not_lt.mpr (le_of_lt h1)
  simp [fm_iter, cola_pop_black, fm_link_loop, fm_link_step, fm_promote, fm_star_loop,
    kite_vt, kite_star, kite_link, kite_next, kite_prev, cola_push, pair_lt,
    GREEN, RED, BLACK, NIL, eA, eB, eC, eD, h0, h1, h2, g1, g2, g3, n1, n2]

/-- Second pass: the source `3` is finalized; no distance and no cluster changes. -/
theorem kite_iter_2 (upd : che K → List D → index_t → D) (d4 : D)
    (h0 : 0 < d4) (h1 : d4 < ⊤)
    (eE : ¬ upd (kite_mesh K) [d4, 0, d4, 0] 0 < d4)
    (eF : ¬ upd (kite_mesh K) [d4, 0, d4, 0] 3 < d4)
    (eG : ¬ upd (kite_mesh K) [d4, 0, d4, 0] 4 < d4)
    (eH : ¬ upd (kite_mesh K) [d4, 0, d4, 0] 2 < d4) :
    fm_iter (kite_mesh K) upd ⊤
      { clusters := some [1, 1, 1, 2], distances := [d4, 0, d4, 0],
        sorted_index := [1, NIL, NIL, NIL], n_sorted := 1,
        color := [RED, BLACK, RED, RED],
        cola := [(0, 3), (d4, 0), (d4, 2)] } =
      (true,
        { clusters := some [1, 1, 1, 2], distances := [d4, 0, d4, 0],
          sorted_index := [1, 3, NIL, NIL], n_sorted := 2,
          color := [RED, BLACK, RED, BLACK],
          cola := [(d4, 0), (d4, 0), (d4, 2), (d4, 2)] }) := by
  have g3 : (0 : D) < ⊤ := lt_trans h0 h1
  simp [fm_iter, cola_pop_black, fm_link_loop, fm_link_step, fm_promote, fm_star_loop,
    kite_vt, kite_star, kite_link, kite_next, kite_prev, cola_push, pair_lt,
    GREEN, RED, BLACK, NIL, eE, eF, eG, eH, h0, h1, g3]

/-- Third pass: vertex `0` is finalized with the cluster `1`. -/
theorem kite_iter_3 (upd : che K → List D → index_t → D) (d4 : D)
    (h0 : 0 < d4) (h1 : d4 < ⊤)
    (eG : ¬ upd (kite_mesh K) [d4, 0, d4, 0] 4 < d4)
    (eH : ¬ upd (kite_mesh K) [d4, 0, d4, 0] 2 < d4) :
    fm_iter (kite_mesh K) upd ⊤
      { clusters := some [1, 1, 1, 2], distances := [d4, 0, d4, 0],
        sorted_index := [1, 3, NIL, NIL], n_sorted := 2,
        color := [RED, BLACK, RED, BLACK],
        cola := [(d4, 0), (d4, 0), (d4, 2), (d4, 2)] } =
      (true,
        { clusters := some [1, 1, 1, 2], distances := [d4, 0, d4, 0],
          sorted_index := [1, 3, 0, NIL], n_sorted := 3,
          color := [BLACK, BLACK, RED, BLACK],
          cola := [(d4, 0), (d4, 2), (d4, 2), (d4, 2)] }) := by
  have g3 : (0 : D) < ⊤ := lt_trans h0 h1
  simp [fm_iter, cola_pop_black, fm_link_loop, fm_link_step, fm_promote, fm_star_loop,
    kite_vt, kite_star, kite_link, kite_next, kite_prev, cola_push, pair_lt,
    GREEN, RED, BLACK, NIL, eG, eH, h0, h1, g3]

/-- Fourth pass: vertex `2` is finalized. -/
theorem kite_iter_4 (upd : che K → List D → index_t → D) (d4 : D) :
    fm_iter (kite_mesh K) upd ⊤
      { clusters := some [1, 1, 1, 2], distances := [d4, 0, d4, 0],
        sorted_index := [1, 3, 0, NIL], n_sorted := 3,
        color := [BLACK, BLACK, RED, BLACK],
        cola := [(d4, 0), (d4, 2), (d4, 2), (d4, 2)] } =
      (true,
        { clusters := some [1, 1, 1, 2], distances := [d4, 0, d4, 0],
          sorted_index := [1, 3, 0, 2], n_sorted := 4,
          color := [BLACK, BLACK, BLACK, BLACK],
          cola := [(d4, 2), (d4, 2)] }) := by
  simp [fm_iter, cola_pop_black, fm_link_loop, fm_link_step, fm_promote, fm_star_loop,
    kite_vt, kite_star, kite_link, kite_next, kite_prev, cola_push, pair_lt,
    GREEN, RED, BLACK, NIL]

/-- The Fast-Marching computation with clustering on `kite_mesh` from the sources `1`
and `3`, for an update rule with the values listed. -/
theorem kite_create (upd : che K → List D → index_t → D)
    (engine : option_t → geodesics D → geodesics D) (d4 d5 : D)
    (h0 : 0 < d4) (h1 : d4 < d5) (h2 : d5 < ⊤)
    (eA : upd (kite_mesh K) [⊤, 0, ⊤, 0] 4 = d5)
    (eB : upd (kite_mesh K) [⊤, 0, d5, 0] 2 = d4)
    (eC : upd (kite_mesh K) [⊤, 0, d4, 0] 0 = d5)
    (eD : upd (kite_mesh K) [d5, 0, d4, 0] 3 = d4)
    (eE : ¬ upd (kite_mesh K) [d4, 0, d4, 0] 0 < d4)
    (eF : ¬ upd (kite_mesh K) [d4, 0, d4, 0] 3 < d4)
    (eG : ¬ upd (kite_mesh K) [d4, 0, d4, 0] 4 < d4)
    (eH : ¬ upd (kite_mesh K) [d4, 0, d4, 0] 2 < d4) :
    geodesics.create (kite_mesh K) upd engine [1, 3] option_t.FM true 0 ⊤ =
      some { clusters := some [1, 1, 1, 2], distances := [d4, 0, d4, 0],
             sorted_index := [1, 3, 0, 2], n_vertices := 4, n_sorted := 4 } := by
  have g1 : d4 < (⊤ : D) := lt_trans h1 h2
  rw [create_FM (kite_mesh K) upd engine [1, 3] true 0 ⊤
    (by rw [kite_n_vertices]; decide) (by decide)]
  simp only [geodesics.run_fastmarching, fm_green_count, kite_n_vertices, kite_start]
  simp only [geodesics.alloc, ne_eq, not_true_eq_false, if_false, fm_loop,
    kite_iter_1 upd d4 d5 h0 h1 h2 eA eB eC eD,
    kite_iter_2 upd d4 h0 g1 eE eF eG eH,
    kite_iter_3 upd d4 h0 g1 eG eH,
    kite_iter_4 upd d4]

/-- The loop over the star of vertex `0` in the first pass, entered with the link
half-edge `he = 0` of the triangle `(0, 1, 2)`: the second star half-edge `v_he = 3`, of
the triangle `(0, 2, 3)`, lowers the distance to `d4`, and the cluster stored is that of
vertex `1`. -/
theorem kite_star_loop (upd : che K → List D → index_t → D) (d4 d5 : D)
    (h0 : 0 < d4) (h1 : d4 < d5) (h2 : d5 < ⊤)
    (eC : upd (kite_mesh K) [⊤, 0, d4, 0] 0 = d5)
    (eD : upd (kite_mesh K) [d5, 0, d4, 0] 3 = d4) :
    fm_star_loop (kite_mesh K) upd 0 0 [0, 3]
      { clusters := some [0, 1, 1, 2], distances := [⊤, 0, d4, 0],
        sorted_index := [1, NIL, NIL, NIL], n_sorted := 1,
        color := [RED, BLACK, RED, RED], cola := [(0, 3), (d4, 2)] } =
      { clusters := some [1, 1, 1, 2], distances := [d4, 0, d4, 0],
        sorted_index := [1, NIL, NIL, NIL], n_sorted := 1,
        color := [RED, BLACK, RED, RED], cola := [(0, 3), (d4, 2)] } := by
  have n1 : ¬ d4 < (0 : D) := not_lt.mpr (le_of_lt h0)
  simp [fm_star_loop, kite_vt, kite_next, kite_prev, eC, eD, h1, h2, n1]

end kite_run

section kite_calls

variable {K : Type} [LinearOrderedField K]

/-- The update of vertex `2` over the triangle `(0, 2, 3)` while vertex `0` is at
`INFINITY`: the edge propagation from vertex `3` gives `5`. -/
theorem kite_call_A (sqrt : K → K) (hs0 : sqrt 9 = 3) (hs1 : sqrt 25 = 5)
    (d : WithTop K) :
    update_step sqrt (kite_mesh K) [⊤, 0, d, 0] 4 = ((5 : K) : WithTop K) := by
  have hQ : inv_sympd (gram ((⟨-3, 4, 0⟩, ⟨-3, 0, 0⟩) : vertex K × vertex K)) =
      some (⟨9 / 144, -9 / 144, -9 / 144, 25 / 144⟩ : mat22 K) := by
    norm_num [inv_sympd, gram, vertex.dot]
  rw [update_step_some sqrt (kite_mesh K) _ 4 3 0 (⟨-3, 4, 0⟩, ⟨-3, 0, 0⟩) _ rfl rfl
    (by show vertex.sub ⟨3, 8, 0⟩ ⟨6, 4, 0⟩ = _; rw [vertex.sub_mk]; norm_num)
    (by show vertex.sub ⟨3, 4, 0⟩ ⟨6, 4, 0⟩ = _; rw [vertex.sub_mk]; norm_num) hQ]
  rw [planar_update_fallback sqrt [⊤, 0, d, 0] NIL _ (3, 0, (kite_mesh K).vt 4) _ hQ
    (by intro a b _ hb; simp at hb)]
  rw [edge_propagation_fst]
  have h1 : ((⟨-3, 4, 0⟩ : vertex K).norm sqrt) = 5 := by
    unfold vertex.norm
    rw [show (⟨-3, 4, 0⟩ : vertex K).dot ⟨-3, 4, 0⟩ = 25 by norm_num [vertex.dot], hs1]
  have h2 : ((⟨-3, 0, 0⟩ : vertex K).norm sqrt) = 3 := by
    unfold vertex.norm
    rw [show (⟨-3, 0, 0⟩ : vertex K).dot ⟨-3, 0, 0⟩ = 9 by norm_num [vertex.dot], hs0]
  simp only [List.getD_cons_zero, List.getD_cons_succ, h1, h2]
  simp

/-- The update of vertex `2` over the triangle `(0, 1, 2)` while vertex `0` is at
`INFINITY`: the edge propagation from vertex `1` gives `4`. -/
theorem kite_call_B (sqrt : K → K) (hs0 : sqrt 9 = 3) (hs1 : sqrt 16 = 4)
    (d : WithTop K) :
    update_step sqrt (kite_mesh K) [⊤, 0, d, 0] 2 = ((4 : K) : WithTop K) := by
  have hQ : inv_sympd (gram ((⟨-3, 0, 0⟩, ⟨0, -4, 0⟩) : vertex K × vertex K)) =
      some (⟨16 / 144, 0 / 144, 0 / 144, 9 / 144⟩ : mat22 K) := by
    norm_num [inv_sympd, gram, vertex.dot]
  rw [update_step_some sqrt (kite_mesh K) _ 2 0 1 (⟨-3, 0, 0⟩, ⟨0, -4, 0⟩) _ rfl rfl
    (by show vertex.sub ⟨3, 4, 0⟩ ⟨6, 4, 0⟩ = _; rw [vertex.sub_mk]; norm_num)
    (by show vertex.sub ⟨6, 0, 0⟩ ⟨6, 4, 0⟩ = _; rw [vertex.sub_mk]; norm_num) hQ]
  rw [planar_update_fallback sqrt [⊤, 0, d, 0] NIL _ (0, 1, (kite_mesh K).vt 2) _ hQ
    (by intro a b ha; simp at ha)]
  rw [edge_propagation_fst]
  have h1 : ((⟨-3, 0, 0⟩ : vertex K).norm sqrt) = 3 := by
    unfold vertex.norm
    rw [show (⟨-3, 0, 0⟩ : vertex K).dot ⟨-3, 0, 0⟩ = 9 by norm_num [vertex.dot], hs0]
  have h2 : ((⟨0, -4, 0⟩ : vertex K).norm sqrt) = 4 := by
    unfold vertex.norm
    rw [show (⟨0, -4, 0⟩ : vertex K).dot ⟨0, -4, 0⟩ = 16 by norm_num [vertex.dot], hs1]
  simp only [List.getD_cons_zero, List.getD_cons_succ, h1, h2]
  simp

/-- The update of vertex `0` over the triangle `(0, 1, 2)` with vertex `1` at `0` and
vertex `2` at `4`: the unfold is not valid and the edge propagation gives
`min(0 + 5, 4 + 3) = 5`. -/
theorem kite_call_C (sqrt : K → K) (hs0 : sqrt 0 = 0) (hs1 : sqrt 9 = 3)
    (hs2 : sqrt 25 = 5) (d : WithTop K) :
    update_step sqrt (kite_mesh K) [d, 0, ((4 : K) : WithTop K), 0] 0 = ((5 : K) : WithTop K) := by
  have hQ : inv_sympd (gram ((⟨3, -4, 0⟩, ⟨3, 0, 0⟩) : vertex K × vertex K)) =
      some (⟨9 / 144, -9 / 144, -9 / 144, 25 / 144⟩ : mat22 K) := by
    norm_num [inv_sympd, gram, vertex.dot]
  rw [update_step_some sqrt (kite_mesh K) _ 0 1 2 (⟨3, -4, 0⟩, ⟨3, 0, 0⟩) _ rfl rfl
    (by show vertex.sub ⟨6, 0, 0⟩ ⟨3, 4, 0⟩ = _; rw [vertex.sub_mk]; norm_num)
    (by show vertex.sub ⟨6, 4, 0⟩ ⟨3, 4, 0⟩ = _; rw [vertex.sub_mk]; norm_num) hQ]
  have hdis : planar_dis
      (⟨9 / 144, -9 / 144, -9 / 144, 25 / 144⟩ : mat22 K) 0 4 = 0 := by
    norm_num [planar_dis, mat22.ones_mul, mat22.sum, mat22.quad]
  have hp : planar_p sqrt
      (⟨9 / 144, -9 / 144, -9 / 144, 25 / 144⟩ : mat22 K) 0 4 = 4 := by
    unfold planar_p
    rw [hdis, hs0]
    norm_num [mat22.ones_mul, mat22.sum]
  rw [planar_update_fallback sqrt [d, 0, ((4 : K) : WithTop K), 0] NIL _
    (1, 2, (kite_mesh K).vt 0) _ hQ
    (by
      intro a b ha hb _
      have ea : a = 0 := by
        have : ((0 : K) : WithTop K) = (a : WithTop K) := ha
        exact (WithTop.coe_eq_coe.mp this).symm
      have eb : b = 4 := by
        have : ((4 : K) : WithTop K) = (b : WithTop K) := hb
        exact (WithTop.coe_eq_coe.mp this).symm
      subst ea; subst eb
      right
      rw [hp]; norm_num)]
  rw [edge_propagation_fst]
  have h1 : ((⟨3, -4, 0⟩ : vertex K).norm sqrt) = 5 := by
    unfold vertex.norm
    rw [show (⟨3, -4, 0⟩ : vertex K).dot ⟨3, -4, 0⟩ = 25 by norm_num [vertex.dot], hs2]
  have h2 : ((⟨3, 0, 0⟩ : vertex K).norm sqrt) = 3 := by
    unfold vertex.norm
    rw [show (⟨3, 0, 0⟩ : vertex K).dot ⟨3, 0, 0⟩ = 9 by norm_num [vertex.dot], hs1]
  simp only [List.getD_cons_zero, List.getD_cons_succ, h1, h2]
  norm_cast

/-- The update of vertex `0` over the triangle `(0, 2, 3)` with vertex `2` at `4` and
vertex `3` at `0`: the unfold is not valid and the edge propagation gives
`min(4 + 3, 0 + 4) = 4`, the edge from vertex `3`. -/
theorem kite_call_D (sqrt : K → K) (hs0 : sqrt (1 / 16) = 1 / 4) (hs1 : sqrt 9 = 3)
    (hs2 : sqrt 16 = 4) (d : WithTop K) :
    update_step sqrt (kite_mesh K) [d, 0, ((4 : K) : WithTop K), 0] 3 = ((4 : K) : WithTop K) := by
  have hQ : inv_sympd (gram ((⟨3, 0, 0⟩, ⟨0, 4, 0⟩) : vertex K × vertex K)) =
      some (⟨16 / 144, 0 / 144, 0 / 144, 9 / 144⟩ : mat22 K) := by
    norm_num [inv_sympd, gram, vertex.dot]
  rw [update_step_some sqrt (kite_mesh K) _ 3 2 3 (⟨3, 0, 0⟩, ⟨0, 4, 0⟩) _ rfl rfl
    (by show vertex.sub ⟨6, 4, 0⟩ ⟨3, 4, 0⟩ = _; rw [vertex.sub_mk]; norm_num)
    (by show vertex.sub ⟨3, 8, 0⟩ ⟨3, 4, 0⟩ = _; rw [vertex.sub_mk]; norm_num) hQ]
  have hdis : planar_dis
      (⟨16 / 144, 0 / 144, 0 / 144, 9 / 144⟩ : mat22 K) 4 0 = 1 / 16 := by
    norm_num [planar_dis, mat22.ones_mul, mat22.sum, mat22.quad]
  have hp : planar_p sqrt
      (⟨16 / 144, 0 / 144, 0 / 144, 9 / 144⟩ : mat22 K) 4 0 = 4 := by
    unfold planar_p
    rw [hdis, hs0]
    norm_num [mat22.ones_mul, mat22.sum]
  rw [planar_update_fallback sqrt [d, 0, ((4 : K) : WithTop K), 0] NIL _
    (2, 3, (kite_mesh K).vt 3) _ hQ
    (by
      intro a b ha hb _
      have ea : a = 4 := by
        have : ((4 : K) : WithTop K) = (a : WithTop K) := ha
        exact (WithTop.coe_eq_coe.mp this).symm
      have eb : b = 0 := by
        have : ((0 : K) : WithTop K) = (b : WithTop K) := hb
        exact (WithTop.coe_eq_coe.mp this).symm
      subst ea; subst eb
      left
      rw [hp]; norm_num)]
  rw [edge_propagation_fst]
  have h1 : ((⟨3, 0, 0⟩ : vertex K).norm sqrt) = 3 := by
    unfold vertex.norm
    rw [show (⟨3, 0, 0⟩ : vertex K).dot ⟨3, 0, 0⟩ = 9 by norm_num [vertex.dot], hs1]
  have h2 : ((⟨0, 4, 0⟩ : vertex K).norm sqrt) = 4 := by
    unfold vertex.norm
    rw [show (⟨0, 4, 0⟩ : vertex K).dot ⟨0, 4, 0⟩ = 16 by norm_num [vertex.dot], hs2]
  simp only [List.getD_cons_zero, List.getD_cons_succ, h1, h2]
  norm_cast

/-- The update of vertex `2` over the triangle `(0, 2, 3)` with vertex `3` at `0` and
vertex `0` at `4`: the edge propagation gives `min(0 + 5, 4 + 3) = 5`. -/
theorem kite_call_G (sqrt : K → K) (hs0 : sqrt 0 = 0) (hs1 : sqrt 9 = 3)
    (hs2 : sqrt 25 = 5) (d : WithTop K) :
    update_step sqrt (kite_mesh K) [((4 : K) : WithTop K), 0, d, 0] 4 = ((5 : K) : WithTop K) := by
  have hQ : inv_sympd (gram ((⟨-3, 4, 0⟩, ⟨-3, 0, 0⟩) : vertex K × vertex K)) =
      some (⟨9 / 144, -9 / 144, -9 / 144, 25 / 144⟩ : mat22 K) := by
    norm_num [inv_sympd, gram, vertex.dot]
  rw [update_step_some sqrt (kite_mesh K) _ 4 3 0 (⟨-3, 4, 0⟩, ⟨-3, 0, 0⟩) _ rfl rfl
    (by show vertex.sub ⟨3, 8, 0⟩ ⟨6, 4, 0⟩ = _; rw [vertex.sub_mk]; norm_num)
    (by show vertex.sub ⟨3, 4, 0⟩ ⟨6, 4, 0⟩ = _; rw [vertex.sub_mk]; norm_num) hQ]
  have hdis : planar_dis
      (⟨9 / 144, -9 / 144, -9 / 144, 25 / 144⟩ : mat22 K) 0 4 = 0 := by
    norm_num [planar_dis, mat22.ones_mul, mat22.sum, mat22.quad]
  have hp : planar_p sqrt
      (⟨9 / 144, -9 / 144, -9 / 144, 25 / 144⟩ : mat22 K) 0 4 = 4 := by
    unfold planar_p
    rw [hdis, hs0]
    norm_num [mat22.ones_mul, mat22.sum]
  rw [planar_update_fallback sqrt [((4 : K) : WithTop K), 0, d, 0] NIL _
    (3, 0, (kite_mesh K).vt 4) _ hQ
    (by
      intro a b ha hb _
      have ea : a = 0 := by
        have : ((0 : K) : WithTop K) = (a : WithTop K) := ha
        exact (WithTop.coe_eq_coe.mp this).symm
      have eb : b = 4 := by
        have : ((4 : K) : WithTop K) = (b : WithTop K) := hb
        exact (WithTop.coe_eq_coe.mp this).symm
      subst ea; subst eb
      right
      rw [hp]; norm_num)]
  rw [edge_propagation_fst]
  have h1 : ((⟨-3, 4, 0⟩ : vertex K).norm sqrt) = 5 := by
    unfold vertex.norm
    rw [show (⟨-3, 4, 0⟩ : vertex K).dot ⟨-3, 4, 0⟩ = 25 by norm_num [vertex.dot], hs2]
  have h2 : ((⟨-3, 0, 0⟩ : vertex K).norm sqrt) = 3 := by
    unfold vertex.norm
    rw [show (⟨-3, 0, 0⟩ : vertex K).dot ⟨-3, 0, 0⟩ = 9 by norm_num [vertex.dot], hs1]
  simp only [List.getD_cons_zero, List.getD_cons_succ, h1, h2]
  norm_cast

/-- The update of vertex `2` over the triangle `(0, 1, 2)` with vertex `0` at `4` and
vertex `1` at `0`: the edge propagation gives `min(4 + 3, 0 + 4) = 4`. -/
theorem kite_call_H (sqrt : K → K) (hs0 : sqrt (1 / 16) = 1 / 4) (hs1 : sqrt 9 = 3)
    (hs2 : sqrt 16 = 4) (d : WithTop K) :
    update_step sqrt (kite_mesh K) [((4 : K) : WithTop K), 0, d, 0] 2 = ((4 : K) : WithTop K) := by
  have hQ : inv_sympd (gram ((⟨-3, 0, 0⟩, ⟨0, -4, 0⟩) : vertex K × vertex K)) =
      some (⟨16 / 144, 0 / 144, 0 / 144, 9 / 144⟩ : mat22 K) := by
    norm_num [inv_sympd, gram, vertex.dot]
  rw [update_step_some sqrt (kite_mesh K) _ 2 0 1 (⟨-3, 0, 0⟩, ⟨0, -4, 0⟩) _ rfl rfl
    (by show vertex.sub ⟨3, 4, 0⟩ ⟨6, 4, 0⟩ = _; rw [vertex.sub_mk]; norm_num)
    (by show vertex.sub ⟨6, 0, 0⟩ ⟨6, 4, 0⟩ = _; rw [vertex.sub_mk]; norm_num) hQ]
  have hdis : planar_dis
      (⟨16 / 144, 0 / 144, 0 / 144, 9 / 144⟩ : mat22 K) 4 0 = 1 / 16 := by
    norm_num [planar_dis, mat22.ones_mul, mat22.sum, mat22.quad]
  have hp : planar_p sqrt
      (⟨16 / 144, 0 / 144, 0 / 144, 9 / 144⟩ : mat22 K) 4 0 = 4 := by
    unfold planar_p
    rw [hdis, hs0]
    norm_num [mat22.ones_mul, mat22.sum]
  rw [planar_update_fallback sqrt [((4 : K) : WithTop K), 0, d, 0] NIL _
    (0, 1, (kite_mesh K).vt 2) _ hQ
    (by
      intro a b ha hb _
      have ea : a = 4 := by
        have : ((4 : K) : WithTop K) = (a : WithTop K) := ha
        exact (WithTop.coe_eq_coe.mp this).symm
      have eb : b = 0 := by
        have : ((0 : K) : WithTop K) = (b : WithTop K) := hb
        exact (WithTop.coe_eq_coe.mp this).symm
      subst ea; subst eb
      left
      rw [hp]; norm_num)]
  rw [edge_propagation_fst]
  have h1 : ((⟨-3, 0, 0⟩ : vertex K).norm sqrt) = 3 := by
    unfold vertex.norm
    rw [show (⟨-3, 0, 0⟩ : vertex K).dot ⟨-3, 0, 0⟩ = 9 by norm_num [vertex.dot], hs1]
  have h2 : ((⟨0, -4, 0⟩ : vertex K).norm sqrt) = 4 := by
    unfold vertex.norm
    rw [show (⟨0, -4, 0⟩ : vertex K).dot ⟨0, -4, 0⟩ = 16 by norm_num [vertex.dot], hs2]
  simp only [List.getD_cons_zero, List.getD_cons_succ, h1, h2]
  norm_cast

end kite_calls

section claim_cluster_neighbour

/-- C14, the code at a failing input. Over the real numbers, Fast Marching with
clustering on `kite_mesh` from the sources `1` (cluster `1`) and `3` (cluster `2`) ends
with the distances `4, 0, 4, 0`, the sorted order `1, 3, 0, 2` and the clusters
`1, 1, 1, 2`. The final distance `4` of vertex `0` is set in the first pass by the star
half-edge `v_he = 3` of the triangle `(0, 2, 3)`, whose other vertices are `2` (distance
`4`, cluster `1`) and `3` (distance `0`, cluster `2`); the cluster stored with it is
`1`, read at the end vertex `1` of `next(he)` for the link half-edge `he = 0` of the
other triangle `(0, 1, 2)`, and not the cluster `2` of vertex `3`. -/
theorem fast_marching_cluster_divergence
    (engine : option_t → geodesics (WithTop ℝ) → geodesics (WithTop ℝ)) :
    geodesics.create (kite_mesh ℝ) (update_step Real.sqrt) engine [1, 3] option_t.FM
        true 0 ⊤ = some (kite_result ℝ) ∧
    (kite_result ℝ).clusters = some [1, 1, 1, 2] ∧
    (kite_result ℝ).distances = [((4 : ℝ) : WithTop ℝ), 0, ((4 : ℝ) : WithTop ℝ), 0] ∧
    fm_star_loop (kite_mesh ℝ) (update_step Real.sqrt) 0 0 [0, 3]
      { clusters := some [0, 1, 1, 2], distances := [⊤, 0, ((4 : ℝ) : WithTop ℝ), 0],
        sorted_index := [1, NIL, NIL, NIL], n_sorted := 1,
        color := [RED, BLACK, RED, RED], cola := [(0, 3), (((4 : ℝ) : WithTop ℝ), 2)] } =
      { clusters := some [1, 1, 1, 2],
        distances := [((4 : ℝ) : WithTop ℝ), 0, ((4 : ℝ) : WithTop ℝ), 0],
        sorted_index := [1, NIL, NIL, NIL], n_sorted := 1,
        color := [RED, BLACK, RED, RED], cola := [(0, 3), (((4 : ℝ) : WithTop ℝ), 2)] } ∧
    update_step Real.sqrt (kite_mesh ℝ)
      [⊤, 0, ((4 : ℝ) : WithTop ℝ), 0] 0 = ((5 : ℝ) : WithTop ℝ) ∧
    update_step Real.sqrt (kite_mesh ℝ)
      [((5 : ℝ) : WithTop ℝ), 0, ((4 : ℝ) : WithTop ℝ), 0] 3 = ((4 : ℝ) : WithTop ℝ) ∧
    (kite_mesh ℝ).vt ((kite_mesh ℝ).next 3) = 2 ∧
    (kite_mesh ℝ).vt ((kite_mesh ℝ).prev 3) = 3 ∧
    (kite_mesh ℝ).vt ((kite_mesh ℝ).next 0) = 1 ∧
    (kite_result ℝ).distances.getD 3 ⊤ < (kite_result ℝ).distances.getD 2 ⊤ := by
  have s0 : Real.sqrt 0 = 0 := Real.sqrt_zero
  have s9 : Real.sqrt 9 = 3 := real_sqrt_of_sq _ _ (by norm_num) (by norm_num)
  have s16 : Real.sqrt 16 = 4 := real_sqrt_of_sq _ _ (by norm_num) (by norm_num)
  have s25 : Real.sqrt 25 = 5 := real_sqrt_of_sq _ _ (by norm_num) (by norm_num)
  have sq : Real.sqrt (1 / 16) = 1 / 4 := real_sqrt_of_sq _ _ (by norm_num) (by norm_num)
  have h04 : (0 : WithTop ℝ) < ((4 : ℝ) : WithTop ℝ) := by
    rw [← WithTop.coe_zero, WithTop.coe_lt_coe]; norm_num
  have h45 : ((4 : ℝ) : WithTop ℝ) < ((5 : ℝ) : WithTop ℝ) := by
    rw [WithTop.coe_lt_coe]; norm_num
  have h5t : ((5 : ℝ) : WithTop ℝ) < ⊤ := WithTop.coe_lt_top _
  have n54 : ¬ ((5 : ℝ) : WithTop ℝ) < ((4 : ℝ) : WithTop ℝ) := not_lt.mpr (le_of_lt h45)
  refine ⟨?_, rfl, rfl, ?_, kite_call_C Real.sqrt s0 s9 s25 _, kite_call_D Real.sqrt sq s9 s16 _,
    rfl, rfl, rfl, ?_⟩
  · apply kite_create (update_step Real.sqrt) engine ((4 : ℝ) : WithTop ℝ)
      ((5 : ℝ) : WithTop ℝ) h04 h45 h5t
    · exact kite_call_A Real.sqrt s9 s25 _
    · exact kite_call_B Real.sqrt s9 s16 _
    · exact kite_call_C Real.sqrt s0 s9 s25 _
    · exact kite_call_D Real.sqrt sq s9 s16 _
    · rw [kite_call_C Real.sqrt s0 s9 s25]; exact n54
    · rw [kite_call_D Real.sqrt sq s9 s16]; exact lt_irrefl _
    · rw [kite_call_G Real.sqrt s0 s9 s25]; exact n54
    · rw [kite_call_H Real.sqrt sq s9 s16]; exact lt_irrefl _
  · exact kite_star_loop (update_step Real.sqrt) ((4 : ℝ) : WithTop ℝ)
      ((5 : ℝ) : WithTop ℝ) h04 h45 h5t (kite_call_C Real.sqrt s0 s9 s25 _)
      (kite_call_D Real.sqrt sq s9 s16 _)
  · show (0 : WithTop ℝ) < ((4 : ℝ) : WithTop ℝ)
    exact h04

end claim_cluster_neighbour

section claim_source_clusters

variable {K D : Type} [LinearOrder D] [OrderTop D] [Zero D]

/-- The clusters that the loop over the sources writes: the source at position `i`
gets `c + i + 1`, where `c` is the counter at the start. -/
theorem fm_init_sources_clusters (sources : List index_t) (c : index_t) (st : fm_state D)
    (cl : List index_t) (hcl : st.clusters = some cl) (hnd : sources.Nodup)
    (hlt : ∀ s ∈ sources, s < cl.length) :
    ∃ cl1, (fm_init_sources sources c st).clusters = some cl1 ∧ cl1.length = cl.length ∧
      (∀ i s, sources[i]? = some s → cl1.getD s NIL = c + i + 1) ∧
      (∀ u, u ∉ sources → cl1.getD u NIL = cl.getD u NIL) := by
  induction sources generalizing c st cl with
  | nil =>
    refine ⟨cl, hcl, rfl, ?_, fun _ _ => rfl⟩
    intro i s h
    simp at h
  | cons s rest ih =>
    unfold fm_init_sources
    simp only [hcl, Option.isSome_some, if_true, Option.map_some']
    obtain ⟨hs, hnd1⟩ := List.nodup_cons.mp hnd
    obtain ⟨cl1, h1, h2, h3, h4⟩ := ih (c + 1)
      { st with distances := st.distances.set s 0, clusters := some (cl.set s (c + 1)),
                color := st.color.set s RED,
                cola := cola_push ((st.distances.set s 0).getD s ⊤, s) st.cola }
      (cl.set s (c + 1)) rfl hnd1
      (fun x hx => by rw [List.length_set]; exact hlt x (List.mem_cons_of_mem _ hx))
    refine ⟨cl1, h1, by rw [h2, List.length_set], ?_, ?_⟩
    · intro i x hx
      cases i with
      | zero =>
        simp only [List.getElem?_cons_zero, Option.some.injEq] at hx
        subst hx
        rw [h4 s hs, getD_set_eq _ _ _ _ (hlt s (List.mem_cons_self _ _))]
      | succ i =>
        simp only [List.getElem?_cons_succ] at hx
        rw [h3 i x hx]
        show c + 1 + i + 1 = c + (i + 1) + 1
        rw [Nat.add_right_comm c 1 i]
        rfl
    · intro u hu
      rw [h4 u (fun h => hu (List.mem_cons_of_mem _ h))]
      exact getD_set_ne _ _ _ _ _ (fun e => hu (by rw [e]; exact List.mem_cons_self _ _))

/-- The loop over the star of `v` does not write the cluster of a vertex at distance
`0` when the update rule has no negative value. -/
theorem fm_star_loop_cluster_keep (mesh : che K) (upd : che K → List D → index_t → D)
    (hupd : ∀ l he, (∀ u, 0 ≤ l.getD u ⊤) → 0 ≤ upd mesh l he)
    (he v s : index_t) (hes : List index_t) (st : fm_state D)
    (hnn : ∀ u, 0 ≤ st.distances.getD u ⊤) (hs0 : st.distances.getD s ⊤ = 0) :
    (fm_star_loop mesh upd he v hes st).clusters.map (fun cl => cl.getD s NIL) =
      st.clusters.map (fun cl => cl.getD s NIL) := by
  induction hes generalizing st with
  | nil => rfl
  | cons v_he rest ih =>
    unfold fm_star_loop
    simp only
    split
    · rename_i hp
      have hvs : v ≠ s := by
        intro e
        rw [e, hs0] at hp
        exact absurd hp (not_lt.mpr (hupd _ _ hnn))
      have hnn1 : ∀ u, 0 ≤ (st.distances.set v (upd mesh st.distances v_he)).getD u ⊤ := by
        intro u
        rcases getD_set_cases st.distances v u (upd mesh st.distances v_he) ⊤ with h | h
        · rw [h]; exact hupd _ _ hnn
        · rw [h]; exact hnn u
      rw [ih _ hnn1 (by
        show (st.distances.set v (upd mesh st.distances v_he)).getD s ⊤ = 0
        rw [getD_set_ne _ _ _ _ _ hvs]; exact hs0)]
      cases hc : st.clusters with
      | none => rfl
      | some cl =>
        simp only [Option.map_some', Option.some.injEq]
        exact getD_set_ne _ _ _ _ _ hvs
    · exact ih st hnn hs0

theorem fm_promote_clusters (v : index_t) (st : fm_state D) :
    (fm_promote v st).clusters = st.clusters := by
  unfold fm_promote
  split <;> rfl

theorem fm_link_step_cluster_keep (mesh : che K) (upd : che K → List D → index_t → D)
    (hupd : ∀ l he, (∀ u, 0 ≤ l.getD u ⊤) → 0 ≤ upd mesh l he)
    (he s : index_t) (st : fm_state D)
    (hnn : ∀ u, 0 ≤ st.distances.getD u ⊤) (hs0 : st.distances.getD s ⊤ = 0) :
    (fm_link_step mesh upd he st).clusters.map (fun cl => cl.getD s NIL) =
      st.clusters.map (fun cl => cl.getD s NIL) := by
  have hnn1 : ∀ u, 0 ≤ (fm_promote (mesh.vt he) st).distances.getD u ⊤ := by
    rw [fm_promote_distances]; exact hnn
  have hs1 : (fm_promote (mesh.vt he) st).distances.getD s ⊤ = 0 := by
    rw [fm_promote_distances]; exact hs0
  have hk := fm_star_loop_cluster_keep mesh upd hupd he (mesh.vt he) s
    (mesh.star (mesh.vt he)) (fm_promote (mesh.vt he) st) hnn1 hs1
  rw [fm_promote_clusters] at hk
  unfold fm_link_step
  simp only
  split
  · split
    · exact hk
    · exact hk
  · rw [fm_promote_clusters]

/-- A vertex at distance `0` stays there when the update rule has no negative value. -/
theorem fm_frame_zero {st st1 : fm_state D} (hfr : fm_frame st st1)
    (hnn : ∀ u, 0 ≤ st1.distances.getD u ⊤) (s : index_t)
    (hs0 : st.distances.getD s ⊤ = 0) : st1.distances.getD s ⊤ = 0 :=
  le_antisymm (by rw [← hs0]; exact hfr.dist_le s) (hnn s)

theorem fm_link_loop_cluster_keep (mesh : che K) (upd : che K → List D → index_t → D)
    (hupd : ∀ l he, (∀ u, 0 ≤ l.getD u ⊤) → 0 ≤ upd mesh l he)
    (hes : List index_t) (s : index_t) (st : fm_state D)
    (hnn : ∀ u, 0 ≤ st.distances.getD u ⊤) (hs0 : st.distances.getD s ⊤ = 0) :
    (fm_link_loop mesh upd hes st).clusters.map (fun cl => cl.getD s NIL) =
      st.clusters.map (fun cl => cl.getD s NIL) := by
  induction hes generalizing st with
  | nil => rfl
  | cons he rest ih =>
    simp only [fm_link_loop]
    have hnn1 := fm_link_step_pred mesh upd (fun d => 0 ≤ d) hupd he st hnn
    rw [ih _ hnn1 (fm_frame_zero (fm_link_step_frame mesh upd he st) hnn1 s hs0)]
    exact fm_link_step_cluster_keep mesh upd hupd he s st hnn hs0

theorem fm_iter_cluster_keep (mesh : che K) (upd : che K → List D → index_t → D) (radio : D)
    (hupd : ∀ l he, (∀ u, 0 ≤ l.getD u ⊤) → 0 ≤ upd mesh l he)
    (s : index_t) (st : fm_state D)
    (hnn : ∀ u, 0 ≤ st.distances.getD u ⊤) (hs0 : st.distances.getD s ⊤ = 0) :
    (fm_iter mesh upd radio st).2.clusters.map (fun cl => cl.getD s NIL) =
      st.clusters.map (fun cl => cl.getD s NIL) := by
  rcases hres : fm_iter mesh upd radio st with ⟨b, st1⟩
  cases b with
  | true =>
    obtain ⟨top, q, _, _, rfl⟩ := fm_iter_true mesh upd radio st st1 hres
    exact fm_link_loop_cluster_keep mesh upd hupd _ s _ hnn hs0
  | false =>
    rcases fm_iter_false mesh upd radio st st1 hres with
      ⟨_, rfl⟩ | ⟨_, rfl⟩ | ⟨top, q, _, _, rfl⟩
    · rfl
    · rfl
    · rfl

theorem fm_loop_cluster_keep (mesh : che K) (upd : che K → List D → index_t → D) (radio : D)
    (hupd : ∀ l he, (∀ u, 0 ≤ l.getD u ⊤) → 0 ≤ upd mesh l he)
    (gc : Nat) (s : index_t) (st : fm_state D)
    (hnn : ∀ u, 0 ≤ st.distances.getD u ⊤) (hs0 : st.distances.getD s ⊤ = 0) :
    (fm_loop mesh upd radio gc st).clusters.map (fun cl => cl.getD s NIL) =
      st.clusters.map (fun cl => cl.getD s NIL) := by
  induction gc generalizing st with
  | zero => rfl
  | succ gc ih =>
    rw [fm_loop_succ]
    have hk := fm_iter_cluster_keep mesh upd radio hupd s st hnn hs0
    have hnn1 := fm_iter_pred mesh upd radio (fun d => 0 ≤ d) hupd st hnn
    have hs1 : (fm_iter mesh upd radio st).2.distances.getD s ⊤ = 0 :=
      le_antisymm (by rw [← hs0]; exact (fm_iter_monotone mesh upd radio st s).1) (hnn1 s)
    split
    · rw [ih _ hnn1 hs1, hk]
    · exact hk

/-- The clusters of the sources after Fast Marching with clustering: position plus
one. -/
theorem fm_source_clusters (mesh : che K) (upd : che K → List D → index_t → D)
    (engine : option_t → geodesics D → geodesics D) (sources : List index_t)
    (n_iter : Nat) (radio : D)
    (hn : 0 < mesh.n_vertices) (hs : sources ≠ [])
    (hlt : ∀ s ∈ sources, s < mesh.n_vertices) (hnd : sources.Nodup)
    (hupd : ∀ l he, (∀ u, 0 ≤ l.getD u ⊤) → 0 ≤ upd mesh l he) :
    ∃ g cl, geodesics.create mesh upd engine sources option_t.FM true n_iter radio = some g ∧
      g.clusters = some cl ∧ ∀ i s, sources[i]? = some s → cl.getD s NIL = i + 1 := by
  obtain ⟨cl1, h1, _, h3, _⟩ := fm_init_sources_clusters (D := D) sources 0
    { clusters := (geodesics.alloc mesh.n_vertices true : geodesics D).clusters,
      distances := (geodesics.alloc mesh.n_vertices true : geodesics D).distances,
      sorted_index := (geodesics.alloc mesh.n_vertices true : geodesics D).sorted_index,
      n_sorted := 0, color := List.replicate mesh.n_vertices GREEN, cola := [] }
    (List.replicate mesh.n_vertices 0) rfl hnd
    (fun s hs => by rw [List.length_replicate]; exact hlt s hs)
  have hstart : (fm_start (geodesics.alloc mesh.n_vertices true : geodesics D)
      sources).clusters = some cl1 := h1
  obtain ⟨_, _, _, _, hd, _, _, _⟩ := fm_start_spec (D := D) mesh.n_vertices true sources
  have hnn : ∀ u, 0 ≤ (fm_start (geodesics.alloc mesh.n_vertices true : geodesics D)
      sources).distances.getD u ⊤ := by
    intro u
    rw [hd u]
    split
    · exact le_refl _
    · exact le_top
  have hkeep : ∀ s ∈ sources,
      (fm_loop mesh upd radio
        (fm_green_count (geodesics.alloc mesh.n_vertices true : geodesics D) n_iter)
        (fm_start (geodesics.alloc mesh.n_vertices true : geodesics D) sources)).clusters.map
          (fun cl => cl.getD s NIL) = some (cl1.getD s NIL) := by
    intro s hs1
    rw [fm_loop_cluster_keep mesh upd radio hupd _ s _ hnn
      (by rw [hd s, if_pos ⟨hs1, hlt s hs1⟩]), hstart]
    rfl
  obtain ⟨s0, rest, hs0⟩ := List.exists_cons_of_ne_nil hs
  have hmem0 : s0 ∈ sources := by rw [hs0]; exact List.mem_cons_self _ _
  obtain ⟨cl, hcl, _⟩ := Option.map_eq_some'.mp (hkeep s0 hmem0)
  refine ⟨_, cl, create_FM mesh upd engine sources true n_iter radio hn hs, hcl, ?_⟩
  intro i s his
  have hk := hkeep s (List.getElem?_mem his)
  rw [hcl] at hk
  simp only [Option.map_some', Option.some.injEq] at hk
  rw [hk, h3 i s his, Nat.zero_add]

/-- C15, as the code has it. With clustering enabled, pairwise distinct in-range sources
and an update rule without negative values, the cluster of the source at position `i`
of the source list is `i + 1` after Fast Marching: the counter `c` is incremented
before it is stored (`clusters[s] = ++c`). -/
theorem fast_marching_source_clusters (mesh : che K) (upd : che K → List D → index_t → D)
    (engine : option_t → geodesics D → geodesics D) (sources : List index_t)
    (n_iter : Nat) (radio : D)
    (hn : 0 < mesh.n_vertices) (hs : sources ≠ [])
    (hlt : ∀ s ∈ sources, s < mesh.n_vertices) (hnd : sources.Nodup)
    (hupd : ∀ l he, (∀ u, 0 ≤ l.getD u ⊤) → 0 ≤ upd mesh l he) :
    ∃ g cl, geodesics.create mesh upd engine sources option_t.FM true n_iter radio = some g ∧
      g.clusters = some cl ∧ ∀ i s, sources[i]? = some s → cl.getD s NIL = i + 1 :=
  fm_source_clusters mesh upd engine sources n_iter radio hn hs hlt hnd hupd

theorem fast_marching_source_clusters_witness :
    0 < (obtuse_mesh ℚ).n_vertices ∧ ([0, 1] : List index_t) ≠ [] ∧
    (∀ s ∈ ([0, 1] : List index_t), s < (obtuse_mesh ℚ).n_vertices) ∧
    ([0, 1] : List index_t).Nodup ∧
    ∃ g cl, geodesics.create (obtuse_mesh ℚ) (update_step qsqrt) (fun _ g => g) [0, 1]
        option_t.FM true 0 ⊤ = some g ∧
      g.clusters = some cl ∧
      ∀ i s, ([0, 1] : List index_t)[i]? = some s → cl.getD s NIL = i + 1 :=
  ⟨by decide, by decide, by decide, by decide,
    fast_marching_source_clusters (obtuse_mesh ℚ) (update_step qsqrt) (fun _ g => g) [0, 1]
      0 ⊤ (by decide) (by decide) (by decide) (by decide)
      (fun l he h => update_step_nonneg qsqrt qsqrt_nonneg (obtuse_mesh ℚ) l he h)⟩

/-- C15 fails as stated. Over the real numbers, on `obtuse_mesh` with the distinct
sources `0` (position `0`) and `1` (position `1`) and clustering enabled, Fast Marching
leaves the cluster `1` at vertex `0` and the cluster `2` at vertex `1`, not `0` and
`1`. -/
theorem fast_marching_source_clusters_counterexample :
    ∃ g cl, geodesics.create (obtuse_mesh ℝ) (update_step Real.sqrt) (fun _ g => g) [0, 1]
        option_t.FM true 0 ⊤ = some g ∧
      g.clusters = some cl ∧
      cl.getD (([0, 1] : List index_t).getD 0 NIL) NIL = 1 ∧
      cl.getD (([0, 1] : List index_t).getD 1 NIL) NIL = 2 ∧
      cl.getD (([0, 1] : List index_t).getD 0 NIL) NIL ≠ 0 ∧
      cl.getD (([0, 1] : List index_t).getD 1 NIL) NIL ≠ 1 := by
  obtain ⟨g, cl, hg, hcl, h⟩ := fm_source_clusters (obtuse_mesh ℝ) (update_step Real.sqrt)
    (fun _ g => g) [0, 1] 0 ⊤ (by rw [obtuse_n_vertices]; decide) (by decide)
    (by rw [obtuse_n_vertices]; decide) (by decide)
    (fun l he h => update_step_nonneg Real.sqrt Real.sqrt_nonneg (obtuse_mesh ℝ) l he h)
  have h0 : cl.getD 0 NIL = 1 := h 0 0 rfl
  have h1 : cl.getD 1 NIL = 2 := h 1 1 rfl
  refine ⟨g, cl, hg, hcl, h0, h1, ?_, ?_⟩
  · show cl.getD 0 NIL ≠ 0
    rw [h0]; decide
  · show cl.getD 1 NIL ≠ 1
    rw [h1]; decide

end claim_source_clusters

section claim_sorted_distinct

variable {K D : Type} [LinearOrder D] [OrderTop D] [Zero D]

theorem fm_iter_tail (mesh : che K) (upd : che K → List D → index_t → D) (radio : D)
    (st : fm_state D) (h : ∀ i, st.n_sorted ≤ i → st.sorted_index.getD i NIL = NIL) :
    ∀ i, (fm_iter mesh upd radio st).2.n_sorted ≤ i →
      (fm_iter mesh upd radio st).2.sorted_index.getD i NIL = NIL := by
  rcases hit : fm_iter mesh upd radio st with ⟨b, st1⟩
  cases b
  · rcases fm_iter_false mesh upd radio st st1 hit with
      ⟨_, rfl⟩ | ⟨_, rfl⟩ | ⟨top, q, _, _, rfl⟩
    · exact h
    · exact h
    · exact h
  · obtain ⟨top, q, hpop, hrad, rfl⟩ := fm_iter_true mesh upd radio st st1 hit
    have hfr := fm_link_loop_frame mesh upd (mesh.link top.2)
      { st with color := st.color.set top.2 BLACK, cola := q,
                sorted_index := st.sorted_index.set st.n_sorted top.2,
                n_sorted := st.n_sorted + 1 }
    intro i hi
    simp only [hfr.sorted_eq, hfr.n_sorted_eq] at hi ⊢
    rw [getD_set_ne _ _ _ _ _ (by omega)]
    exact h i (by omega)

theorem fm_loop_tail (mesh : che K) (upd : che K → List D → index_t → D) (radio : D)
    (gc : Nat) (st : fm_state D)
    (h : ∀ i, st.n_sorted ≤ i → st.sorted_index.getD i NIL = NIL) :
    ∀ i, (fm_loop mesh upd radio gc st).n_sorted ≤ i →
      (fm_loop mesh upd radio gc st).sorted_index.getD i NIL = NIL := by
  induction gc generalizing st with
  | zero => exact h
  | succ gc ih =>
    rw [fm_loop_succ]
    have h1 := fm_iter_tail mesh upd radio st h
    split
    · exact ih _ h1
    · exact h1

theorem fm_start_tail (n : Nat) (cluster : Bool) (sources : List index_t) (i : Nat) :
    (fm_start (geodesics.alloc n cluster : geodesics D) sources).sorted_index.getD i NIL =
      NIL := by
  rw [(fm_start_spec (D := D) n cluster sources).2.2.1]
  by_cases hi : i < n
  · rw [List.getD_eq_getElem _ _ (by simpa using hi)]
    simp
  · exact getD_oob _ _ _ (by simpa using hi)

/-- What a pass of the main loop that appends a vertex does to the sorted order of a
well-formed state. -/
theorem fm_iter_append (mesh : che K) (upd : che K → List D → index_t → D) (radio : D)
    (n : Nat) (st st1 : fm_state D) (hwf : fm_wf n st)
    (hit : fm_iter mesh upd radio st = (true, st1)) :
    st.n_sorted < n ∧ fm_black st < n ∧ st.color.getD (fm_black st) NIL ≠ BLACK ∧
    fm_black st ∉ st.sorted_index.take st.n_sorted ∧
    st1.n_sorted = st.n_sorted + 1 ∧
    st1.sorted_index = st.sorted_index.set st.n_sorted (fm_black st) ∧
    st1.sorted_index.take st1.n_sorted =
      st.sorted_index.take st.n_sorted ++ [fm_black st] := by
  obtain ⟨top, q, hpop, hrad, rfl⟩ := fm_iter_true mesh upd radio st st1 hit
  have hpc := cola_pop_black_cons st.color st.cola q top hpop
  have hb : fm_black st = top.2 := fm_black_eq st top q hpop
  have htop : top.2 < n := hwf.cola_lt top hpc.2.1
  have hlt : st.n_sorted < n := hwf.n_sorted_lt top.2 htop hpc.1
  have hfr := fm_link_loop_frame mesh upd (mesh.link top.2)
    { st with color := st.color.set top.2 BLACK, cola := q,
              sorted_index := st.sorted_index.set st.n_sorted top.2,
              n_sorted := st.n_sorted + 1 }
  rw [hb]
  refine ⟨hlt, htop, hpc.1, ?_, ?_, ?_, ?_⟩
  · intro hmem
    exact hpc.1 (hwf.sorted_black _ hmem).2
  · rw [hfr.n_sorted_eq]
  · rw [hfr.sorted_eq]
  · rw [hfr.n_sorted_eq, hfr.sorted_eq]
    exact take_succ_set st.sorted_index st.n_sorted top.2 (by rw [hwf.sorted_len]; exact hlt)

/-- C16. After any number `j` of passes of the main loop of Fast Marching from an
in-range source list, the entries `sorted_index[0..n_sorted)` are pairwise distinct
vertex ids below `n_vertices`, `n_sorted <= n_vertices`, the array keeps its length
`n_vertices` and every entry at a position `>= n_sorted` is still `NIL`. A pass that
appends a vertex finds `n_sorted < n_vertices` (the write `sorted_index[n_sorted++]` is
in bounds) and appends the vertex `black_i` it popped, which was not `BLACK` and not in
the sorted order before: the order is the order of finalization. -/
theorem fast_marching_sorted_distinct (mesh : che K) (upd : che K → List D → index_t → D)
    (sources : List index_t) (cluster : Bool) (radio : D) (j : Nat)
    (hlt : ∀ s ∈ sources, s < mesh.n_vertices) :
    let st := fm_loop mesh upd radio j
      (fm_start (geodesics.alloc mesh.n_vertices cluster : geodesics D) sources)
    (st.sorted_index.take st.n_sorted).Nodup ∧
    (∀ x ∈ st.sorted_index.take st.n_sorted, x < mesh.n_vertices) ∧
    st.n_sorted ≤ mesh.n_vertices ∧
    st.sorted_index.length = mesh.n_vertices ∧
    (∀ i, st.n_sorted ≤ i → st.sorted_index.getD i NIL = NIL) ∧
    ∀ st1, fm_iter mesh upd radio st = (true, st1) →
      st.n_sorted < mesh.n_vertices ∧ fm_black st < mesh.n_vertices ∧
      st.color.getD (fm_black st) NIL ≠ BLACK ∧
      fm_black st ∉ st.sorted_index.take st.n_sorted ∧
      st1.n_sorted = st.n_sorted + 1 ∧
      st1.sorted_index = st.sorted_index.set st.n_sorted (fm_black st) ∧
      st1.sorted_index.take st1.n_sorted =
        st.sorted_index.take st.n_sorted ++ [fm_black st] := by
  intro st
  have hwf : fm_wf mesh.n_vertices st :=
    fm_loop_wf mesh upd radio mesh.n_vertices j _
      (fm_start_wf (D := D) mesh.n_vertices cluster sources hlt)
  refine ⟨hwf.nodup, fun x hx => (hwf.sorted_black x hx).1, hwf.n_sorted_le, hwf.sorted_len,
    ?_, ?_⟩
  · exact fm_loop_tail mesh upd radio j _
      (fun i _ => fm_start_tail (D := D) mesh.n_vertices cluster sources i)
  · intro st1 hit
    exact fm_iter_append mesh upd radio mesh.n_vertices st st1 hwf hit

theorem fast_marching_sorted_distinct_witness :
    (∀ s ∈ ([0, 1] : List index_t), s < (obtuse_mesh ℚ).n_vertices) ∧
    (obtuse_state_1.sorted_index.take obtuse_state_1.n_sorted).Nodup ∧
    (∀ x ∈ obtuse_state_1.sorted_index.take obtuse_state_1.n_sorted,
      x < (obtuse_mesh ℚ).n_vertices) ∧
    obtuse_state_1.n_sorted ≤ (obtuse_mesh ℚ).n_vertices ∧
    obtuse_state_1.sorted_index.length = (obtuse_mesh ℚ).n_vertices ∧
    (∀ i, obtuse_state_1.n_sorted ≤ i → obtuse_state_1.sorted_index.getD i NIL = NIL) ∧
    ∀ st1, fm_iter (obtuse_mesh ℚ) (update_step qsqrt) ⊤ obtuse_state_1 =
        (true, st1) →
      obtuse_state_1.n_sorted < (obtuse_mesh ℚ).n_vertices ∧
      fm_black obtuse_state_1 < (obtuse_mesh ℚ).n_vertices ∧
      obtuse_state_1.color.getD (fm_black obtuse_state_1) NIL ≠ BLACK ∧
      fm_black obtuse_state_1 ∉ obtuse_state_1.sorted_index.take obtuse_state_1.n_sorted ∧
      st1.n_sorted = obtuse_state_1.n_sorted + 1 ∧
      st1.sorted_index = obtuse_state_1.sorted_index.set obtuse_state_1.n_sorted
        (fm_black obtuse_state_1) ∧
      st1.sorted_index.take st1.n_sorted =
        obtuse_state_1.sorted_index.take obtuse_state_1.n_sorted ++ [fm_black obtuse_state_1] :=
  ⟨by decide,
    fast_marching_sorted_distinct (obtuse_mesh ℚ) (update_step qsqrt) [0, 1] false
      ⊤ 1 (by decide)⟩

end claim_sorted_distinct

section claim_unfold_root

variable {K : Type} [LinearOrderedField K]

/-- The inverse `Q` of the Gram matrix of `X`: it is symmetric, `Q * (X.t() * X)` is
the identity, and `ones.t() * Q * ones` is positive. -/
theorem inv_sympd_inverse (X : vertex K × vertex K) (Q : mat22 K)
    (h : inv_sympd (gram X) = some Q) :
    Q.m01 = Q.m10 ∧
    Q.m00 * X.1.dot X.1 + Q.m01 * X.1.dot X.2 = 1 ∧
    Q.m00 * X.1.dot X.2 + Q.m01 * X.2.dot X.2 = 0 ∧
    Q.m10 * X.1.dot X.1 + Q.m11 * X.1.dot X.2 = 0 ∧
    Q.m10 * X.1.dot X.2 + Q.m11 * X.2.dot X.2 = 1 ∧
    0 < Q.sum := by
  obtain ⟨ha, hdet, h00, h01, h10, h11⟩ := inv_sympd_gram X Q h
  have hne : X.1.dot X.1 * X.2.dot X.2 - X.1.dot X.2 * X.1.dot X.2 ≠ 0 := ne_of_gt hdet
  refine ⟨by rw [h01, h10], ?_, ?_, ?_, ?_, ?_⟩
  · rw [h00, h01]; field_simp; ring
  · rw [h00, h01]; field_simp; ring
  · rw [h10, h11]; field_simp; ring
  · rw [h10, h11]; field_simp; ring
  · unfold mat22.sum
    rw [h00, h01, h10, h11]
    set A := X.1.dot X.1
    set B := X.1.dot X.2
    set C := X.2.dot X.2
    have hC : 0 < C := by
      by_contra hC
      rw [not_lt] at hC
      nlinarith [mul_self_nonneg B, mul_nonneg (le_of_lt ha) (neg_nonneg.mpr hC)]
    have hpos : 0 < A - 2 * B + C := by
      by_contra hcon
      rw [not_lt] at hcon
      have hB : 0 < B := by linarith
      nlinarith [mul_self_nonneg (A - C), mul_pos hB hB]
    have e : C / (A * C - B * B) + -B / (A * C - B * B) +
        (-B / (A * C - B * B) + A / (A * C - B * B)) = (A - 2 * B + C) / (A * C - B * B) := by
      field_simp; ring
    rw [e]
    exact div_pos hpos hdet

/-- The algebra of the planar unfold for a square root `sqrt` that is exact on the
discriminant. -/
theorem planar_unfold_algebra (sqrt : K → K) (X : vertex K × vertex K) (Q : mat22 K)
    (hQ : inv_sympd (gram X) = some Q) (a b : K)
    (hsq : sqrt (planar_dis Q a b) * sqrt (planar_dis Q a b) = planar_dis Q a b)
    (hsn : 0 ≤ sqrt (planar_dis Q a b)) :
    Q.sum * planar_p sqrt Q a b * planar_p sqrt Q a b -
        2 * Q.ones_mul a b * planar_p sqrt Q a b + (Q.quad a b - 1) = 0 ∧
    (∀ r : K, Q.sum * r * r - 2 * Q.ones_mul a b * r + (Q.quad a b - 1) = 0 →
      r ≤ planar_p sqrt Q a b) ∧
    (planar_n X Q a b (planar_p sqrt Q a b)).dot (planar_n X Q a b (planar_p sqrt Q a b)) = 1 ∧
    X.1.dot (planar_n X Q a b (planar_p sqrt Q a b)) = a - planar_p sqrt Q a b ∧
    X.2.dot (planar_n X Q a b (planar_p sqrt Q a b)) = b - planar_p sqrt Q a b := by
  obtain ⟨hsym, e1, e2, e3, e4, hk⟩ := inv_sympd_inverse X Q hQ
  have hkne : Q.sum ≠ 0 := ne_of_gt hk
  have hss : sqrt (planar_dis Q a b) * sqrt (planar_dis Q a b) =
      Q.ones_mul a b * Q.ones_mul a b - Q.sum * (Q.quad a b - 1) := by
    rw [hsq]; rfl
  set s := sqrt (planar_dis Q a b)
  have hkp : Q.sum * planar_p sqrt Q a b = Q.ones_mul a b + s := by
    unfold planar_p
    field_simp
  set p := planar_p sqrt Q a b
  have hroot : Q.sum * p * p - 2 * Q.ones_mul a b * p + (Q.quad a b - 1) = 0 := by
    have hmul : Q.sum * (Q.sum * p * p - 2 * Q.ones_mul a b * p + (Q.quad a b - 1)) = 0 := by
      linear_combination (Q.sum * p - Q.ones_mul a b + s) * hkp + hss
    rcases mul_eq_zero.mp hmul with h | h
    · exact absurd h hkne
    · exact h
  have hx1 : X.1.dot (planar_n X Q a b p) = a - p := by
    have : X.1.dot (planar_n X Q a b p) =
        (a - p) * (Q.m00 * X.1.dot X.1 + Q.m10 * X.1.dot X.2) +
        (b - p) * (Q.m01 * X.1.dot X.1 + Q.m11 * X.1.dot X.2) := by
      simp only [planar_n, vertex.comb, vertex.dot]; ring
    rw [this, ← hsym, e1, hsym, e3]; ring
  have hx2 : X.2.dot (planar_n X Q a b p) = b - p := by
    have : X.2.dot (planar_n X Q a b p) =
        (a - p) * (Q.m00 * X.1.dot X.2 + Q.m10 * X.2.dot X.2) +
        (b - p) * (Q.m01 * X.1.dot X.2 + Q.m11 * X.2.dot X.2) := by
      simp only [planar_n, vertex.comb, vertex.dot]; ring
    rw [this, ← hsym, e2, hsym, e4]; ring
  refine ⟨hroot, ?_, ?_, hx1, hx2⟩
  · intro r hr
    have hsq2 : (Q.sum * r - Q.ones_mul a b) * (Q.sum * r - Q.ones_mul a b) = s * s := by
      linear_combination Q.sum * hr - hss
    have hle : Q.sum * r - Q.ones_mul a b ≤ s := by
      by_contra hcon
      rw [not_le] at hcon
      nlinarith [mul_pos (lt_of_le_of_lt hsn hcon) (sub_pos.mpr hcon)]
    have : Q.sum * r ≤ Q.sum * p := by rw [hkp]; linarith
    exact le_of_mul_le_mul_left this hk
  · have hnn : (planar_n X Q a b p).dot (planar_n X Q a b p) =
        (Q.m00 * (a - p) + Q.m01 * (b - p)) * X.1.dot (planar_n X Q a b p) +
        (Q.m10 * (a - p) + Q.m11 * (b - p)) * X.2.dot (planar_n X Q a b p) := by
      simp only [planar_n, vertex.comb, vertex.dot]; ring
    rw [hnn, hx1, hx2]
    have hq : Q.quad a b = (a * Q.m00 + b * Q.m10) * a + (a * Q.m01 + b * Q.m11) * b := rfl
    have ho : Q.ones_mul a b = (Q.m00 + Q.m10) * a + (Q.m01 + Q.m11) * b := rfl
    have hs : Q.sum = (Q.m00 + Q.m10) + (Q.m01 + Q.m11) := rfl
    rw [hq, ho, hs] at hroot
    linear_combination hroot + (p * (b - a)) * hsym

/-- C17. Over the real numbers, for a triangle with an invertible Gram matrix (inverse
`Q`) and finite neighbour distances `a`, `b` with `dis >= 0`, the value
`p = (delta + sqrt(dis)) / k` of lines 293-294, with `delta = ones.t() * Q * t`,
`k = ones.t() * Q * ones` and `dis = delta * delta - k * (t.t() * Q * t - 1)`, is a root
of `k p^2 - 2 delta p + (t.t() * Q * t - 1) = 0` and no root is larger; the vector
`n = X * Q * (t - p * ones)` of line 298 has `n . n = 1` and `X.t() * n = t - p * ones`;
and `p` is what `planar_update` returns when both components of `cond` are negative. -/
theorem planar_unfold_root (X : vertex ℝ × vertex ℝ) (Q : mat22 ℝ)
    (hQ : inv_sympd (gram X) = some Q) (a b : ℝ) (hdis : 0 ≤ planar_dis Q a b) :
    planar_dis Q a b = Q.ones_mul a b * Q.ones_mul a b - Q.sum * (Q.quad a b - 1) ∧
    planar_p Real.sqrt Q a b =
      (Q.ones_mul a b + Real.sqrt (planar_dis Q a b)) / Q.sum ∧
    0 < Q.sum ∧
    Q.sum * planar_p Real.sqrt Q a b * planar_p Real.sqrt Q a b -
        2 * Q.ones_mul a b * planar_p Real.sqrt Q a b + (Q.quad a b - 1) = 0 ∧
    (∀ r : ℝ, Q.sum * r * r - 2 * Q.ones_mul a b * r + (Q.quad a b - 1) = 0 →
      r ≤ planar_p Real.sqrt Q a b) ∧
    (planar_n X Q a b (planar_p Real.sqrt Q a b)).dot
      (planar_n X Q a b (planar_p Real.sqrt Q a b)) = 1 ∧
    X.1.dot (planar_n X Q a b (planar_p Real.sqrt Q a b)) = a - planar_p Real.sqrt Q a b ∧
    X.2.dot (planar_n X Q a b (planar_p Real.sqrt Q a b)) = b - planar_p Real.sqrt Q a b ∧
    ∀ (distances : List (WithTop ℝ)) (d : index_t) (x : index_t × index_t × index_t),
      distances.getD x.1 ⊤ = (a : WithTop ℝ) →
      distances.getD x.2.1 ⊤ = (b : WithTop ℝ) →
      (planar_cond X Q (planar_n X Q a b (planar_p Real.sqrt Q a b))).1 < 0 →
      (planar_cond X Q (planar_n X Q a b (planar_p Real.sqrt Q a b))).2 < 0 →
      planar_update Real.sqrt distances d X x =
        (((planar_p Real.sqrt Q a b : ℝ) : WithTop ℝ), d) := by
  obtain ⟨h1, h2, h3, h4, h5⟩ := planar_unfold_algebra Real.sqrt X Q hQ a b
    (Real.mul_self_sqrt hdis) (Real.sqrt_nonneg _)
  refine ⟨rfl, rfl, (inv_sympd_inverse X Q hQ).2.2.2.2.2, h1, h2, h3, h4, h5, ?_⟩
  intro distances d x h0 hb hc0 hc1
  rw [planar_cond_eq X Q hQ] at hc0 hc1
  exact planar_update_unfold Real.sqrt distances d X x Q a b hQ h0 hb hdis hc0 hc1

theorem planar_unfold_root_witness :
    inv_sympd (gram (apex_X ℝ)) = some (apex_Q ℝ) ∧ 0 ≤ planar_dis (apex_Q ℝ) 0 0 ∧
    (apex_Q ℝ).sum * planar_p Real.sqrt (apex_Q ℝ) 0 0 * planar_p Real.sqrt (apex_Q ℝ) 0 0 -
        2 * (apex_Q ℝ).ones_mul 0 0 * planar_p Real.sqrt (apex_Q ℝ) 0 0 +
        ((apex_Q ℝ).quad 0 0 - 1) = 0 ∧
    (planar_n (apex_X ℝ) (apex_Q ℝ) 0 0 (planar_p Real.sqrt (apex_Q ℝ) 0 0)).dot
      (planar_n (apex_X ℝ) (apex_Q ℝ) 0 0 (planar_p Real.sqrt (apex_Q ℝ) 0 0)) = 1 :=
  ⟨by norm_num [inv_sympd, gram, apex_X, apex_Q, vertex.dot],
    by norm_num [planar_dis, apex_Q, mat22.ones_mul, mat22.sum, mat22.quad],
    (planar_unfold_root (apex_X ℝ) (apex_Q ℝ)
      (by norm_num [inv_sympd, gram, apex_X, apex_Q, vertex.dot]) 0 0
      (by norm_num [planar_dis, apex_Q, mat22.ones_mul, mat22.sum, mat22.quad])).2.2.2.1,
    (planar_unfold_root (apex_X ℝ) (apex_Q ℝ)
      (by norm_num [inv_sympd, gram, apex_X, apex_Q, vertex.dot]) 0 0
      (by norm_num [planar_dis, apex_Q, mat22.ones_mul, mat22.sum, mat22.quad])).2.2.2.2.2.1⟩

end claim_unfold_root

section claim_lazy_deletion

variable {K D : Type} [LinearOrder D] [OrderTop D] [Zero D]

theorem fm_loop_queue (mesh : che K) (upd : che K → List D → index_t → D) (radio : D)
    (n gc : Nat) (st : fm_state D) (hwf : fm_wf n st) (h : fm_queue st) :
    fm_queue (fm_loop mesh upd radio gc st) := by
  induction gc generalizing st with
  | zero => exact h
  | succ gc ih =>
    rw [fm_loop_succ]
    have h1 := fm_iter_queue mesh upd radio n st hwf h
    have hwf1 := fm_iter_wf mesh upd radio n st hwf
    split
    · exact ih _ hwf1 h1
    · exact h1

/-- The key of the entry that the main loop pops is the current distance of its
vertex. -/
theorem fm_queue.top_key {st : fm_state D} (h : fm_queue st) (top : D × index_t)
    (q : List (D × index_t)) (hpop : cola_pop_black st.color st.cola = top :: q) :
    top.1 = st.distances.getD top.2 ⊤ := by
  obtain ⟨hcol, hmem, _, hall⟩ := cola_pop_black_cons _ _ _ _ hpop
  have hsorted := cola_pop_black_sorted _ _ _ _ h.sorted hpop
  have hge := h.key_ge top hmem hcol
  refine le_antisymm ?_ hge
  by_cases hred : st.color.getD top.2 NIL = RED
  · by_cases hfin : st.distances.getD top.2 ⊤ < ⊤
    · have hin := h.red_mem top.2 hred hfin
      rcases hall _ hin with e | e | e
      · rw [← e]
      · exact pair_not_lt_key top _ ((List.pairwise_cons.mp hsorted).1 _ e)
      · exact absurd e hcol
    · rw [not_lt, top_le_iff] at hfin
      rw [hfin]; exact le_top
  · rw [h.other_top top.2 hred hcol]; exact le_top

/-- The vertex that a pass of the main loop pops keeps its distance in that pass and is
`BLACK` after it. -/
theorem fm_iter_black_keeps (mesh : che K) (upd : che K → List D → index_t → D) (radio : D)
    (n : Nat) (st : fm_state D) (hwf : fm_wf n st) (top : D × index_t)
    (q : List (D × index_t)) (hpop : cola_pop_black st.color st.cola = top :: q) :
    (fm_iter mesh upd radio st).2.distances.getD top.2 ⊤ = st.distances.getD top.2 ⊤ ∧
    (fm_iter mesh upd radio st).2.color.getD top.2 NIL = BLACK := by
  obtain ⟨_, hmem, _, _⟩ := cola_pop_black_cons _ _ _ _ hpop
  have hlen : top.2 < st.color.length := by rw [hwf.color_len]; exact hwf.cola_lt top hmem
  have hb : (st.color.set top.2 BLACK).getD top.2 NIL = BLACK :=
    getD_set_eq _ _ _ _ hlen
  rcases hres : fm_iter mesh upd radio st with ⟨b, st1⟩
  cases b with
  | true =>
    obtain ⟨top1, q1, hpop1, _, rfl⟩ := fm_iter_true mesh upd radio st st1 hres
    rw [hpop] at hpop1
    obtain ⟨rfl, rfl⟩ := List.cons.inj hpop1
    have hfr := fm_link_loop_frame mesh upd (mesh.link top.2)
      { st with color := st.color.set top.2 BLACK, cola := q,
                sorted_index := st.sorted_index.set st.n_sorted top.2,
                n_sorted := st.n_sorted + 1 }
    exact ⟨hfr.dist_black top.2 hb, (hfr.black_iff top.2).mpr hb⟩
  | false =>
    rcases fm_iter_false mesh upd radio st st1 hres with
      ⟨hnil, rfl⟩ | ⟨hnil, rfl⟩ | ⟨top1, q1, hpop1, _, rfl⟩
    · rw [hnil] at hpop
      simp [cola_pop_black] at hpop
    · rw [hnil] at hpop
      simp at hpop
    · rw [hpop] at hpop1
      obtain ⟨rfl, rfl⟩ := List.cons.inj hpop1
      exact ⟨rfl, hb⟩

theorem fm_loop_black_keeps (mesh : che K) (upd : che K → List D → index_t → D) (radio : D)
    (n gc : Nat) (st : fm_state D) (hwf : fm_wf n st) (top : D × index_t)
    (q : List (D × index_t)) (hpop : cola_pop_black st.color st.cola = top :: q) :
    (fm_loop mesh upd radio (gc + 1) st).distances.getD top.2 ⊤ =
      st.distances.getD top.2 ⊤ := by
  have h1 := fm_iter_black_keeps mesh upd radio n st hwf top q hpop
  rw [fm_loop_succ]
  split
  · rw [((fm_loop_le_black mesh upd radio gc _ top.2).2 h1.2).1, h1.1]
  · exact h1.1

/-- C18. Lazy deletion is sound. After any number `j` of passes of the main loop of
Fast Marching from an in-range source list: every vertex that is not `BLACK` and has a
finite distance has a queue entry whose key is its current distance; no entry of a
vertex that is not `BLACK` has a key below the current distance of the vertex; and the
entry `top` that the next pass pops (the first whose vertex is not `BLACK`) has as key
the current distance of its vertex, which is the least current distance of all
vertices that are not `BLACK` and is the distance the vertex keeps in every later
state. -/
theorem fast_marching_lazy_deletion (mesh : che K) (upd : che K → List D → index_t → D)
    (sources : List index_t) (cluster : Bool) (radio : D) (j : Nat)
    (hlt : ∀ s ∈ sources, s < mesh.n_vertices) :
    let st := fm_loop mesh upd radio j
      (fm_start (geodesics.alloc mesh.n_vertices cluster : geodesics D) sources)
    (∀ u, st.color.getD u NIL ≠ BLACK → st.distances.getD u ⊤ < ⊤ →
      (st.distances.getD u ⊤, u) ∈ st.cola) ∧
    (∀ e ∈ st.cola, st.color.getD e.2 NIL ≠ BLACK → st.distances.getD e.2 ⊤ ≤ e.1) ∧
    ∀ top q, cola_pop_black st.color st.cola = top :: q →
      top.1 = st.distances.getD top.2 ⊤ ∧
      (∀ u, st.color.getD u NIL ≠ BLACK → top.1 ≤ st.distances.getD u ⊤) ∧
      ∀ green_count, (fm_loop mesh upd radio (green_count + 1) st).distances.getD top.2 ⊤ =
        top.1 := by
  intro st
  have hwf : fm_wf mesh.n_vertices st :=
    fm_loop_wf mesh upd radio mesh.n_vertices j _
      (fm_start_wf (D := D) mesh.n_vertices cluster sources hlt)
  have hq : fm_queue st :=
    fm_loop_queue mesh upd radio mesh.n_vertices j _
      (fm_start_wf (D := D) mesh.n_vertices cluster sources hlt)
      (fm_start_queue (D := D) mesh.n_vertices cluster sources hlt)
  refine ⟨?_, hq.key_ge, ?_⟩
  · intro u hu hfin
    by_cases hred : st.color.getD u NIL = RED
    · exact hq.red_mem u hred hfin
    · rw [hq.other_top u hred hu] at hfin
      exact absurd hfin (lt_irrefl _)
  · intro top q hpop
    have hkey := hq.top_key top q hpop
    refine ⟨hkey, ?_, ?_⟩
    · intro u hu
      rw [hkey]
      exact hq.top_le top q hpop u hu
    · intro gc
      rw [hkey]
      exact fm_loop_black_keeps mesh upd radio mesh.n_vertices gc st hwf top q hpop

theorem fast_marching_lazy_deletion_witness :
    (∀ s ∈ ([0, 1] : List index_t), s < (obtuse_mesh ℚ).n_vertices) ∧
    (∀ u, obtuse_state_1.color.getD u NIL ≠ BLACK →
      obtuse_state_1.distances.getD u ⊤ < ⊤ →
      (obtuse_state_1.distances.getD u ⊤, u) ∈ obtuse_state_1.cola) ∧
    (∀ e ∈ obtuse_state_1.cola, obtuse_state_1.color.getD e.2 NIL ≠ BLACK →
      obtuse_state_1.distances.getD e.2 ⊤ ≤ e.1) ∧
    ∀ top q, cola_pop_black obtuse_state_1.color obtuse_state_1.cola = top :: q →
      top.1 = obtuse_state_1.distances.getD top.2 ⊤ ∧
      (∀ u, obtuse_state_1.color.getD u NIL ≠ BLACK →
        top.1 ≤ obtuse_state_1.distances.getD u ⊤) ∧
      ∀ green_count, (fm_loop (obtuse_mesh ℚ) (update_step qsqrt) ⊤ (green_count + 1)
        obtuse_state_1).distances.getD top.2 ⊤ = top.1 :=
  ⟨by decide,
    fast_marching_lazy_deletion (obtuse_mesh ℚ) (update_step qsqrt) [0, 1] false ⊤ 1
      (by decide)⟩

end claim_lazy_deletion

section claim_unbudgeted

variable {K D : Type} [LinearOrder D] [OrderTop D] [Zero D]

theorem fm_link_loop_cola_fin (mesh : che K) (upd : che K → List D → index_t → D)
    (hes : List index_t) (st : fm_state D)
    (h : ∀ e ∈ st.cola, st.distances.getD e.2 ⊤ < ⊤) :
    ∀ e ∈ (fm_link_loop mesh upd hes st).cola,
      (fm_link_loop mesh upd hes st).distances.getD e.2 ⊤ < ⊤ := by
  induction hes generalizing st with
  | nil => exact h
  | cons he hes ih =>
    unfold fm_link_loop
    apply ih
    intro e he1
    rcases (fm_link_step_cola mesh upd he st e).mp he1 with hold | ⟨rfl, _, hfin⟩
    · exact lt_of_le_of_lt ((fm_link_step_frame mesh upd he st).dist_le e.2) (h e hold)
    · exact hfin

theorem fm_iter_finite (mesh : che K) (upd : che K → List D → index_t → D)
    (n : Nat) (st : fm_state D) (hwf : fm_wf n st) (h : fm_finite st) :
    fm_finite (fm_iter mesh upd ⊤ st).2 := by
  rcases hit : fm_iter mesh upd ⊤ st with ⟨b, st1⟩
  cases b
  · rcases fm_iter_false mesh upd ⊤ st st1 hit with
      ⟨_, rfl⟩ | ⟨_, rfl⟩ | ⟨top, q, _, hrad, rfl⟩
    · exact h
    · exact ⟨by simp, h.sorted_fin, h.black_sorted⟩
    · exact absurd hrad not_top_lt
  · obtain ⟨top, q, hpop, hrad, rfl⟩ := fm_iter_true mesh upd ⊤ st st1 hit
    have hpc := cola_pop_black_cons st.color st.cola q top hpop
    have htop : top.2 < n := hwf.cola_lt top hpc.2.1
    have hlt : st.n_sorted < n := hwf.n_sorted_lt top.2 htop hpc.1
    have hfr := fm_link_loop_frame mesh upd (mesh.link top.2)
      { st with color := st.color.set top.2 BLACK, cola := q,
                sorted_index := st.sorted_index.set st.n_sorted top.2,
                n_sorted := st.n_sorted + 1 }
    have htake : (st.sorted_index.set st.n_sorted top.2).take (st.n_sorted + 1) =
        st.sorted_index.take st.n_sorted ++ [top.2] :=
      take_succ_set st.sorted_index st.n_sorted top.2 (by rw [hwf.sorted_len]; exact hlt)
    refine ⟨?_, ?_, ?_⟩
    · exact fm_link_loop_cola_fin mesh upd _ _ (fun e he => h.cola_fin e (hpc.2.2.1 e he))
    · intro x hx
      simp only [hfr.sorted_eq, hfr.n_sorted_eq] at hx
      rw [htake] at hx
      refine lt_of_le_of_lt (hfr.dist_le x) ?_
      rcases List.mem_append.mp hx with hx | hx
      · exact h.sorted_fin x hx
      · rw [List.mem_singleton.mp hx]
        exact h.cola_fin top hpc.2.1
    · intro u hu
      simp only [hfr.sorted_eq, hfr.n_sorted_eq]
      rw [htake]
      have hu1 := (hfr.black_iff u).mp hu
      by_cases hut : u = top.2
      · rw [hut]; simp
      · have : (st.color.set top.2 BLACK).getD u NIL = st.color.getD u NIL :=
          getD_set_ne _ _ _ _ _ (fun e => hut e.symm)
        simp only at hu1
        rw [this] at hu1
        exact List.mem_append_left _ (h.black_sorted u hu1)

theorem fm_loop_finite (mesh : che K) (upd : che K → List D → index_t → D)
    (n gc : Nat) (st : fm_state D) (hwf : fm_wf n st) (h : fm_finite st) :
    fm_finite (fm_loop mesh upd ⊤ gc st) := by
  induction gc generalizing st with
  | zero => exact h
  | succ gc ih =>
    rw [fm_loop_succ]
    have h1 := fm_iter_finite mesh upd n st hwf h
    have hwf1 := fm_iter_wf mesh upd ⊤ n st hwf
    split
    · exact ih _ hwf1 h1
    · exact h1

theorem fm_start_finite (n : Nat) (cluster : Bool) (sources : List index_t)
    (h0 : (0 : D) < ⊤) (hlt : ∀ s ∈ sources, s < n) :
    fm_finite (fm_start (geodesics.alloc n cluster : geodesics D) sources) := by
  obtain ⟨hdl, hcl, hsi, hns, hd, hc, hcola, _⟩ := fm_start_spec (D := D) n cluster sources
  refine ⟨?_, ?_, ?_⟩
  · intro e he
    rw [hd, if_pos ⟨hcola e he, hlt _ (hcola e he)⟩]
    exact h0
  · intro x hx
    rw [hns] at hx
    simp at hx
  · intro u hu
    exfalso
    by_cases hun : u < n
    · rw [hc u hun] at hu
      split at hu
      · simp [RED, BLACK] at hu
      · simp [GREEN, BLACK] at hu
    · rw [getD_oob _ _ _ (by rw [hcl]; omega)] at hu
      simp [NIL, BLACK] at hu

/-- In the final state of a run without budget and without radius bound the vertices of
the sorted order are the vertices at a finite distance, and no `RED` vertex is at a
finite distance. -/
theorem fm_loop_complete (mesh : che K) (upd : che K → List D → index_t → D)
    (n : Nat) (cluster : Bool) (sources : List index_t)
    (h0 : (0 : D) < ⊤) (hlt : ∀ s ∈ sources, s < n) :
    let st := fm_loop mesh upd ⊤ n (fm_start (geodesics.alloc n cluster : geodesics D) sources)
    (∀ u, u < n →
      (u ∈ st.sorted_index.take st.n_sorted ↔ st.distances.getD u ⊤ < ⊤)) ∧
    (∀ u, st.color.getD u NIL = RED → st.distances.getD u ⊤ = ⊤) := by
  intro st
  have hwf0 := fm_start_wf (D := D) n cluster sources hlt
  have hwf : fm_wf n st := fm_loop_wf mesh upd ⊤ n n _ hwf0
  have hq : fm_queue st := fm_loop_queue mesh upd ⊤ n n _ hwf0
    (fm_start_queue (D := D) n cluster sources hlt)
  have hfin : fm_finite st := fm_loop_finite mesh upd n n _ hwf0
    (fm_start_finite (D := D) n cluster sources h0 hlt)
  have hcount := (fm_loop_count mesh upd n
    (fm_start (geodesics.alloc n cluster : geodesics D) sources)).1
  rw [(fm_start_spec (D := D) n cluster sources).2.2.2.1, Nat.zero_add] at hcount
  have hiff : ∀ u, u < n →
      (u ∈ st.sorted_index.take st.n_sorted ↔ st.distances.getD u ⊤ < ⊤) := by
    intro u hu
    refine ⟨hfin.sorted_fin u, ?_⟩
    intro hd
    rcases hcount with hfull | hempty
    · refine nodup_full_mem _ n u hwf.nodup (fun x hx => (hwf.sorted_black x hx).1) ?_ hu
      rw [List.length_take, hwf.sorted_len]
      show min st.n_sorted n = n
      rw [hfull]
      exact min_self n
    · apply hfin.black_sorted
      by_contra hnb
      by_cases hred : st.color.getD u NIL = RED
      · have hmem := hq.red_mem u hred hd
        have hemp : st.cola = [] := hempty
        rw [hemp] at hmem
        simp at hmem
      · rw [hq.other_top u hred hnb] at hd
        exact absurd hd (lt_irrefl _)
  refine ⟨hiff, ?_⟩
  intro u hred
  by_contra hne
  have hd : st.distances.getD u ⊤ < ⊤ := lt_of_le_of_ne le_top hne
  have hun : u < n := by
    rw [← hwf.color_len]
    exact getD_ne_NIL_lt st.color u RED hred (by decide)
  have hb := (hwf.sorted_black u ((hiff u hun).mpr hd)).2
  rw [hred] at hb
  simp [RED, BLACK] at hb

theorem mem_take_iff_getD (l : List index_t) (k : Nat) (hk : k ≤ l.length) (u : index_t) :
    u ∈ l.take k ↔ ∃ i, i < k ∧ l.getD i NIL = u := by
  rw [← map_getD_range l k hk, List.mem_map]
  constructor
  · rintro ⟨i, hi, rfl⟩
    exact ⟨i, List.mem_range.mp hi, rfl⟩
  · rintro ⟨i, hi, rfl⟩
    exact ⟨i, List.mem_range.mpr hi, rfl⟩

end claim_unbudgeted

section claim_unbudgeted_run

variable {K : Type} [LinearOrderedField K]

/-- C19. For a run of Fast Marching without budget (`n_iter = 0`) and without radius
bound (`radio = INFINITY`) from an in-range non-empty source list: a vertex occurs in
`sorted_index[0..n_sorted)` if and only if its final distance is finite, `n_sorted` is
the number of vertices at a finite distance, and no vertex that is `RED` when the loop
ends is at a finite distance. -/
theorem fast_marching_unbudgeted_complete (mesh : che K)
    (upd : che K → List (WithTop K) → index_t → WithTop K)
    (engine : option_t → geodesics (WithTop K) → geodesics (WithTop K))
    (sources : List index_t) (cluster : Bool)
    (hn : 0 < mesh.n_vertices) (hs : sources ≠ [])
    (hlt : ∀ s ∈ sources, s < mesh.n_vertices) :
    ∃ g, geodesics.create mesh upd engine sources option_t.FM cluster 0 ⊤ = some g ∧
      (∀ u, u < mesh.n_vertices →
        ((∃ i, i < g.n_sorted ∧ g.sorted_index.getD i NIL = u) ↔
          g.distances.getD u ⊤ < ⊤)) ∧
      g.n_sorted = ((List.range mesh.n_vertices).filter
        (fun u => decide (g.distances.getD u ⊤ < ⊤))).length ∧
      ∀ u, (fm_loop mesh upd ⊤ mesh.n_vertices
          (fm_start (geodesics.alloc mesh.n_vertices cluster : geodesics (WithTop K))
            sources)).color.getD u NIL = RED →
        g.distances.getD u ⊤ = ⊤ := by
  have h0 : (0 : WithTop K) < ⊤ := WithTop.top_pos
  refine ⟨_, create_FM mesh upd engine sources cluster 0 ⊤ hn hs, ?_⟩
  have hg0 : fm_green_count (geodesics.alloc mesh.n_vertices cluster : geodesics (WithTop K)) 0 =
      mesh.n_vertices := by
    unfold fm_green_count
    rw [if_neg (by simp)]
    rfl
  simp only [geodesics.run_fastmarching, hg0]
  obtain ⟨hiff, hred⟩ := fm_loop_complete mesh upd mesh.n_vertices cluster sources h0 hlt
  have hwf := fm_loop_wf mesh upd ⊤ mesh.n_vertices mesh.n_vertices _
    (fm_start_wf (D := WithTop K) mesh.n_vertices cluster sources hlt)
  set st := fm_loop mesh upd ⊤ mesh.n_vertices
    (fm_start (geodesics.alloc mesh.n_vertices cluster : geodesics (WithTop K)) sources)
  have hle : st.n_sorted ≤ st.sorted_index.length := by
    rw [hwf.sorted_len]; exact hwf.n_sorted_le
  refine ⟨?_, ?_, hred⟩
  · intro u hu
    rw [← mem_take_iff_getD st.sorted_index st.n_sorted hle u]
    exact hiff u hu
  · have hperm : (st.sorted_index.take st.n_sorted).Perm
        ((List.range mesh.n_vertices).filter
          (fun u => decide (st.distances.getD u ⊤ < ⊤))) := by
      rw [List.perm_ext_iff_of_nodup hwf.nodup ((List.nodup_range _).filter _)]
      intro u
      rw [List.mem_filter, List.mem_range, decide_eq_true_eq]
      constructor
      · intro hu
        have hun := (hwf.sorted_black u hu).1
        exact ⟨hun, (hiff u hun).mp hu⟩
      · rintro ⟨hun, hd⟩
        exact (hiff u hun).mpr hd
    rw [← hperm.length_eq, List.length_take]
    exact (min_eq_left hle).symm

theorem fast_marching_unbudgeted_complete_witness :
    0 < (split_mesh ℚ).n_vertices ∧ ([0] : List index_t) ≠ [] ∧
    (∀ s ∈ ([0] : List index_t), s < (split_mesh ℚ).n_vertices) ∧
    ∃ g, geodesics.create (split_mesh ℚ) (update_step qsqrt) (fun _ g => g) [0]
        option_t.FM false 0 ⊤ = some g ∧
      (∀ u, u < (split_mesh ℚ).n_vertices →
        ((∃ i, i < g.n_sorted ∧ g.sorted_index.getD i NIL = u) ↔
          g.distances.getD u ⊤ < ⊤)) ∧
      g.n_sorted = ((List.range (split_mesh ℚ).n_vertices).filter
        (fun u => decide (g.distances.getD u ⊤ < ⊤))).length ∧
      ∀ u, (fm_loop (split_mesh ℚ) (update_step qsqrt) ⊤ (split_mesh ℚ).n_vertices
          (fm_start (geodesics.alloc (split_mesh ℚ).n_vertices false :
            geodesics (WithTop ℚ)) [0])).color.getD u NIL = RED →
        g.distances.getD u ⊤ = ⊤ :=
  ⟨by decide, by decide, by decide,
    fast_marching_unbudgeted_complete (split_mesh ℚ) (update_step qsqrt) (fun _ g => g) [0]
      false (by decide) (by decide) (by decide)⟩

end claim_unbudgeted_run

section claim_normalize_frame

variable {K : Type} [LinearOrderedField K]

theorem normalize_loop_frame (max : WithTop K) (sorted_index : List index_t)
    (is : List Nat) (distances : List (WithTop K)) (u : index_t)
    (hu : ∀ i ∈ is, sorted_index.getD i NIL ≠ u) :
    (normalize_loop max sorted_index is distances).getD u ⊤ = distances.getD u ⊤ := by
  induction is generalizing distances with
  | nil => rfl
  | cons i rest ih =>
    unfold normalize_loop
    simp only
    rw [ih _ (fun k hk => hu k (List.mem_cons_of_mem _ hk))]
    exact getD_set_ne _ _ _ _ _ (hu i (List.mem_cons_self _ _))

/-- C20. When `n_sorted > 0`, `normalize()` leaves `sorted_index`, `n_sorted`,
`clusters`, `n_vertices` and the length of `distances` as they are, and it leaves the
distance of every vertex that is not among `sorted_index[0..n_sorted)` as it is,
whatever that distance is. -/
theorem geodesics_normalize_frame (np : List (WithTop K) → Nat → List (WithTop K))
    (g : geodesics (WithTop K)) (hpos : 0 < g.n_sorted) :
    (g.normalize np).sorted_index = g.sorted_index ∧
    (g.normalize np).n_sorted = g.n_sorted ∧
    (g.normalize np).clusters = g.clusters ∧
    (g.normalize np).n_vertices = g.n_vertices ∧
    (g.normalize np).distances.length = g.distances.length ∧
    ∀ u, (∀ i, i < g.n_sorted → g.sorted_index.getD i NIL ≠ u) →
      (g.normalize np).distances.getD u ⊤ = g.distances.getD u ⊤ := by
  obtain ⟨h1, h2, h3, h4, h5⟩ := normalize_fields np g hpos
  refine ⟨h1, h2, h3, h4, h5, ?_⟩
  intro u hu
  unfold geodesics.normalize
  rw [if_neg (by omega)]
  exact normalize_loop_frame _ _ _ _ u (fun i hi => hu i (List.mem_range.mp hi))

theorem geodesics_normalize_frame_witness :
    0 < (obtuse_result_1 ℚ).n_sorted ∧
    ((obtuse_result_1 ℚ).normalize (fun d _ => d)).sorted_index =
      (obtuse_result_1 ℚ).sorted_index ∧
    ((obtuse_result_1 ℚ).normalize (fun d _ => d)).n_sorted = (obtuse_result_1 ℚ).n_sorted ∧
    ((obtuse_result_1 ℚ).normalize (fun d _ => d)).clusters = (obtuse_result_1 ℚ).clusters ∧
    ((obtuse_result_1 ℚ).normalize (fun d _ => d)).n_vertices =
      (obtuse_result_1 ℚ).n_vertices ∧
    ((obtuse_result_1 ℚ).normalize (fun d _ => d)).distances.length =
      (obtuse_result_1 ℚ).distances.length ∧
    ((obtuse_result_1 ℚ).normalize (fun d _ => d)).distances.getD 2 ⊤ =
      ((50 : ℚ) : WithTop ℚ) :=
  ⟨by decide,
    (geodesics_normalize_frame (fun d _ => d) (obtuse_result_1 ℚ) (by decide)).1,
    (geodesics_normalize_frame (fun d _ => d) (obtuse_result_1 ℚ) (by decide)).2.1,
    (geodesics_normalize_frame (fun d _ => d) (obtuse_result_1 ℚ) (by decide)).2.2.1,
    (geodesics_normalize_frame (fun d _ => d) (obtuse_result_1 ℚ) (by decide)).2.2.2.1,
    (geodesics_normalize_frame (fun d _ => d) (obtuse_result_1 ℚ) (by decide)).2.2.2.2.1,
    (geodesics_normalize_frame (fun d _ => d) (obtuse_result_1 ℚ) (by decide)).2.2.2.2.2 2
      (by
        intro i hi
        have h0 : i = 0 := Nat.lt_one_iff.mp hi
        rw [h0]
        decide)⟩

end claim_normalize_frame

section claim_farthest_defined

variable {K D : Type} [LinearOrder D] [OrderTop D] [Zero D]

/-- The main loop never shortens the sorted order nor rewrites an entry of it. -/
theorem fm_loop_prefix (mesh : che K) (upd : che K → List D → index_t → D) (radio : D)
    (gc : Nat) (st : fm_state D) :
    st.n_sorted ≤ (fm_loop mesh upd radio gc st).n_sorted ∧
    ∀ i, i < st.n_sorted →
      (fm_loop mesh upd radio gc st).sorted_index.getD i NIL = st.sorted_index.getD i NIL := by
  induction gc generalizing st with
  | zero => exact ⟨le_refl _, fun _ _ => rfl⟩
  | succ gc ih =>
    rw [fm_loop_succ]
    rcases hit : fm_iter mesh upd radio st with ⟨b, st1⟩
    cases b
    · simp only [Bool.false_eq_true, if_false]
      rcases fm_iter_false mesh upd radio st st1 hit with
        ⟨_, rfl⟩ | ⟨_, rfl⟩ | ⟨top, q, _, _, rfl⟩
      · exact ⟨le_refl _, fun _ _ => rfl⟩
      · exact ⟨le_refl _, fun _ _ => rfl⟩
      · exact ⟨le_refl _, fun _ _ => rfl⟩
    · simp only [if_true]
      obtain ⟨h1, h2⟩ := fm_iter_true_sorted mesh upd radio st st1 hit
      obtain ⟨h3, h4⟩ := ih st1
      refine ⟨by omega, ?_⟩
      intro i hi
      rw [h4 i (by omega), h2 i hi]

/-- A pass of the main loop goes on when the vertex it pops is not beyond `radio`. -/
theorem fm_iter_flag (mesh : che K) (upd : che K → List D → index_t → D) (radio : D)
    (st : fm_state D) (top : D × index_t) (q : List (D × index_t))
    (hpop : cola_pop_black st.color st.cola = top :: q)
    (hrad : ¬ radio < st.distances.getD top.2 ⊤) :
    (fm_iter mesh upd radio st).1 = true := by
  have hne : st.cola ≠ [] := by
    intro h
    rw [h] at hpop
    simp [cola_pop_black] at hpop
  have hemp : st.cola.isEmpty = false := by
    cases hc : st.cola with
    | nil => exact absurd hc hne
    | cons a l => rfl
  unfold fm_iter
  simp only [hemp, hpop, hrad]
  simp

/-- The first pass of the main loop pops a source and appends it. -/
theorem fm_start_pop (n : Nat) (cluster : Bool) (sources : List index_t)
    (hs : sources ≠ []) (hlt : ∀ s ∈ sources, s < n) :
    ∃ top q,
      cola_pop_black (fm_start (geodesics.alloc n cluster : geodesics D) sources).color
        (fm_start (geodesics.alloc n cluster : geodesics D) sources).cola = top :: q ∧
      top.2 ∈ sources ∧
      (fm_start (geodesics.alloc n cluster : geodesics D) sources).distances.getD top.2 ⊤ =
        0 := by
  obtain ⟨_, _, _, _, hd, hc, hcola, hmem⟩ := fm_start_spec (D := D) n cluster sources
  obtain ⟨s0, rest, hs0⟩ := List.exists_cons_of_ne_nil hs
  have hs0m : s0 ∈ sources := by rw [hs0]; exact List.mem_cons_self _ _
  have hin := hmem s0 hs0m (hlt s0 hs0m)
  cases hp : cola_pop_black (fm_start (geodesics.alloc n cluster : geodesics D) sources).color
      (fm_start (geodesics.alloc n cluster : geodesics D) sources).cola with
  | nil =>
    have hb := cola_pop_black_nil _ _ hp _ hin
    simp only at hb
    rw [hc s0 (hlt s0 hs0m), if_pos hs0m] at hb
    simp [RED, BLACK] at hb
  | cons top q =>
    have htop := hcola top (cola_pop_black_cons _ _ _ _ hp).2.1
    exact ⟨top, q, rfl, htop, by rw [hd, if_pos ⟨htop, hlt _ htop⟩]⟩

/-- With a budget of at least one pass and `radio` not below `0`, the main loop ends
with a source at distance `0` in the first place of a non-empty sorted order. -/
theorem fm_loop_first (mesh : che K) (upd : che K → List D → index_t → D) (radio : D)
    (n gc : Nat) (cluster : Bool) (sources : List index_t)
    (hs : sources ≠ []) (hlt : ∀ s ∈ sources, s < n) (hrad : 0 ≤ radio) :
    let st := fm_loop mesh upd radio (gc + 1)
      (fm_start (geodesics.alloc n cluster : geodesics D) sources)
    1 ≤ st.n_sorted ∧ st.sorted_index.getD 0 NIL ∈ sources ∧
    st.distances.getD (st.sorted_index.getD 0 NIL) ⊤ = 0 := by
  intro st
  obtain ⟨top, q, hpop, htop, hd0⟩ := fm_start_pop (D := D) n cluster sources hs hlt
  have hwf0 := fm_start_wf (D := D) n cluster sources hlt
  have hflag := fm_iter_flag mesh upd radio _ top q hpop (by rw [hd0]; exact not_lt.mpr hrad)
  have hit : fm_iter mesh upd radio
      (fm_start (geodesics.alloc n cluster : geodesics D) sources) =
      (true, (fm_iter mesh upd radio
        (fm_start (geodesics.alloc n cluster : geodesics D) sources)).2) := by
    rw [← hflag]
  obtain ⟨hlt0, _, _, _, hns, hsi, _⟩ := fm_iter_append mesh upd radio n _ _ hwf0 hit
  obtain ⟨hkd, hkc⟩ := fm_iter_black_keeps mesh upd radio n _ hwf0 top q hpop
  have hn0 : (fm_start (geodesics.alloc n cluster : geodesics D) sources).n_sorted = 0 :=
    (fm_start_spec (D := D) n cluster sources).2.2.2.1
  have hb : fm_black (fm_start (geodesics.alloc n cluster : geodesics D) sources) = top.2 :=
    fm_black_eq _ top q hpop
  have hst : st = fm_loop mesh upd radio gc (fm_iter mesh upd radio
      (fm_start (geodesics.alloc n cluster : geodesics D) sources)).2 := by
    show fm_loop mesh upd radio (gc + 1) _ = _
    rw [fm_loop_succ, hflag, if_pos rfl]
  have hfirst : (fm_iter mesh upd radio
      (fm_start (geodesics.alloc n cluster : geodesics D) sources)).2.sorted_index.getD 0 NIL =
      top.2 := by
    rw [hsi, hn0, hb]
    exact getD_set_eq _ _ _ _ (by rw [hwf0.sorted_len]; omega)
  obtain ⟨hp1, hp2⟩ := fm_loop_prefix mesh upd radio gc (fm_iter mesh upd radio
    (fm_start (geodesics.alloc n cluster : geodesics D) sources)).2
  rw [← hst] at hp1 hp2
  have h0 : st.sorted_index.getD 0 NIL = top.2 := by
    rw [hp2 0 (by omega), hfirst]
  refine ⟨by omega, by rw [h0]; exact htop, ?_⟩
  rw [h0, hst, ((fm_loop_le_black mesh upd radio gc _ top.2).2 hkc).1, hkd, hd0]

/-- C21. After Fast Marching from a non-empty in-range source list, with any budget
`n_iter` and any `radio >= 0`: `n_sorted >= 1`, `sorted_index[0]` is a source and its
distance is `0`; hence `farthest()` and `radio()` pass their `assert(n_sorted != 0)`,
`farthest()` returns `sorted_index[n_sorted - 1]`, which is a vertex id below
`n_vertices`, and `radio()` returns the distance of that vertex. -/
theorem fast_marching_farthest_defined (mesh : che K) (upd : che K → List D → index_t → D)
    (engine : option_t → geodesics D → geodesics D) (sources : List index_t)
    (cluster : Bool) (n_iter : Nat) (radio : D)
    (hn : 0 < mesh.n_vertices) (hs : sources ≠ [])
    (hlt : ∀ s ∈ sources, s < mesh.n_vertices) (hrad : 0 ≤ radio) :
    ∃ g, geodesics.create mesh upd engine sources option_t.FM cluster n_iter radio = some g ∧
      1 ≤ g.n_sorted ∧ g.sorted_index.getD 0 NIL ∈ sources ∧
      g.distances.getD (g.sorted_index.getD 0 NIL) ⊤ = 0 ∧
      g.farthest = some (g.sorted_index.getD (g.n_sorted - 1) NIL) ∧
      g.sorted_index.getD (g.n_sorted - 1) NIL < mesh.n_vertices ∧
      g.radio = some (g.distances.getD (g.sorted_index.getD (g.n_sorted - 1) NIL) ⊤) := by
  refine ⟨_, create_FM mesh upd engine sources cluster n_iter radio hn hs, ?_⟩
  obtain ⟨gc, hgc⟩ : ∃ gc, fm_green_count
      (geodesics.alloc mesh.n_vertices cluster : geodesics D) n_iter = gc + 1 := by
    unfold fm_green_count
    by_cases h : n_iter ≠ 0
    · rw [if_pos h]
      exact ⟨n_iter - 1, by omega⟩
    · rw [if_neg h]
      exact ⟨mesh.n_vertices - 1, by
        show mesh.n_vertices = mesh.n_vertices - 1 + 1
        omega⟩
  obtain ⟨h1, h2, h3⟩ := fm_loop_first mesh upd radio mesh.n_vertices gc cluster sources
    hs hlt hrad
  have hwf := fm_loop_wf mesh upd radio mesh.n_vertices (gc + 1) _
    (fm_start_wf (D := D) mesh.n_vertices cluster sources hlt)
  simp only [geodesics.run_fastmarching, hgc, geodesics.farthest, geodesics.radio]
  have hne : ¬ (fm_loop mesh upd radio (gc + 1)
      (fm_start (geodesics.alloc mesh.n_vertices cluster : geodesics D) sources)).n_sorted =
      0 := by omega
  refine ⟨h1, h2, h3, by rw [if_neg hne], ?_, by rw [if_neg hne, if_neg hne]; rfl⟩
  exact (hwf.sorted_black _ (getD_mem_take _ _ _ (by omega)
    (by rw [hwf.sorted_len]; exact hwf.n_sorted_le))).1

theorem fast_marching_farthest_defined_witness :
    0 < (split_mesh ℚ).n_vertices ∧ ([0] : List index_t) ≠ [] ∧
    (∀ s ∈ ([0] : List index_t), s < (split_mesh ℚ).n_vertices) ∧
    (0 : WithTop ℚ) ≤ 0 ∧
    ∃ g, geodesics.create (split_mesh ℚ) (update_step qsqrt) (fun _ g => g) [0]
        option_t.FM false 0 0 = some g ∧
      1 ≤ g.n_sorted ∧ g.sorted_index.getD 0 NIL ∈ ([0] : List index_t) ∧
      g.distances.getD (g.sorted_index.getD 0 NIL) ⊤ = 0 ∧
      g.farthest = some (g.sorted_index.getD (g.n_sorted - 1) NIL) ∧
      g.sorted_index.getD (g.n_sorted - 1) NIL < (split_mesh ℚ).n_vertices ∧
      g.radio = some (g.distances.getD (g.sorted_index.getD (g.n_sorted - 1) NIL) ⊤) :=
  ⟨by decide, by decide, by decide, le_refl _,
    fast_marching_farthest_defined (split_mesh ℚ) (update_step qsqrt) (fun _ g => g) [0]
      false 0 0 (by decide) (by decide) (by decide) (le_refl _)⟩

end claim_farthest_defined

section claim_patch_roundtrip

variable {K : Type} [CommRing K]

theorem patch_t.ext_xyz {m : Nat} (p q : patch_t K m) (hn : p.n = q.n)
    (hi : p.indexes = q.indexes) (hx : p.xyz = q.xyz) (ha : p.avg = q.avg) (hE : p.E = q.E)
    (hp : p.phi = q.phi) : p = q := by
  cases p; cases q
  simp only at hn hi hx ha hE hp
  subst hn; subst hi; subst hx; subst ha; subst hE; subst hp
  rfl

/-- Without rounding the accumulated inner product is the sum of the three products. -/
theorem dot3_id (a b : Fin 3 → K) : dot3 id a b = ∑ k, a k * b k := by
  simp [dot3, Fin.sum_univ_three]

/-- Without rounding `transform` computes `E.t() * (xyz - avg)`. -/
theorem patch_transform_exact {m : Nat} (p : patch_t K m) :
    (p.transform id).xyz =
      p.E.transpose * Matrix.of (fun i j => p.xyz i j - p.avg i) := by
  ext i j
  simp only [patch_t.transform, Matrix.of_apply, dot3_id, Matrix.mul_apply,
    Matrix.transpose_apply, id]

/-- Without rounding `itransform` computes `E * xyz + avg`. -/
theorem patch_itransform_exact {m : Nat} (p : patch_t K m) (i : Fin 3) (j : Fin m) :
    (p.itransform id).xyz i j = (p.E * p.xyz) i j + p.avg i := by
  simp only [patch_t.itransform, Matrix.of_apply, dot3_id, Matrix.mul_apply, id]

/-- C22, as amended: in exact arithmetic. For every patch whose basis satisfies
`E * E.t() = I`, when no result of an arithmetic operation is rounded (`fl` is the
identity), `transform` replaces `xyz` by `E.t() * (xyz - avg)`, the centre `avg` being
subtracted from every column, and leaves the other members as they are, and
`itransform` applied afterwards gives the patch back, for a coordinate matrix of three
rows and any number `m` of columns. -/
theorem patch_transform_roundtrip {m : Nat} (p : patch_t K m)
    (hE : p.E * p.E.transpose = 1) :
    (p.transform id).xyz = p.E.transpose * Matrix.of (fun i j => p.xyz i j - p.avg i) ∧
    (p.transform id).n = p.n ∧ (p.transform id).indexes = p.indexes ∧
    (p.transform id).avg = p.avg ∧ (p.transform id).E = p.E ∧
    (p.transform id).phi = p.phi ∧
    (p.transform id).itransform id = p := by
  refine ⟨patch_transform_exact p, rfl, rfl, rfl, rfl, rfl, ?_⟩
  refine patch_t.ext_xyz ((p.transform id).itransform id) p rfl rfl ?_ rfl rfl rfl
  ext i j
  rw [patch_itransform_exact]
  have hE1 : (p.transform id).E = p.E := rfl
  have ha1 : (p.transform id).avg = p.avg := rfl
  rw [hE1, ha1, patch_transform_exact, ← Matrix.mul_assoc, hE, Matrix.one_mul]
  simp

theorem turn_patch_orthogonal : turn_patch.E * turn_patch.E.transpose = 1 := by
  ext i j
  fin_cases i <;> fin_cases j <;>
    simp [turn_patch, Matrix.mul_apply, Fin.sum_univ_three, Matrix.one_apply]

theorem patch_transform_roundtrip_witness :
    turn_patch.E * turn_patch.E.transpose = 1 ∧
    (turn_patch.transform id).xyz =
      turn_patch.E.transpose * Matrix.of (fun i j => turn_patch.xyz i j - turn_patch.avg i) ∧
    (turn_patch.transform id).itransform id = turn_patch :=
  ⟨turn_patch_orthogonal,
    (patch_transform_roundtrip turn_patch turn_patch_orthogonal).1,
    (patch_transform_roundtrip turn_patch turn_patch_orthogonal).2.2.2.2.2.2⟩

/-- C22 fails as stated, in `double` arithmetic. The patch of one point with the
coordinates `1e-20` (each the nearest `double`), the centre `(1, 1, 1)` and the identity
as basis has `E * E.t() = I` and every entry is a `double`; `transform` rounds
`1e-20 - 1` to `-1`, and `itransform` afterwards returns the coordinates `0`, not
`1e-20`. Every product and partial sum on the way is `0` or `-1`, so the order in which a
matrix product accumulates them does not matter here. -/
theorem patch_transform_roundtrip_counterexample :
    tiny_patch.E * tiny_patch.E.transpose = 1 ∧
    (∀ i j, double_round (tiny_patch.xyz i j) = tiny_patch.xyz i j) ∧
    (∀ i, double_round (tiny_patch.avg i) = tiny_patch.avg i) ∧
    (∀ i j, double_round (tiny_patch.E i j) = tiny_patch.E i j) ∧
    double_round (tiny - 1) = -1 ∧
    (∀ i j, (tiny_patch.transform double_round).xyz i j = -1) ∧
    (∀ i j, ((tiny_patch.transform double_round).itransform double_round).xyz i j = 0) ∧
    (∀ i j, tiny_patch.xyz i j = tiny) ∧ tiny ≠ 0 ∧
    (tiny_patch.transform double_round).itransform double_round ≠ tiny_patch := by
  have h0 : double_round 0 = 0 := by decide!
  have h1 : double_round 1 = 1 := by decide!
  have hm : double_round (-1) = -1 := by decide!
  have ht : double_round tiny = tiny := by decide!
  have hd : double_round (tiny - 1) = -1 := by decide!
  have hne : tiny ≠ 0 := by decide!
  have htr : ∀ i j, (tiny_patch.transform double_round).xyz i j = -1 := by
    intro i j
    fin_cases i <;>
      simp [patch_t.transform, tiny_patch, dot3, Fin.ext_iff, h0, hm, hd]
  have hit : ∀ i j,
      ((tiny_patch.transform double_round).itransform double_round).xyz i j = 0 := by
    intro i j
    have hE1 : (tiny_patch.transform double_round).E = tiny_patch.E := rfl
    have ha1 : (tiny_patch.transform double_round).avg = tiny_patch.avg := rfl
    simp only [patch_t.itransform, Matrix.of_apply, dot3, hE1, ha1, htr]
    fin_cases i <;> simp [tiny_patch, Fin.ext_iff, h0, hm]
  refine ⟨?_, fun _ _ => ht, fun _ => h1, ?_, hd, htr, hit, fun _ _ => rfl, hne, ?_⟩
  · ext i j
    fin_cases i <;> fin_cases j <;>
      simp [tiny_patch, Matrix.mul_apply, Fin.sum_univ_three, Matrix.one_apply]
  · intro i j
    show double_round (if i = j then 1 else 0) = if i = j then 1 else 0
    split
    · exact h1
    · exact h0
  · intro h
    have h00 := hit 0 0
    rw [h] at h00
    exact hne h00

end claim_patch_roundtrip
